import Mathlib

/-!
ClawCRM — verification of the offline semantic layer and ingestion pipeline

Shallow embedding of the core of the ClawCRM repository:

* the embedding engine (`tokenize`, `generateLocalEmbedding`, `embeddingToBuffer`,
  `bufferToEmbedding` from `src/lib/llm/embeddings.ts`),
* the fallback extractor's content locator (`FallbackProvider.getMeetingText`
  from `src/lib/llm/fallback.ts`),
* the meeting-ingestion route (`handlePreview` / `handleConfirm` from
  `src/app/api/meetings/process/route.ts`) over an explicit relational store,
* the WhatsApp-sync identity resolver (`nameMatchScore` / `findOrCreatePerson`
  from `src/lib/sync/whatsapp-sync.ts`).

Modelling conventions:

* JS 32-bit integer arithmetic (`|0`, `<<`, `Math.imul`, `^`) is modelled on
  unsigned residues mod `2^32`; the signed reading (`Math.abs`, `>> 16`) is
  recovered explicitly.
* JS numbers elsewhere are modelled as exact rationals `ℚ` (the final
  L2-normalisation, which divides by a square root, is stated over `ℝ`).
* Strings are treated as their character lists; `charCodeAt` is the code
  point (identical for the Basic Multilingual Plane inputs used throughout),
  and `toLowerCase` is modelled on the ASCII range.
* Timestamp columns (`createdAt` / `updatedAt` / `date`) are environment
  dependent and are omitted from the row types; no claim mentions them.
-/

namespace ClawCRM

set_option maxRecDepth 100000

/-! ### Definitions -/

/-- `2^32`, the modulus of JS 32-bit integer coercion. -/
def M32 : ℕ := 2 ^ 32

/-- Reading of an unsigned 32-bit residue as a signed int32 (`ToInt32`). -/
def toSigned (u : ℕ) : ℤ := if u < 2 ^ 31 then (u : ℤ) else (u : ℤ) - (M32 : ℤ)

/-- `Math.abs` of the signed reading of a 32-bit residue. -/
def absSigned (u : ℕ) : ℕ := if u < 2 ^ 31 then u else M32 - u

/-- The `\s` character class of JS regexps. -/
def jsWhitespace (c : Char) : Bool :=
  c.toNat ∈ [9, 10, 11, 12, 13, 32, 160, 0x1680, 0x2000, 0x2001, 0x2002,
    0x2003, 0x2004, 0x2005, 0x2006, 0x2007, 0x2008, 0x2009, 0x200A, 0x2028,
    0x2029, 0x202F, 0x205F, 0x3000, 0xFEFF]

/-- ASCII fragment of `String.prototype.toLowerCase`. -/
def jsToLower (c : Char) : Char :=
  if 'A' ≤ c ∧ c ≤ 'Z' then Char.ofNat (c.toNat + 32) else c

/-- The apostrophe character (code 39). -/
def apos : Char := Char.ofNat 39

/-- Characters kept by `replace(/[^a-z0-9\s'-]/g, " ")` (after lower-casing). -/
def keepChar (c : Char) : Bool :=
  ('a' ≤ c ∧ c ≤ 'z') ∨ ('0' ≤ c ∧ c ≤ '9') ∨ jsWhitespace c ∨ c = apos ∨ c = '-'

/-- Lower-case, then replace every non-kept character by a space. -/
def replacedChars (t : List Char) : List Char :=
  (t.map jsToLower).map (fun c => if keepChar c then c else ' ')

/-- Split on runs of JS whitespace, dropping empty pieces (the empty boundary
pieces JS `split(/\s+/)` can produce are removed by the length filter below,
so they are dropped here directly). -/
def splitWsAux : List Char → List Char → List (List Char)
  | [], acc => if acc = [] then [] else [acc.reverse]
  | c :: rest, acc =>
    if jsWhitespace c then
      if acc = [] then splitWsAux rest [] else acc.reverse :: splitWsAux rest []
    else splitWsAux rest (c :: acc)

/-- The `STOP_WORDS` set of `embeddings.ts`. -/
def STOP_WORDS : List String :=
  ["a", "an", "the", "and", "or", "but", "in", "on", "at", "to", "for",
   "of", "with", "by", "from", "is", "was", "are", "were", "be", "been",
   "being", "have", "has", "had", "do", "does", "did", "will", "would",
   "could", "should", "may", "might", "shall", "can", "need", "dare",
   "ought", "used", "i", "me", "my", "we", "our", "you", "your", "he",
   "him", "his", "she", "her", "it", "its", "they", "them", "their",
   "what", "which", "who", "whom", "this", "that", "these", "those",
   "am", "been", "about", "above", "after", "again", "against", "all",
   "any", "because", "before", "below", "between", "both", "during",
   "each", "few", "further", "here", "how", "into", "just", "more",
   "most", "no", "nor", "not", "only", "other", "out", "over", "own",
   "same", "so", "some", "such", "than", "then", "there", "through",
   "too", "under", "until", "up", "very", "s", "t", "don", "ll", "ve",
   "re", "d", "m", "o", "ain", "aren", "couldn", "didn", "doesn",
   "hadn", "hasn", "haven", "isn", "ma", "mightn", "mustn", "needn",
   "shan", "shouldn", "wasn", "weren", "won", "wouldn"]

/-- `tokenize` from `embeddings.ts`. -/
def tokenizeJS (t : String) : List String :=
  ((splitWsAux (replacedChars t.toList) []).map (fun w => String.mk w)).filter
    (fun w => decide (1 < w.length) && !(STOP_WORDS.contains w))

/-- One step of `hash = ((hash << 5) - hash + word.charCodeAt(i)) | 0`
on the unsigned residue (the whole step is `31 * hash + c` mod `2^32`). -/
def hashStep (u : ℕ) (c : Char) : ℕ := (31 * u + c.toNat) % M32

/-- `let hash = h * 2654435761` followed by the rolling loop. -/
def hashWord (seed : ℕ) (w : List Char) : ℕ :=
  w.foldl hashStep (seed * 2654435761 % M32)

/-- `Math.abs(hash) % EMBEDDING_DIMS`. -/
def uniIdx (seed : ℕ) (w : List Char) : ℕ := absSigned (hashWord seed w) % 384

/-- `((hash >> 16) & 1) === 0 ? 1 : -1` (bit 16 of the residue). -/
def uniSign (seed : ℕ) (w : List Char) : ℚ :=
  if hashWord seed w / 2 ^ 16 % 2 = 0 then 1 else -1

/-- One step of the FNV-1a-style bigram hash:
`bHash ^= c; bHash = Math.imul(bHash, 0x01000193)`. -/
def fnvStep (u : ℕ) (c : Char) : ℕ := (u ^^^ c.toNat) * 16777619 % M32

/-- `let bHash = 0x811c9dc5` followed by the FNV loop. -/
def fnvHash (s : List Char) : ℕ := s.foldl fnvStep 2166136261

/-- `Math.abs(bHash) % EMBEDDING_DIMS`. -/
def fnvIdx (s : List Char) : ℕ := absSigned (fnvHash s) % 384

/-- `embedding[idx] += x` (out-of-range indices leave the list unchanged;
all indices used are `< 384`). -/
def addAt (v : List ℚ) (i : ℕ) (x : ℚ) : List ℚ := v.set i (v.getD i 0 + x)

/-- The pure count table of the frequency loop in insertion order, the value
of the source's `freq` object on token streams that avoid the key
`"constructor"` (see `freqList` below for the faithful table including the
prototype-chain case, and `freqList_no_ctor` for the bridge). -/
def freqCounts (ws : List String) : List (String × ℕ) :=
  ws.foldl (fun acc w =>
    if acc.any (fun p => p.1 = w) then
      acc.map (fun p => if p.1 = w then (p.1, p.2 + 1) else p)
    else acc ++ [(w, 1)]) []

/-- The three seeded unigram contributions of one distinct word
(`for (let h = 0; h < 3; h++) ... embedding[idx] += sign * tf`). -/
def uniContrib (w : String) (tf : ℚ) (v : List ℚ) : List ℚ :=
  (List.range 3).foldl
    (fun v h => addAt v (uniIdx h w.toList) (uniSign h w.toList * tf)) v

/-- The bigram contribution of one distinct word: keyed on the **first**
occurrence of the word in the token stream (`wordIdx = words.indexOf(word)`),
weight `tf * 0.5`. -/
def bigramContrib (ws : List String) (w : String) (tf : ℚ) (v : List ℚ) : List ℚ :=
  if ws.indexOf w < ws.length - 1 then
    match ws[ws.indexOf w + 1]? with
    | some nxt => addAt v (fnvIdx ((w ++ "_" ++ nxt).toList)) (tf * (1 / 2))
    | none => v
  else v

/-- The accumulated (pre-normalisation) embedding vector over exact
rationals: the value of the source's accumulator on token streams that avoid
`"constructor"` (`words` is the token stream, `tf = count / words.length`).
`rawEmbedding` below is the faithful NaN-aware accumulator;
`rawEmbedding_no_ctor` is the bridge. -/
def rawEmbeddingQ (t : String) : List ℚ :=
  if (tokenizeJS t).length = 0 then List.replicate 384 (0 : ℚ)
  else
    (freqCounts (tokenizeJS t)).foldl (fun v p =>
      bigramContrib (tokenizeJS t) p.1 ((p.2 : ℚ) / ((tokenizeJS t).length : ℚ))
        (uniContrib p.1 ((p.2 : ℚ) / ((tokenizeJS t).length : ℚ)) v))
      (List.replicate 384 (0 : ℚ))

/-- Sum of squares of a rational vector (the squared magnitude computed by the
normalisation loop). -/
def sumSq (v : List ℚ) : ℚ := (v.map (fun x => x * x)).sum

/-- Sum of squares of a real vector (the squared L2 norm of the result). -/
def sumSqR (v : List ℝ) : ℝ := (v.map (fun x => x * x)).sum

/-! ### The faithful frequency table and accumulator

`const freq: Record<string, number> = {}` is a plain object, so the read in
`freq[w] = (freq[w] || 0) + 1` falls back to the prototype chain when `w` is
not an own key.  Tokens are lower-case words over `[a-z0-9'-]` of length ≥ 2,
and the only `Object.prototype` member with such a name is `constructor`
(`hasOwnProperty`, `toString`, `valueOf`, … contain upper-case letters and
`__proto__`, `__defineGetter__`, … contain underscores, which the tokenizer
strips).  For the token `"constructor"` the first read therefore yields the
inherited `Object` function, which is truthy, and `+ 1` produces a
non-numeric string; later reads see that string (truthy) and `+ 1` keeps it
a non-numeric string.  `count / words.length` on it is `NaN`, which poisons
the accumulator, makes `magnitude > 0` false, and suppresses normalisation.
`NaN` is modelled as `none`; every other frequency value is a genuine count. -/

/-- A value of the source's `freq` object: a number, or the non-numeric
string grown from the inherited `Object.prototype.constructor`. -/
inductive FreqVal where
  | num (c : ℕ)
  | str
  deriving DecidableEq

/-- `(freq[w] || 0) + 1` on an existing own value: numbers count up, the
constructor string stays a non-numeric string. -/
def bumpFreq : FreqVal → FreqVal
  | .num c => .num (c + 1)
  | .str => .str

/-- `(freq[w] || 0) + 1` when `w` is not an own key: the prototype fallback
makes `"constructor"` a string, every other token starts at count 1. -/
def initFreq (w : String) : FreqVal :=
  if w = "constructor" then .str else .num 1

/-- The faithful `freq` table in insertion order (iterated via
`Object.entries`, which lists own keys only). -/
def freqList (ws : List String) : List (String × FreqVal) :=
  ws.foldl (fun acc w =>
    if acc.any (fun p => p.1 = w) then
      acc.map (fun p => if p.1 = w then (p.1, bumpFreq p.2) else p)
    else acc ++ [(w, initFreq w)]) []

/-- JS addition on possibly-NaN numbers (`none` is NaN, which absorbs). -/
def jsAdd : Option ℚ → Option ℚ → Option ℚ
  | some x, some y => some (x + y)
  | _, _ => none

/-- JS multiplication on possibly-NaN numbers. -/
def jsMul : Option ℚ → Option ℚ → Option ℚ
  | some x, some y => some (x * y)
  | _, _ => none

/-- `const tf = count / words.length`: NaN when the count is the constructor
string. -/
def tfOf : FreqVal → ℕ → Option ℚ
  | .num c, n => some ((c : ℚ) / (n : ℚ))
  | .str, _ => none

/-- `embedding[idx] += x` on the NaN-aware accumulator. -/
def addAtJs (v : List (Option ℚ)) (i : ℕ) (x : Option ℚ) : List (Option ℚ) :=
  v.set i (jsAdd (v.getD i (some 0)) x)

/-- The three seeded unigram contributions (`embedding[idx] += sign * tf`). -/
def uniContribJs (w : String) (t : Option ℚ) (v : List (Option ℚ)) :
    List (Option ℚ) :=
  (List.range 3).foldl
    (fun v h => addAtJs v (uniIdx h w.toList) (jsMul (some (uniSign h w.toList)) t)) v

/-- The first-occurrence bigram contribution (`embedding[bIdx] += tf * 0.5`). -/
def bigramContribJs (ws : List String) (w : String) (t : Option ℚ)
    (v : List (Option ℚ)) : List (Option ℚ) :=
  if ws.indexOf w < ws.length - 1 then
    match ws[ws.indexOf w + 1]? with
    | some nxt => addAtJs v (fnvIdx ((w ++ "_" ++ nxt).toList)) (jsMul t (some (1 / 2)))
    | none => v
  else v

/-- The accumulated (pre-normalisation) embedding vector of
`generateLocalEmbedding`, NaN-aware. -/
def rawEmbedding (t : String) : List (Option ℚ) :=
  if (tokenizeJS t).length = 0 then List.replicate 384 (some (0 : ℚ))
  else
    (freqList (tokenizeJS t)).foldl (fun v p =>
      bigramContribJs (tokenizeJS t) p.1 (tfOf p.2 (tokenizeJS t).length)
        (uniContribJs p.1 (tfOf p.2 (tokenizeJS t).length) v))
      (List.replicate 384 (some (0 : ℚ)))

/-- The squared magnitude computed by the normalisation loop (`none` = NaN). -/
def sumSqJs (v : List (Option ℚ)) : Option ℚ :=
  v.foldl (fun acc x => jsAdd acc (jsMul x x)) (some 0)

/-- `addAt` on the scaled integer accumulator. -/
def addAtZ (v : List ℤ) (i : ℕ) (x : ℤ) : List ℤ := v.set i (v.getD i 0 + x)

/-- Integer sign variant of `uniSign`. -/
def uniSignZ (seed : ℕ) (w : List Char) : ℤ :=
  if hashWord seed w / 2 ^ 16 % 2 = 0 then 1 else -1

/-- Scaled unigram contributions (`sign * 2c` at the three seeded dims). -/
def uniContribZ (w : String) (c : ℕ) (v : List ℤ) : List ℤ :=
  (List.range 3).foldl
    (fun v h => addAtZ v (uniIdx h w.toList) (uniSignZ h w.toList * (2 * c))) v

/-- Scaled bigram contribution (`c` at the FNV dim of the first-occurrence
successor pair). -/
def bigramContribZ (ws : List String) (w : String) (c : ℕ) (v : List ℤ) : List ℤ :=
  if ws.indexOf w < ws.length - 1 then
    match ws[ws.indexOf w + 1]? with
    | some nxt => addAtZ v (fnvIdx ((w ++ "_" ++ nxt).toList)) (c : ℤ)
    | none => v
  else v

/-- The accumulator scaled by `2 * n`. -/
def rawScaled (t : String) : List ℤ :=
  if (tokenizeJS t).length = 0 then List.replicate 384 (0 : ℤ)
  else
    (freqCounts (tokenizeJS t)).foldl
      (fun v p => bigramContribZ (tokenizeJS t) p.1 p.2 (uniContribZ p.1 p.2 v))
      (List.replicate 384 (0 : ℤ))

section ScaledFaithful

/-- The de-scaling map `z ↦ z / (2 * n)`. -/
def descale (n : ℕ) (z : ℤ) : ℚ := (z : ℚ) / (2 * n)

/-- Modelled from the claim's words (for comparison with `rawEmbeddingQ`):
the same unigram accumulation, but one bigram feature per token **position**
with a successor, each weighted `tf * 0.5` where `tf` is the token's frequency
over the total count. -/
def rawEmbeddingClaimC7 (t : String) : List ℚ :=
  if (tokenizeJS t).length = 0 then List.replicate 384 (0 : ℚ)
  else
    (List.range ((tokenizeJS t).length - 1)).foldl (fun v i =>
      match (tokenizeJS t)[i]?, (tokenizeJS t)[i + 1]? with
      | some w, some nxt =>
        addAt v (fnvIdx ((w ++ "_" ++ nxt).toList))
          ((((tokenizeJS t).count w : ℚ) / ((tokenizeJS t).length : ℚ)) * (1 / 2))
      | _, _ => v)
      ((freqCounts (tokenizeJS t)).foldl (fun v p =>
        uniContrib p.1 ((p.2 : ℚ) / ((tokenizeJS t).length : ℚ)) v)
        (List.replicate 384 (0 : ℚ)))

/-- Scaled companion of `rawEmbeddingClaimC7`. -/
def rawScaledClaimC7 (t : String) : List ℤ :=
  if (tokenizeJS t).length = 0 then List.replicate 384 (0 : ℤ)
  else
    (List.range ((tokenizeJS t).length - 1)).foldl (fun v i =>
      match (tokenizeJS t)[i]?, (tokenizeJS t)[i + 1]? with
      | some w, some nxt =>
        addAtZ v (fnvIdx ((w ++ "_" ++ nxt).toList)) ((tokenizeJS t).count w : ℤ)
      | _, _ => v)
      ((freqCounts (tokenizeJS t)).foldl (fun v p => uniContribZ p.1 p.2 v)
        (List.replicate 384 (0 : ℤ)))

/-- Apply a list of indexed additions to the accumulator. -/
def applyAdds (v : List ℚ) (ops : List (ℕ × ℚ)) : List ℚ :=
  ops.foldl (fun v o => addAt v o.1 o.2) v

/-- The three unigram additions of one frequency-table entry. -/
def uniOps (n : ℕ) (w : String) (c : ℕ) : List (ℕ × ℚ) :=
  [(uniIdx 0 w.toList, uniSign 0 w.toList * ((c : ℚ) / (n : ℚ))),
   (uniIdx 1 w.toList, uniSign 1 w.toList * ((c : ℚ) / (n : ℚ))),
   (uniIdx 2 w.toList, uniSign 2 w.toList * ((c : ℚ) / (n : ℚ)))]

/-- The at-most-one bigram addition of one frequency-table entry: present
exactly when the first occurrence of the word has a successor. -/
def bigOps (n : ℕ) (ws : List String) (w : String) (c : ℕ) : List (ℕ × ℚ) :=
  if ws.indexOf w < ws.length - 1 then
    match ws[ws.indexOf w + 1]? with
    | some nxt => [(fnvIdx ((w ++ "_" ++ nxt).toList), ((c : ℚ) / (n : ℚ)) * (1 / 2))]
    | none => []
  else []

/-- The full list of additions performed by `rawEmbeddingQ`. -/
def rawOps (t : String) : List (ℕ × ℚ) :=
  (freqCounts (tokenizeJS t)).flatMap (fun p =>
    uniOps (tokenizeJS t).length p.1 p.2 ++
      bigOps (tokenizeJS t).length (tokenizeJS t) p.1 p.2)

structure PersonRow where
  id : ℕ
  name : String
  whatsappId : Option String := none
  tags : List String := []
  context : Option String := none
  embedding : Option (List ℚ) := none
  company : Option String := none
  role : Option String := none
  deriving DecidableEq

structure MeetingRow where
  id : ℕ
  personId : Option ℕ
  rawInput : String
  summary : String
  topics : List String
  embedding : Option (List ℚ)
  deriving DecidableEq

structure RelRow where
  id : ℕ
  personAId : ℕ
  personBId : ℕ
  context : Option String
  strength : ℚ
  deriving DecidableEq

structure Store where
  people : List PersonRow := []
  meetings : List MeetingRow := []
  meetingPeople : List (ℕ × ℕ) := []
  relationships : List RelRow := []
  nextPersonId : ℕ := 1
  nextMeetingId : ℕ := 1
  nextRelId : ℕ := 1
  deriving DecidableEq

/-- The empty database. -/
def emptyStore : Store := {}

/-- `db.select().from(people).where(eq(people.id, pid)).get()`. -/
def getPerson (s : Store) (pid : ℕ) : Option PersonRow :=
  s.people.find? (fun p => p.id == pid)

/-- `db.update(people).set(...).where(eq(people.id, pid))`. -/
def updatePersonRows (people : List PersonRow) (pid : ℕ) (f : PersonRow → PersonRow) :
    List PersonRow :=
  people.map (fun p => if p.id = pid then f p else p)

/-- One entry of the `assignments` array of the confirm body. -/
structure Assignment where
  extractedName : String
  personId : Option ℕ := none
  createNew : Bool := false
  newName : Option String := none

/-- JS truthiness of an optional numeric id (`undefined` and `0` are falsy). -/
def truthyId : Option ℕ → Option ℕ
  | some p => if p = 0 then none else some p
  | none => none

/-- JS truthiness of an optional string (`undefined` and `""` are falsy). -/
def truthyStr : Option String → Option String
  | some s => if s = "" then none else some s
  | none => none

/-- `person.context ? person.context + "\n\n" + summary : summary`
(an empty context string is falsy). -/
def appendContext (old : Option String) (summary : String) : String :=
  match old with
  | some c => if c = "" then summary else c ++ "\n\n" ++ summary
  | none => summary

/-- The `.set(...)` fields of the person update (route lines 236–251):
context plus embedding on embed success, context alone on embed failure. -/
def touchRow (embedder : String → Option (List ℚ)) (summary : String)
    (oldContext : Option String) (q : PersonRow) : PersonRow :=
  match embedder (appendContext oldContext summary) with
  | some e => { q with context := some (appendContext oldContext summary),
                       embedding := some e }
  | none => { q with context := some (appendContext oldContext summary) }

/-- The junction insert plus context/embedding update for one linked person
(route lines 217–254): insert the `meeting_people` row, re-select the person
(the junction insert does not change the people table, so the re-select reads
the same row), append the summary to their context, and re-embed the
context — leaving the embedding column untouched if `embedder` fails. -/
def linkAndTouch (embedder : String → Option (List ℚ)) (summary : String)
    (meetingId pid : ℕ) (s : Store) : Store :=
  match getPerson s pid with
  | none => { s with meetingPeople := s.meetingPeople ++ [(meetingId, pid)] }
  | some person =>
    { s with meetingPeople := s.meetingPeople ++ [(meetingId, pid)],
             people := updatePersonRows s.people pid
               (touchRow embedder summary person.context) }

/-- One iteration of the `for (const assignment of assignments)` loop
(route lines 189–255), accumulating the `linkedPeople` array as
`(id, name, isNew)` triples. -/
def processAssignment (embedder : String → Option (List ℚ)) (summary : String)
    (topics : List String) (meetingId : ℕ)
    (acc : Store × List (ℕ × String × Bool)) (a : Assignment) :
    Store × List (ℕ × String × Bool) :=
  if a.createNew || (truthyId a.personId).isNone then
    -- `db.insert(people).values({name, context: summary, tags: topics.slice(0,5)})`
    let nm := match truthyStr a.newName with
      | some nn => nn
      | none => a.extractedName
    let newId := acc.1.nextPersonId
    let s1 := { acc.1 with
      people := acc.1.people ++
        [{ id := newId, name := nm, context := some summary, tags := topics.take 5 }],
      nextPersonId := newId + 1 }
    if newId ≠ 0 then
      (linkAndTouch embedder summary meetingId newId s1, acc.2 ++ [(newId, nm, true)])
    else (s1, acc.2 ++ [(newId, nm, true)])
  else
    match truthyId a.personId with
    | some p =>
      let acc1 := match getPerson acc.1 p with
        | some e => acc.2 ++ [(e.id, e.name, false)]
        | none => acc.2
      (linkAndTouch embedder summary meetingId p acc.1, acc1)
    | none => acc

/-- The predicate of the existing-relationship scan (route lines 266–269):
matches the pair in either orientation. -/
def relFindPred (a b : ℕ) (r : RelRow) : Bool :=
  (r.personAId == a && r.personBId == b) || (r.personAId == b && r.personBId == a)

/-- `db.select().from(relationships).all().find(...)`. -/
def findRel (rels : List RelRow) (a b : ℕ) : Option RelRow :=
  rels.find? (relFindPred a b)

/-- `(existing.strength || 1) + 1` (a zero strength is falsy). -/
def bumpStrength (x : ℚ) : ℚ := (if x = 0 then 1 else x) + 1

/-- One iteration of the pair loop (route lines 264–288): increment the
existing row's strength, or insert a fresh row with strength 1. -/
def relUpsert (summary : String) (s : Store) (a b : ℕ) : Store :=
  match findRel s.relationships a b with
  | some r =>
    { s with relationships := s.relationships.map (fun x =>
        if x.id = r.id then { x with strength := bumpStrength r.strength } else x) }
  | none =>
    { s with
      relationships := s.relationships ++
        [{ id := s.nextRelId, personAId := a, personBId := b,
           context := some ("Co-mentioned in meeting: " ++ summary.take 100),
           strength := 1 }],
      nextRelId := s.nextRelId + 1 }

/-- The index pairs `(i, j)`, `i < j`, in the double loop's order. -/
def pairsOf : List ℕ → List (ℕ × ℕ)
  | [] => []
  | x :: xs => xs.map (fun y => (x, y)) ++ pairsOf xs

/-- The `if (linkedPeople.length > 1)` pair loop (route lines 258–291). -/
def relPhase (summary : String) (linked : List ℕ) (s : Store) : Store :=
  if 1 < linked.length then
    (pairsOf linked).foldl (fun s p => relUpsert summary s p.1 p.2) s
  else s

/-- `handleConfirm`: embed the text (failure tolerated), insert the meeting
row, process each assignment, then run the pair loop over the linked people.
Returns the new store plus `(meetingId, linkedPeople)`. -/
def handleConfirm (embedder : String → Option (List ℚ)) (text summary : String)
    (topics : List String) (assignments : List Assignment) (s : Store) :
    Store × ℕ × List (ℕ × String × Bool) :=
  let firstPersonId := match assignments.head? with
    | some a => truthyId a.personId
    | none => none
  let meetingId := s.nextMeetingId
  let s1 := { s with
    meetings := s.meetings ++
      [{ id := meetingId, personId := firstPersonId, rawInput := text,
         summary := summary, topics := topics, embedding := embedder text }],
    nextMeetingId := meetingId + 1 }
  let fold := assignments.foldl (processAssignment embedder summary topics meetingId) (s1, [])
  (relPhase summary (fold.2.map (fun l => l.1)) fold.1, s.nextMeetingId, fold.2)

/-- `MultiMeetingExtraction`. -/
structure Extraction where
  names : List String
  summary : String
  topics : List String

/-- `jsLower` on whole strings. -/
def jsLower (s : String) : String := String.mk (s.toList.map jsToLower)

/-- One scored roster entry (the JS object `{id, name, company, role, score}`;
`bestMatch` drops the score field when serialised, which does not affect any
claim). -/
structure Candidate where
  id : ℕ
  name : String
  company : Option String
  role : Option String
  score : ℚ
  deriving DecidableEq

/-- Candidate built from a roster entry. -/
def mkCandidate (sim : String → String → ℚ) (name : String) (p : PersonRow) : Candidate :=
  { id := p.id, name := p.name, company := p.company, role := p.role,
    score := sim (jsLower name) (jsLower p.name) }

/-- Stable insertion into a descending-by-score list (insert after all
entries with score `≥` the new score). -/
def insertDesc (c : Candidate) : List Candidate → List Candidate
  | [] => [c]
  | d :: rest => if d.score < c.score then c :: d :: rest else d :: insertDesc c rest

/-- `sort((a, b) => b.score - a.score)`: stable descending sort
(ECMAScript `Array.prototype.sort` is stable). -/
def sortByScoreDesc (l : List Candidate) : List Candidate := l.foldr insertDesc []

/-- `allPeople.map(score).filter(s > 0.2).sort(desc).slice(0, 5)`
(route lines 105–118). -/
def scoredCandidates (sim : String → String → ℚ) (people : List PersonRow)
    (name : String) : List Candidate :=
  (sortByScoreDesc ((people.map (mkCandidate sim name)).filter
    (fun c => mkRat 1 5 < c.score))).take 5

/-- One `PersonMatch` (route lines 104–131). -/
structure PersonMatch where
  extractedName : String
  bestMatch : Option Candidate
  candidates : List Candidate
  confidence : ℚ
  isNew : Bool
  deriving DecidableEq

/-- The per-name resolution of `handlePreview`:
`bestMatch = scored.length > 0 && scored[0].score >= 0.4 ? scored[0] : null`. -/
def resolveName (sim : String → String → ℚ) (people : List PersonRow)
    (name : String) : PersonMatch :=
  let scored := scoredCandidates sim people name
  let best := match scored.head? with
    | some c => if mkRat 2 5 ≤ c.score then some c else none
    | none => none
  { extractedName := name
    bestMatch := best
    candidates := scored
    confidence := match best with | some c => c.score | none => 0
    isNew := best.isNone }

/-- `handlePreview`: resolve every extracted name against the roster read from
the store; no write happens. -/
def handlePreview (sim : String → String → ℚ) (extraction : Extraction) (s : Store) :
    Store × Extraction × List PersonMatch :=
  (s, extraction, extraction.names.map (resolveName sim s.people))

inductive ReqBody where
  | preview (text : String)
  | confirmReq (text summary : String) (topics : List String)
      (assignments : List Assignment)

inductive RouteResponse where
  | badRequest
  | previewResp (extraction : Extraction) (personMatches : List PersonMatch)
  | confirmResp (meetingId : ℕ) (linkedPeople : List (ℕ × String × Bool))

def bodyText : ReqBody → String
  | .preview t => t
  | .confirmReq t _ _ _ => t

/-- The `POST` handler: reject empty text, then dispatch on the `confirm`
flag.  `extract` stands for the provider's extraction of the preview prompt
built from `text`. -/
def processRoute (sim : String → String → ℚ) (extract : String → Extraction)
    (embedder : String → Option (List ℚ)) (b : ReqBody) (s : Store) :
    Store × RouteResponse :=
  if bodyText b = "" then (s, .badRequest)
  else
    match b with
    | .preview text =>
      (s, .previewResp (extract text)
        ((extract text).names.map (resolveName sim s.people)))
    | .confirmReq text summary topics assignments =>
      let r := handleConfirm embedder text summary topics assignments s
      (r.1, .confirmResp r.2.1 r.2.2)

/-- JS `String.prototype.trim` (strip whitespace from both ends). -/
def jsTrim (s : String) : String :=
  String.mk (((s.toList.dropWhile jsWhitespace).reverse.dropWhile jsWhitespace).reverse)

/-- `hay.includes(pat)`: substring containment on character lists (an empty
pattern is contained in everything, as in JS). -/
def containsSeq (hay pat : List Char) : Bool :=
  match hay with
  | [] => pat.isEmpty
  | _ :: rest => pat.isPrefixOf hay || containsSeq rest pat

/-- `nameMatchScore` (whatsapp-sync lines 23–35): exact match 1, containment
0.8, otherwise token overlap divided by the larger token count (written with
`mkRat`, which equals the source's division since the denominator is
positive). -/
def nameMatchScore (a b : String) : ℚ :=
  if jsTrim (jsLower a) = jsTrim (jsLower b) then 1
  else if containsSeq (jsTrim (jsLower a)).toList (jsTrim (jsLower b)).toList
      || containsSeq (jsTrim (jsLower b)).toList (jsTrim (jsLower a)).toList then
    mkRat 4 5
  else
    mkRat
      (((splitWsAux (jsTrim (jsLower a)).toList []).map (fun w => String.mk w)).filter
        (fun t => ((splitWsAux (jsTrim (jsLower b)).toList []).map
          (fun w => String.mk w)).contains t)).length
      (max ((splitWsAux (jsTrim (jsLower a)).toList []).map (fun w => String.mk w)).length
           ((splitWsAux (jsTrim (jsLower b)).toList []).map (fun w => String.mk w)).length)

/-- The fuzzy-best loop of `findOrCreatePerson` (lines 81–89): first strict
maximum of `nameMatchScore` over the roster. -/
def fuzzyBest (name : String) (people : List PersonRow) :
    Option PersonRow × ℚ :=
  people.foldl (fun acc p =>
    if acc.2 < nameMatchScore name p.name then (some p, nameMatchScore name p.name)
    else acc) (none, 0)

/-- Result of `findOrCreatePerson`: `selfErr` models `throw new Error("SELF")`. -/
inductive FindOrCreate where
  | selfErr
  | ok (id : ℕ) (isNew : Bool) (matchedName : String)
  deriving DecidableEq

/-- `["you", "du", "ich"]`. -/
def selfNames : List String := ["you", "du", "ich"]

/-- Copy the whatsappId onto a matched person when we have one and they do
not (`if (whatsappId && !exact.whatsappId)`). -/
def adoptWaId (waId : Option String) (pid : ℕ) (s : Store) : Store :=
  match waId with
  | some wid =>
    match getPerson s pid with
    | some p =>
      if (truthyStr p.whatsappId).isNone then
        { s with
          people := updatePersonRows s.people pid (fun q => { q with whatsappId := some wid }) }
      else s
    | none => s
  | none => s

/-- Step 3 of `findOrCreatePerson`: insert a fresh person tagged
`whatsapp`. -/
def insertWhatsAppPerson (name : String) (waId : Option String) (s : Store) :
    Store × FindOrCreate :=
  let row : PersonRow :=
    { id := s.nextPersonId, name := name, whatsappId := waId,
      tags := ["whatsapp"], context := some "Imported from WhatsApp" }
  ({ s with people := s.people ++ [row], nextPersonId := s.nextPersonId + 1 },
   FindOrCreate.ok s.nextPersonId true name)

/-- Steps 2–3 of `findOrCreatePerson` (exact name match, fuzzy match at
threshold 0.7, else insert). -/
def findOrCreateByName (name : String) (waId : Option String) (s : Store) :
    Store × FindOrCreate :=
  match s.people.find? (fun p => jsLower p.name == jsLower name) with
  | some exact => (adoptWaId waId exact.id s, .ok exact.id false exact.name)
  | none =>
    match fuzzyBest name s.people with
    | (some bm, bs) =>
      if mkRat 7 10 ≤ bs then (adoptWaId waId bm.id s, .ok bm.id false bm.name)
      else insertWhatsAppPerson name waId s
    | (none, _) => insertWhatsAppPerson name waId s

/-- `findOrCreatePerson` (whatsapp-sync lines 40–113). -/
def findOrCreatePerson (name : String) (waId : Option String) (s : Store) :
    Store × FindOrCreate :=
  if selfNames.contains (jsLower name) then (s, .selfErr)
  else
    match waId with
    | some wid =>
      match s.people.find? (fun p => p.whatsappId == some wid) with
      | some p => (s, .ok p.id false p.name)
      | none => findOrCreateByName name waId s
    | none => findOrCreateByName name waId s

/-- The resolver's accept decision at threshold `thr` (the route hard-codes
`0.4 = mkRat 2 5`): the top scored candidate exists and scores `≥ thr`. -/
def acceptedAt (sim : String → String → ℚ) (people : List PersonRow)
    (thr : ℚ) (name : String) : Bool :=
  match (scoredCandidates sim people name).head? with
  | some c => decide (thr ≤ c.score)
  | none => false

/-- Whether a `findOrCreatePerson` outcome linked an existing person. -/
def acceptsExisting : FindOrCreate → Bool
  | .ok _ false _ => true
  | _ => false

/-- Modelled from the claim's words (for comparison with `scoredCandidates`):
"all roster entries sorted by similarity score descending with at most the
top 5 kept" — no `> 0.2` filter. -/
def claimCandidatesC3 (sim : String → String → ℚ) (people : List PersonRow)
    (name : String) : List Candidate :=
  (sortByScoreDesc (people.map (mkCandidate sim name))).take 5

/-- The meeting-insert step of `handleConfirm` (route lines 168–184). -/
def confirmMeetingStore (embedder : String → Option (List ℚ)) (text summary : String)
    (topics : List String) (assignments : List Assignment) (s : Store) : Store :=
  { s with
    meetings := s.meetings ++
      [{ id := s.nextMeetingId,
         personId := match assignments.head? with
           | some a => truthyId a.personId
           | none => none,
         rawInput := text, summary := summary, topics := topics,
         embedding := embedder text }],
    nextMeetingId := s.nextMeetingId + 1 }

/-- The relationship rows for the unordered pair `{a, b}`. -/
def rowsFor (rels : List RelRow) (a b : ℕ) : List RelRow :=
  rels.filter (relFindPred a b)

/-- `{c, d}` and `{a, b}` are the same unordered pair. -/
def samePair (a b c d : ℕ) : Prop := (c = a ∧ d = b) ∨ (c = b ∧ d = a)

/-- Well-formedness of the relationships table: distinct row ids below the
counter, at most one row per unordered pair, and strengths at least 1 —
all true of every store the ingestion pipeline produces from the empty one. -/
def WFRel (s : Store) : Prop :=
  (s.relationships.map (fun r => r.id)).Nodup ∧
  (∀ r ∈ s.relationships, r.id < s.nextRelId) ∧
  (∀ a b, (rowsFor s.relationships a b).length ≤ 1) ∧
  (∀ r ∈ s.relationships, 1 ≤ r.strength)

/-- The fresh row inserted by the `none` branch of the upsert. -/
def freshRelRow (summary : String) (s : Store) (a b : ℕ) : RelRow :=
  { id := s.nextRelId, personAId := a, personBId := b,
    context := some ("Co-mentioned in meeting: " ++ summary.take 100),
    strength := 1 }

/-- The bump function applied by the `some` branch: identity off the found id. -/
def bumpRow (r : RelRow) (x : RelRow) : RelRow :=
  if x.id = r.id then { x with strength := bumpStrength r.strength } else x

/-- The pair loop as a fold (the body of `relPhase`). -/
def relFold (summary : String) (ps : List (ℕ × ℕ)) (s : Store) : Store :=
  ps.foldl (fun s p => relUpsert summary s p.1 p.2) s

/-- The fixed delimiter set searched by `getMeetingText`. -/
def markers : List String :=
  ["meeting note:", "meeting text:", "meeting notes:", "note:", "text:", "input:",
   "---", "```", "here is", "here" ++ String.singleton apos ++ "s the", "transcript:",
   "content:", "the following"]

/-- `hay.indexOf(needle)` as a character scan: first index at which `needle`
starts, `none` when absent. -/
def strFindAux (needle : List Char) : List Char → ℕ → Option ℕ
  | [], i => if needle.isEmpty then some i else none
  | c :: rest, i =>
    if needle.isPrefixOf (c :: rest) then some i else strFindAux needle rest (i + 1)

/-- One iteration of the marker scan: `idx !== -1 && idx > bestIdx` keeps the
largest first-occurrence index. -/
def markerStep (lower : List Char) (st : ℤ × ℕ) (m : String) : ℤ × ℕ :=
  match strFindAux m.toList lower 0 with
  | some idx => if (idx : ℤ) > st.1 then ((idx : ℤ), m.toList.length) else st
  | none => st

/-- `(bestIdx, bestMarkerLen)` after the marker loop. -/
def bestMarker (lower : List Char) : ℤ × ℕ :=
  markers.foldl (markerStep lower) (-1, 0)

/-- The character class of `/^[\s`\-:]+/`. -/
def stripChar (c : Char) : Bool := jsWhitespace c || c = '`' || c = '-' || c = ':'

/-- `.trim()` on character lists. -/
def jsTrimList (l : List Char) : List Char :=
  ((l.dropWhile jsWhitespace).reverse.dropWhile jsWhitespace).reverse

/-- `prompt.slice(bestIdx + bestMarkerLen).replace(/^[\s`\-:]+/, "").trim()`. -/
def extractedC8 (prompt : String) : List Char :=
  jsTrimList ((prompt.toList.drop
    ((bestMarker (prompt.toList.map jsToLower)).1.toNat +
      (bestMarker (prompt.toList.map jsToLower)).2)).dropWhile stripChar)

/-- A JS word character (`\w`), for the `\b` boundaries in the line filters. -/
def wordChar (c : Char) : Bool :=
  ('a' ≤ c ∧ c ≤ 'z') ∨ ('A' ≤ c ∧ c ≤ 'Z') ∨ ('0' ≤ c ∧ c ≤ '9') ∨ c = '_'

/-- `/^(v1|v2|...)\b/` for a single alternative: prefix match followed by a
word boundary. -/
def startsWithWord (v : List Char) (l : List Char) : Bool :=
  v.isPrefixOf l &&
    (match l.drop v.length with
     | [] => true
     | c :: _ => !wordChar c)

/-- `\bw\b` occurrence scan: `prev` is the character before the current
position (`none` at the start of the line). -/
def hasWordAux (w : List Char) : List Char → Option Char → Bool
  | [], _ => false
  | c :: rest, prev =>
    ((match prev with
      | none => true
      | some pc => !wordChar pc) &&
     (w.isPrefixOf (c :: rest) &&
       (match (c :: rest).drop w.length with
        | [] => true
        | d :: _ => !wordChar d))) ||
    hasWordAux w rest (some c)

def hasWord (w : List Char) (l : List Char) : Bool := hasWordAux w l none

/-- Leading verbs of the instruction-line regex. -/
def instrVerbs : List String :=
  ["extract", "analyze", "parse", "return", "provide", "generate", "create",
   "output", "identify", "list", "find"]

/-- The words of the second test `/\b(return|format|valid|object|array)\b/`. -/
def jsonWords : List String := ["return", "format", "valid", "object", "array"]

/-- `prompt.split("\n")` (keeping empty lines, as in JS). -/
def splitNl : List Char → List (List Char)
  | [] => [[]]
  | c :: rest =>
    if c = '\n' then [] :: splitNl rest
    else
      match splitNl rest with
      | [] => [[c]]
      | l :: ls => (c :: l) :: ls

/-- The line filter of the instruction-stripping fallback. -/
def keepLine (line : List Char) : Bool :=
  let l := jsTrimList (line.map jsToLower)
  if l.length = 0 then false
  else if instrVerbs.any (fun v => startsWithWord v.toList l) then false
  else if hasWord (String.toList "json") l &&
      jsonWords.any (fun w => hasWord w.toList l) then false
  else true

/-- `contentLines.join("\n").trim() || prompt`. -/
def fallbackContent (prompt : String) : String :=
  let joined := jsTrimList (List.intercalate [Char.ofNat 10]
    ((splitNl prompt.toList).filter keepLine))
  if joined = [] then prompt else String.mk joined

/-- `FallbackProvider.getMeetingText`: take everything after the best marker
when that leaves more than 20 characters, else fall back to the instruction
line filter. -/
def getMeetingText (prompt : String) : String :=
  if (bestMarker (prompt.toList.map jsToLower)).1 ≠ -1 ∧
      20 < (extractedC8 prompt).length then
    String.mk (extractedC8 prompt)
  else fallbackContent prompt

/-- `hay.lastIndexOf(needle)` as a scan keeping the last hit. -/
def lastFindAux (needle : List Char) : List Char → ℕ → Option ℕ → Option ℕ
  | [], i, acc => if needle.isEmpty then some i else acc
  | c :: rest, i, acc =>
    lastFindAux needle rest (i + 1)
      (if needle.isPrefixOf (c :: rest) then some i else acc)

/-- Claim-modelled marker scan: the claim reads "the last occurrence … of any
marker", i.e. `lastIndexOf` in place of the code's `indexOf`. -/
def markerStepLastClaimC8 (lower : List Char) (st : ℤ × ℕ) (m : String) : ℤ × ℕ :=
  match lastFindAux m.toList lower 0 none with
  | some idx => if (idx : ℤ) > st.1 then ((idx : ℤ), m.toList.length) else st
  | none => st

def bestMarkerLastClaimC8 (lower : List Char) : ℤ × ℕ :=
  markers.foldl (markerStepLastClaimC8 lower) (-1, 0)

def extractedLastClaimC8 (prompt : String) : List Char :=
  jsTrimList ((prompt.toList.drop
    ((bestMarkerLastClaimC8 (prompt.toList.map jsToLower)).1.toNat +
      (bestMarkerLastClaimC8 (prompt.toList.map jsToLower)).2)).dropWhile stripChar)

/-- The claim's reading of `getMeetingText`, with last occurrences. -/
def getMeetingTextClaimC8 (prompt : String) : String :=
  if (bestMarkerLastClaimC8 (prompt.toList.map jsToLower)).1 ≠ -1 ∧
      20 < (extractedLastClaimC8 prompt).length then
    String.mk (extractedLastClaimC8 prompt)
  else fallbackContent prompt

/-- First occurrence of a marker as the JS `-1`-coded integer. -/
def firstOccZ (m : String) (lower : List Char) : ℤ :=
  match strFindAux m.toList lower 0 with
  | some i => (i : ℤ)
  | none => -1

/-- The prompt with "note:" twice: the code anchors at the FIRST occurrence. -/
def promptC8 : String :=
  "note: aaaa bbbb cccc note: zzzz yyyy xxxx wwww vvvv"

/-- Round to the nearest integer, ties to even. -/
def rneInt (q : ℚ) : ℤ :=
  if q - ⌊q⌋ < 1 / 2 then ⌊q⌋
  else if 1 / 2 < q - ⌊q⌋ then ⌊q⌋ + 1
  else if ⌊q⌋ % 2 = 0 then ⌊q⌋ else ⌊q⌋ + 1

/-- Bounded search for the binary exponent: the largest `e` in
`[-126, fuel - 127]` with `2 ^ e ≤ a`, else `-126` (the subnormal range). -/
def expSearch (a : ℚ) : ℕ → ℤ
  | 0 => -126
  | k + 1 => if (2 : ℚ) ^ ((k : ℤ) - 126) ≤ a then (k : ℤ) - 126 else expSearch a k

/-- The clamped binary32 exponent of a positive rational. -/
def expFor (a : ℚ) : ℤ := expSearch a 254

/-- The significand of `a`, rounded on the grid of exponent `expFor a`. -/
def roundSig (a : ℚ) : ℤ := rneInt (a / (2 : ℚ) ^ (expFor a - 23))

/-- Round-to-nearest-even conversion of a rational to a binary32 bit
pattern (sign bit, 8 exponent bits, 23 mantissa bits). -/
def roundF32 (x : ℚ) : ℕ :=
  if x = 0 then 0
  else
    (if x < 0 then 1 else 0) * 2 ^ 31 +
    (if roundSig |x| < 2 ^ 23 then (roundSig |x|).toNat
     else if roundSig |x| < 2 ^ 24 then
       (expFor |x| + 127).toNat * 2 ^ 23 + ((roundSig |x|).toNat - 2 ^ 23)
     else if expFor |x| = 127 then 255 * 2 ^ 23
     else (expFor |x| + 128).toNat * 2 ^ 23)

/-- The rational value of a binary32 bit pattern; `none` for exponent field
255 (NaN and the infinities have no rational value). -/
def decodeF32 (w : ℕ) : Option ℚ :=
  if w / 2 ^ 23 % 256 = 255 then none
  else some ((if w / 2 ^ 31 % 2 = 1 then (-1 : ℚ) else 1) *
    (if w / 2 ^ 23 % 256 = 0 then ((w % 2 ^ 23 : ℕ) : ℚ) * (2 : ℚ) ^ (-149 : ℤ)
     else ((2 ^ 23 + w % 2 ^ 23 : ℕ) : ℚ) *
       (2 : ℚ) ^ (((w / 2 ^ 23 % 256 : ℕ) : ℤ) - 150)))

/-- The 4 little-endian bytes of a 32-bit word (`writeFloatLE`). -/
def encodeWordLE (w : ℕ) : List ℕ :=
  [w % 256, w / 256 % 256, w / 2 ^ 16 % 256, w / 2 ^ 24 % 256]

/-- Reassemble a 32-bit word from its little-endian bytes (`readFloatLE`). -/
def decodeWordLE (b0 b1 b2 b3 : ℕ) : ℕ :=
  b0 + 256 * b1 + 2 ^ 16 * b2 + 2 ^ 24 * b3

/-- `embeddingToBuffer`: one 4-byte little-endian float32 per component. -/
def embeddingToBuffer (v : List ℚ) : List ℕ :=
  (v.map (fun x => encodeWordLE (roundF32 x))).flatten

/-- `bufferToEmbedding`: read 4-byte groups until fewer than 4 bytes remain
(on the 4·n buffers the code produces, the trailing case is the empty list;
`readFloatLE` past the end throws in JS and is not modelled). -/
def bufferToEmbedding : List ℕ → List (Option ℚ)
  | b0 :: b1 :: b2 :: b3 :: rest =>
    decodeF32 (decodeWordLE b0 b1 b2 b3) :: bufferToEmbedding rest
  | _ => []

/-! ### Theorems -/


/-! ## JS 32-bit primitives -/

/-! ## Tokenizer (`tokenize` in `embeddings.ts`)

`text.toLowerCase().replace(/[^a-z0-9\s'-]/g, " ").split(/\s+/)` followed by
the length / stop-word filter. -/

/-! ## Hash functions of `generateLocalEmbedding` -/

/-! ## The embedding accumulator (`generateLocalEmbedding`) -/

/-- `generateLocalEmbedding`: the accumulated vector, L2-normalised when
`magnitude > 0`.  `magnitude = Math.sqrt(sum)` is positive exactly when the
sum is a nonzero (rational) value; for a zero sum and for a NaN sum
(`Math.sqrt(NaN) = NaN`, and `NaN > 0` is false) the vector is returned
unnormalised.  (The early return for an empty token stream produces the same
all-zero vector as the zero-magnitude branch, which subsumes it.) -/
noncomputable def generateLocalEmbedding (t : String) : List (Option ℝ) :=
  match sumSqJs (rawEmbedding t) with
  | none => (rawEmbedding t).map (fun o => o.map (fun (q : ℚ) => (q : ℝ)))
  | some s =>
    if s = 0 then (rawEmbedding t).map (fun o => o.map (fun (q : ℚ) => (q : ℝ)))
    else
      (rawEmbedding t).map
        (fun o => o.map (fun (q : ℚ) => (q : ℝ) / Real.sqrt ((s : ℚ) : ℝ)))

/-! ### Kernel-evaluable companion of the accumulator

`Rat.add` is irreducible, so concrete instances of `rawEmbeddingQ` cannot be
evaluated by `decide`.  Every contribution to the accumulator is an integer
multiple of `1 / (2 * n)` (`n` the token count): `sign * tf = sign * 2c / 2n`
and `tf * 0.5 = c / 2n`.  The companion below accumulates those integer
multiples; `rawEmbeddingQ_eq_map_rawScaled` proves it faithful. -/

theorem descale_zero (n : ℕ) : descale n 0 = 0 := by simp [descale]

theorem descale_add (n : ℕ) (a b : ℤ) :
    descale n (a + b) = descale n a + descale n b := by
  simp [descale, add_div]

theorem getD_map_descale (n : ℕ) (v : List ℤ) (i : ℕ) :
    (v.map (descale n)).getD i 0 = descale n (v.getD i 0) := by
  induction v generalizing i with
  | nil => simp [descale_zero]
  | cons x xs ih =>
    cases i with
    | zero => simp
    | succ j => simpa using ih j

theorem map_descale_addAtZ (n : ℕ) (v : List ℤ) (i : ℕ) (x : ℤ) :
    (addAtZ v i x).map (descale n) = addAt (v.map (descale n)) i (descale n x) := by
  unfold addAtZ addAt
  rw [List.map_set, descale_add, getD_map_descale]

theorem descale_sign_mul (n : ℕ) (s : ℤ) (c : ℕ) :
    descale n (s * (2 * c)) = (s : ℚ) * ((c : ℚ) / (n : ℚ)) := by
  unfold descale
  push_cast
  rw [show (s : ℚ) * (2 * (c : ℚ)) = 2 * ((s : ℚ) * (c : ℚ)) by ring,
    mul_div_mul_left _ _ (two_ne_zero (α := ℚ)), mul_div_assoc]

theorem descale_bigram (n : ℕ) (c : ℕ) :
    descale n (c : ℤ) = ((c : ℚ) / (n : ℚ)) * (1 / 2) := by
  unfold descale
  push_cast
  rw [div_mul_div_comm, mul_one, mul_comm (n : ℚ) 2]

theorem uniContrib_eq_map (n : ℕ) (w : String) (c : ℕ) (v : List ℤ) :
    uniContrib w ((c : ℚ) / (n : ℚ)) ((v.map (descale n))) =
      (uniContribZ w c v).map (descale n) := by
  have hsign : ∀ seed, ((uniSignZ seed w.toList : ℤ) : ℚ) = uniSign seed w.toList := by
    intro seed
    unfold uniSignZ uniSign
    split <;> simp
  have hrange : List.range 3 = [0, 1, 2] := rfl
  unfold uniContrib uniContribZ
  rw [hrange]
  simp only [List.foldl_cons, List.foldl_nil]
  rw [map_descale_addAtZ, descale_sign_mul n, hsign,
      map_descale_addAtZ, descale_sign_mul n, hsign,
      map_descale_addAtZ, descale_sign_mul n, hsign]

theorem bigramContrib_eq_map (n : ℕ) (ws : List String) (w : String)
    (c : ℕ) (v : List ℤ) :
    bigramContrib ws w ((c : ℚ) / (n : ℚ)) ((v.map (descale n))) =
      (bigramContribZ ws w c v).map (descale n) := by
  unfold bigramContrib bigramContribZ
  split
  · rcases h : ws[ws.indexOf w + 1]? with _ | nxt
    · rfl
    · rw [map_descale_addAtZ, descale_bigram n]
  · rfl

theorem map_descale_replicate (n : ℕ) :
    (List.replicate 384 (0 : ℤ)).map (descale n) = List.replicate 384 (0 : ℚ) := by
  rw [List.map_replicate, descale_zero]

theorem rawEmbeddingQ_eq_map_rawScaled (t : String) :
    rawEmbeddingQ t = (rawScaled t).map (descale (tokenizeJS t).length) := by
  unfold rawEmbeddingQ rawScaled
  by_cases h : (tokenizeJS t).length = 0
  · rw [if_pos h, if_pos h, map_descale_replicate]
  · rw [if_neg h, if_neg h, ← map_descale_replicate (tokenizeJS t).length]
    generalize freqCounts (tokenizeJS t) = l
    generalize List.replicate 384 (0 : ℤ) = v
    induction l generalizing v with
    | nil => rfl
    | cons p rest ih =>
      simp only [List.foldl_cons]
      rw [uniContrib_eq_map, bigramContrib_eq_map, ih]

end ScaledFaithful

/-! ### Basic facts about `sumSq` -/

theorem sumSq_nonneg (v : List ℚ) : 0 ≤ sumSq v := by
  induction v with
  | nil => simp [sumSq]
  | cons x xs ih =>
    simp only [sumSq, List.map_cons, List.sum_cons] at ih ⊢
    exact add_nonneg (mul_self_nonneg x) ih

theorem sumSq_eq_zero_iff (v : List ℚ) : sumSq v = 0 ↔ ∀ x ∈ v, x = 0 := by
  induction v with
  | nil => simp [sumSq]
  | cons x xs ih =>
    simp only [sumSq, List.map_cons, List.sum_cons] at ih ⊢
    constructor
    · intro h y hy
      have hx : 0 ≤ x * x := mul_self_nonneg x
      have hs : 0 ≤ (xs.map fun x => x * x).sum := sumSq_nonneg xs
      have hx0 : x * x = 0 := le_antisymm (by linarith) hx
      have hs0 : (xs.map fun x => x * x).sum = 0 := by linarith
      rcases List.mem_cons.mp hy with hy' | hy'
      · rw [hy']; exact mul_self_eq_zero.mp hx0
      · exact ih.mp hs0 y hy'
    · intro h
      have hx : x = 0 := h x (List.mem_cons_self x xs)
      have hs : (xs.map fun x => x * x).sum = 0 :=
        ih.mpr fun y hy => h y (List.mem_cons_of_mem x hy)
      simp [hx, hs]

theorem sumSq_replicate_zero (k : ℕ) : sumSq (List.replicate k (0 : ℚ)) = 0 := by
  rw [sumSq, List.map_replicate]
  simp

theorem length_addAtZ (v : List ℤ) (i : ℕ) (x : ℤ) :
    (addAtZ v i x).length = v.length := by
  simp [addAtZ]

theorem length_uniContribZ (w : String) (c : ℕ) (v : List ℤ) :
    (uniContribZ w c v).length = v.length := by
  unfold uniContribZ
  rw [show List.range 3 = [0, 1, 2] from rfl]
  simp only [List.foldl_cons, List.foldl_nil]
  rw [length_addAtZ, length_addAtZ, length_addAtZ]

theorem length_bigramContribZ (ws : List String) (w : String) (c : ℕ) (v : List ℤ) :
    (bigramContribZ ws w c v).length = v.length := by
  unfold bigramContribZ
  split
  · rcases ws[ws.indexOf w + 1]? with _ | nxt
    · rfl
    · rw [length_addAtZ]
  · rfl

theorem foldl_contribZ_length (ws : List String) (l : List (String × ℕ)) (v : List ℤ) :
    (l.foldl (fun v p => bigramContribZ ws p.1 p.2 (uniContribZ p.1 p.2 v)) v).length
      = v.length := by
  induction l generalizing v with
  | nil => rfl
  | cons p rest ih =>
    simp only [List.foldl_cons]
    rw [ih, length_bigramContribZ, length_uniContribZ]

theorem length_rawScaled (t : String) : (rawScaled t).length = 384 := by
  unfold rawScaled
  split
  · exact List.length_replicate _ _
  · rw [foldl_contribZ_length]
    exact List.length_replicate _ _

/-- If the scaled accumulator is the zero vector, so is the rational one. -/
theorem rawEmbeddingQ_zero_of_scaled (t : String)
    (h : rawScaled t = List.replicate 384 (0 : ℤ)) :
    rawEmbeddingQ t = List.replicate 384 (0 : ℚ) := by
  rw [rawEmbeddingQ_eq_map_rawScaled, h, map_descale_replicate]

/-- If the scaled accumulator is not the zero vector, the rational accumulator
has nonzero squared magnitude. -/
theorem sumSq_rawEmbeddingQ_ne_zero (t : String)
    (h : rawScaled t ≠ List.replicate 384 (0 : ℤ)) :
    sumSq (rawEmbeddingQ t) ≠ 0 := by
  intro h0
  apply h
  have hall := (sumSq_eq_zero_iff _).mp h0
  rw [rawEmbeddingQ_eq_map_rawScaled] at hall
  rw [List.eq_replicate_iff]
  refine ⟨length_rawScaled t, ?_⟩
  intro z hz
  have hd : descale (tokenizeJS t).length z = 0 :=
    hall _ (List.mem_map_of_mem _ hz)
  unfold descale at hd
  rcases div_eq_zero_iff.mp hd with hz0 | hden
  · exact_mod_cast hz0
  · -- the denominator `2 * n` is zero only if the token list is empty,
    -- in which case the accumulator is definitionally the zero vector
    exfalso
    have hlen0 : (tokenizeJS t).length = 0 := by
      rcases mul_eq_zero.mp hden with h2 | hn
      · norm_num at h2
      · exact_mod_cast hn
    apply h
    unfold rawScaled
    rw [if_pos hlen0]

theorem sumSqR_replicate_zero (k : ℕ) : sumSqR (List.replicate k (0 : ℝ)) = 0 := by
  rw [sumSqR, List.map_replicate]
  simp

theorem sumSqR_map_div (a : List ℚ) (c : ℝ) :
    sumSqR (a.map (fun (q : ℚ) => (q : ℝ) / c)) = ((sumSq a : ℚ) : ℝ) / c ^ 2 := by
  induction a with
  | nil => simp [sumSqR, sumSq]
  | cons x xs ih =>
    simp only [sumSqR, sumSq, List.map_cons, List.sum_cons] at ih ⊢
    rw [Rat.cast_add, Rat.cast_mul, ih]
    ring

/-! ## Bridging the NaN-aware accumulator to the rational one -/

theorem uniIdx_lt (seed : ℕ) (w : List Char) : uniIdx seed w < 384 :=
  Nat.mod_lt _ (by norm_num)

theorem fnvIdx_lt (s : List Char) : fnvIdx s < 384 :=
  Nat.mod_lt _ (by norm_num)


theorem jsAdd_some_some (a b : ℚ) : jsAdd (some a) (some b) = some (a + b) := rfl

theorem jsMul_some_some (a b : ℚ) : jsMul (some a) (some b) = some (a * b) := rfl

theorem jsAdd_none_right (a : Option ℚ) : jsAdd a none = none := by
  cases a <;> rfl

theorem jsAdd_none_left (a : Option ℚ) : jsAdd none a = none := by
  cases a <;> rfl

theorem jsMul_none_right (a : Option ℚ) : jsMul a none = none := by
  cases a <;> rfl

theorem jsMul_none_left (a : Option ℚ) : jsMul none a = none := by
  cases a <;> rfl

theorem getD_map_some (v : List ℚ) (i : ℕ) :
    (v.map some).getD i (some 0) = some (v.getD i 0) := by
  induction v generalizing i with
  | nil => rfl
  | cons x xs ih =>
    cases i with
    | zero => rfl
    | succ j =>
      simp only [List.map_cons, List.getD_cons_succ]
      exact ih j

theorem addAtJs_map_some (v : List ℚ) (i : ℕ) (x : ℚ) :
    addAtJs (v.map some) i (some x) = (addAt v i x).map some := by
  unfold addAtJs addAt
  rw [getD_map_some, jsAdd_some_some, List.map_set]

theorem uniContribJs_map_some (w : String) (x : ℚ) (v : List ℚ) :
    uniContribJs w (some x) (v.map some) = (uniContrib w x v).map some := by
  unfold uniContribJs uniContrib
  rw [show List.range 3 = [0, 1, 2] from rfl]
  simp only [List.foldl_cons, List.foldl_nil]
  rw [jsMul_some_some, jsMul_some_some, jsMul_some_some,
    addAtJs_map_some, addAtJs_map_some, addAtJs_map_some]

theorem bigramContribJs_map_some (ws : List String) (w : String) (x : ℚ)
    (v : List ℚ) :
    bigramContribJs ws w (some x) (v.map some) = (bigramContrib ws w x v).map some := by
  unfold bigramContribJs bigramContrib
  by_cases h : ws.indexOf w < ws.length - 1
  · rw [if_pos h, if_pos h]
    rcases h2 : ws[ws.indexOf w + 1]? with _ | nxt
    · rfl
    · show addAtJs (v.map some) (fnvIdx ((w ++ "_" ++ nxt).toList))
          (jsMul (some x) (some (1 / 2)))
        = (addAt v (fnvIdx ((w ++ "_" ++ nxt).toList)) (x * (1 / 2))).map some
      rw [jsMul_some_some, addAtJs_map_some]
  · rw [if_neg h, if_neg h]

/-- One frequency-loop step on a non-"constructor" token matches the pure
count step. -/
theorem freqStep_no_ctor (acc : List (String × ℕ)) (w : String)
    (hw : w ≠ "constructor") :
    (if (acc.map (fun p => (p.1, FreqVal.num p.2))).any (fun p => p.1 = w) then
       (acc.map (fun p => (p.1, FreqVal.num p.2))).map
         (fun p => if p.1 = w then (p.1, bumpFreq p.2) else p)
     else (acc.map (fun p => (p.1, FreqVal.num p.2))) ++ [(w, initFreq w)]) =
    (if acc.any (fun p => p.1 = w) then
       acc.map (fun p => if p.1 = w then (p.1, p.2 + 1) else p)
     else acc ++ [(w, 1)]).map (fun p => (p.1, FreqVal.num p.2)) := by
  have hany : (acc.map (fun p => (p.1, FreqVal.num p.2))).any (fun p => p.1 = w)
      = acc.any (fun p => p.1 = w) := by
    induction acc with
    | nil => rfl
    | cons p rest ih => simp only [List.map_cons, List.any_cons, ih]
  rw [hany]
  cases acc.any (fun p => p.1 = w) with
  | false =>
    rw [if_neg (show ¬false = true by simp), if_neg (show ¬false = true by simp)]
    unfold initFreq
    rw [if_neg hw, List.map_append]
    rfl
  | true =>
    rw [if_pos rfl, if_pos rfl, List.map_map, List.map_map]
    congr 1
    funext p
    by_cases h : p.1 = w
    · simp only [Function.comp_apply, if_pos h]
      rfl
    · simp only [Function.comp_apply, if_neg h]

/-- On a token stream avoiding `"constructor"` the faithful `freq` table is
the pure count table. -/
theorem freqList_no_ctor (ws : List String) (hno : "constructor" ∉ ws) :
    freqList ws = (freqCounts ws).map (fun p => (p.1, FreqVal.num p.2)) := by
  unfold freqList freqCounts
  have h : ∀ (l : List String), "constructor" ∉ l → ∀ acc : List (String × ℕ),
      l.foldl (fun acc w =>
          if acc.any (fun p => p.1 = w) then
            acc.map (fun p => if p.1 = w then (p.1, bumpFreq p.2) else p)
          else acc ++ [(w, initFreq w)])
        (acc.map (fun p => (p.1, FreqVal.num p.2))) =
      (l.foldl (fun acc w =>
          if acc.any (fun p => p.1 = w) then
            acc.map (fun p => if p.1 = w then (p.1, p.2 + 1) else p)
          else acc ++ [(w, 1)]) acc).map (fun p => (p.1, FreqVal.num p.2)) := by
    intro l
    induction l with
    | nil =>
      intro _ acc
      rfl
    | cons w rest ih =>
      intro hno acc
      simp only [List.foldl_cons]
      rw [freqStep_no_ctor acc w (fun hc => hno (hc ▸ List.mem_cons_self w rest))]
      exact ih (fun hc => hno (List.mem_cons_of_mem w hc)) _
  exact h ws hno []

/-- The faithful accumulator agrees with the rational one on token streams
avoiding `"constructor"`. -/
theorem rawEmbedding_no_ctor (t : String) (hno : "constructor" ∉ tokenizeJS t) :
    rawEmbedding t = (rawEmbeddingQ t).map some := by
  unfold rawEmbedding rawEmbeddingQ
  by_cases h : (tokenizeJS t).length = 0
  · rw [if_pos h, if_pos h, List.map_replicate]
  · rw [if_neg h, if_neg h, freqList_no_ctor _ hno, List.foldl_map,
      show List.replicate 384 (some (0 : ℚ)) = (List.replicate 384 (0 : ℚ)).map some
        by rw [List.map_replicate]]
    generalize freqCounts (tokenizeJS t) = l
    generalize List.replicate 384 (0 : ℚ) = v
    induction l generalizing v with
    | nil => rfl
    | cons p rest ih =>
      simp only [List.foldl_cons]
      rw [show tfOf (p.1, FreqVal.num p.2).2 (tokenizeJS t).length
            = some ((p.2 : ℚ) / ((tokenizeJS t).length : ℚ)) from rfl,
        uniContribJs_map_some, bigramContribJs_map_some]
      exact ih _

theorem foldl_addsq_eq (v : List ℚ) : ∀ acc : ℚ,
    v.foldl (fun a x => a + x * x) acc = acc + sumSq v := by
  induction v with
  | nil =>
    intro acc
    simp [sumSq]
  | cons x xs ih =>
    intro acc
    simp only [List.foldl_cons]
    rw [ih]
    have hs : sumSq (x :: xs) = x * x + sumSq xs := by
      simp [sumSq]
    rw [hs]
    ring

theorem sumSqJs_map_some (v : List ℚ) : sumSqJs (v.map some) = some (sumSq v) := by
  unfold sumSqJs
  have h : ∀ (l : List ℚ) (acc : ℚ),
      (l.map some).foldl (fun a x => jsAdd a (jsMul x x)) (some acc)
        = some (l.foldl (fun a x => a + x * x) acc) := by
    intro l
    induction l with
    | nil =>
      intro acc
      rfl
    | cons x xs ih =>
      intro acc
      simp only [List.map_cons, List.foldl_cons]
      rw [jsMul_some_some, jsAdd_some_some]
      exact ih _
  rw [h v 0, foldl_addsq_eq, zero_add]

/-! ## The NaN-poisoned path: inputs containing the token "constructor" -/

theorem length_addAtJs (v : List (Option ℚ)) (i : ℕ) (x : Option ℚ) :
    (addAtJs v i x).length = v.length := by
  simp [addAtJs]

theorem length_uniContribJs (w : String) (x : Option ℚ) (v : List (Option ℚ)) :
    (uniContribJs w x v).length = v.length := by
  unfold uniContribJs
  rw [show List.range 3 = [0, 1, 2] from rfl]
  simp only [List.foldl_cons, List.foldl_nil, length_addAtJs]

theorem length_bigramContribJs (ws : List String) (w : String) (x : Option ℚ)
    (v : List (Option ℚ)) : (bigramContribJs ws w x v).length = v.length := by
  unfold bigramContribJs
  by_cases h : ws.indexOf w < ws.length - 1
  · rw [if_pos h]
    rcases h2 : ws[ws.indexOf w + 1]? with _ | nxt
    · rfl
    · exact length_addAtJs v _ _
  · rw [if_neg h]

theorem getD_addAtJs (v : List (Option ℚ)) (i d : ℕ) (x : Option ℚ) :
    (addAtJs v i x).getD d (some 0) =
      if i = d ∧ i < v.length then jsAdd (v.getD d (some 0)) x
      else v.getD d (some 0) := by
  induction v generalizing i d with
  | nil => simp [addAtJs]
  | cons y ys ih =>
    cases i with
    | zero =>
      cases d with
      | zero => simp [addAtJs]
      | succ e => simp [addAtJs]
    | succ j =>
      cases d with
      | zero => simp [addAtJs]
      | succ e =>
        have h := ih j e
        simp only [addAtJs, List.set_cons_succ, List.getD_cons_succ,
          List.length_cons] at h ⊢
        rw [h]
        by_cases hje : j = e
        · by_cases hjl : j < ys.length
          · rw [if_pos ⟨hje, hjl⟩, if_pos ⟨by omega, by omega⟩]
          · rw [if_neg (by tauto), if_neg (by omega)]
        · rw [if_neg (by tauto), if_neg (by omega)]

theorem getD_addAtJs_none (v : List (Option ℚ)) (i d : ℕ) (x : Option ℚ)
    (h : v.getD d (some 0) = none) :
    (addAtJs v i x).getD d (some 0) = none := by
  rw [getD_addAtJs]
  by_cases hc : i = d ∧ i < v.length
  · rw [if_pos hc, h, jsAdd_none_left]
  · rw [if_neg hc]
    exact h

theorem getD_addAtJs_self_none (v : List (Option ℚ)) (i : ℕ) (hi : i < v.length) :
    (addAtJs v i none).getD i (some 0) = none := by
  rw [getD_addAtJs, if_pos ⟨rfl, hi⟩, jsAdd_none_right]

theorem uniContribJs_none_sticky (w : String) (x : Option ℚ)
    (v : List (Option ℚ)) (d : ℕ) (h : v.getD d (some 0) = none) :
    (uniContribJs w x v).getD d (some 0) = none := by
  unfold uniContribJs
  rw [show List.range 3 = [0, 1, 2] from rfl]
  simp only [List.foldl_cons, List.foldl_nil]
  exact getD_addAtJs_none _ _ _ _ (getD_addAtJs_none _ _ _ _
    (getD_addAtJs_none _ _ _ _ h))

theorem bigramContribJs_none_sticky (ws : List String) (w : String)
    (x : Option ℚ) (v : List (Option ℚ)) (d : ℕ)
    (h : v.getD d (some 0) = none) :
    (bigramContribJs ws w x v).getD d (some 0) = none := by
  unfold bigramContribJs
  by_cases hb : ws.indexOf w < ws.length - 1
  · rw [if_pos hb]
    rcases h2 : ws[ws.indexOf w + 1]? with _ | nxt
    · exact h
    · exact getD_addAtJs_none _ _ _ _ h
  · rw [if_neg hb]
    exact h

/-- Processing a NaN-weighted word writes NaN at its third unigram dim. -/
theorem uniContribJs_ctor_none (w : String) (v : List (Option ℚ))
    (hlen : uniIdx 2 w.toList < v.length) :
    (uniContribJs w none v).getD (uniIdx 2 w.toList) (some 0) = none := by
  unfold uniContribJs
  rw [show List.range 3 = [0, 1, 2] from rfl]
  simp only [List.foldl_cons, List.foldl_nil]
  rw [jsMul_none_right, jsMul_none_right, jsMul_none_right]
  refine getD_addAtJs_self_none _ _ ?_
  rw [length_addAtJs, length_addAtJs]
  exact hlen

theorem foldl_contribJs_length (ws : List String) (n : ℕ)
    (l : List (String × FreqVal)) (v : List (Option ℚ)) :
    (l.foldl (fun v p =>
        bigramContribJs ws p.1 (tfOf p.2 n) (uniContribJs p.1 (tfOf p.2 n) v))
      v).length = v.length := by
  induction l generalizing v with
  | nil => rfl
  | cons p rest ih =>
    simp only [List.foldl_cons]
    rw [ih, length_bigramContribJs, length_uniContribJs]

theorem foldl_contribJs_sticky (ws : List String) (n : ℕ)
    (l : List (String × FreqVal)) (v : List (Option ℚ)) (d : ℕ)
    (h : v.getD d (some 0) = none) :
    (l.foldl (fun v p =>
        bigramContribJs ws p.1 (tfOf p.2 n) (uniContribJs p.1 (tfOf p.2 n) v))
      v).getD d (some 0) = none := by
  induction l generalizing v with
  | nil => exact h
  | cons p rest ih =>
    simp only [List.foldl_cons]
    exact ih _ (bigramContribJs_none_sticky _ _ _ _ _
      (uniContribJs_none_sticky _ _ _ _ h))

/-- The `"constructor"` entry of the faithful table carries the string. -/
theorem freqList_ctor_mem (ws : List String) (hc : "constructor" ∈ ws) :
    ("constructor", FreqVal.str) ∈ freqList ws := by
  unfold freqList
  have h : ∀ (l : List String) (acc : List (String × FreqVal)),
      (∀ p ∈ acc, p.1 = "constructor" → p.2 = FreqVal.str) →
      ("constructor" ∈ l ∨ ("constructor", FreqVal.str) ∈ acc) →
      ("constructor", FreqVal.str) ∈ l.foldl (fun acc w =>
        if acc.any (fun p => p.1 = w) then
          acc.map (fun p => if p.1 = w then (p.1, bumpFreq p.2) else p)
        else acc ++ [(w, initFreq w)]) acc := by
    intro l
    induction l with
    | nil =>
      intro acc _ hd
      rcases hd with hd | hd
      · cases hd
      · exact hd
    | cons w rest ih =>
      intro acc hinv hd
      simp only [List.foldl_cons]
      refine ih _ ?_ ?_
      · intro p hp hc1
        by_cases hb : acc.any (fun q => q.1 = w) = true
        · rw [if_pos hb] at hp
          obtain ⟨q, hq, hqe⟩ := List.mem_map.mp hp
          by_cases hqw : q.1 = w
          · rw [if_pos hqw] at hqe
            rw [← hqe] at hc1 ⊢
            show bumpFreq q.2 = FreqVal.str
            rw [hinv q hq hc1]
            rfl
          · rw [if_neg hqw] at hqe
            rw [← hqe] at hc1 ⊢
            exact hinv q hq hc1
        · rw [if_neg (by simpa using hb)] at hp
          rcases List.mem_append.mp hp with hp1 | hp1
          · exact hinv p hp1 hc1
          · simp only [List.mem_singleton] at hp1
            rw [hp1] at hc1 ⊢
            show initFreq w = FreqVal.str
            unfold initFreq
            rw [if_pos hc1]
      · rcases hd with hd | hd
        · rcases List.mem_cons.mp hd with hw | hrest
          · right
            by_cases hb : acc.any (fun q => q.1 = w) = true
            · rw [if_pos hb]
              obtain ⟨q, hq, hqw⟩ := List.any_eq_true.mp hb
              have hqw1 : q.1 = w := of_decide_eq_true hqw
              have hq2 : q.2 = FreqVal.str := hinv q hq (hqw1.trans hw.symm)
              have hq1 : q.1 = "constructor" := hqw1.trans hw.symm
              have hqe : q = ("constructor", FreqVal.str) := Prod.ext hq1 hq2
              refine List.mem_map.mpr ⟨("constructor", FreqVal.str), hqe ▸ hq, ?_⟩
              show (if (("constructor", FreqVal.str) : String × FreqVal).1 = w
                then _ else _) = _
              rw [if_pos (show ("constructor" : String) = w from hw)]
              rfl
            · rw [if_neg (by simpa using hb)]
              refine List.mem_append.mpr (Or.inr ?_)
              rw [← hw]
              show ("constructor", FreqVal.str) ∈ [("constructor", initFreq "constructor")]
              unfold initFreq
              rw [if_pos rfl]
              exact List.mem_singleton_self _
          · exact Or.inl hrest
        · right
          by_cases hb : acc.any (fun q => q.1 = w) = true
          · rw [if_pos hb]
            refine List.mem_map.mpr ⟨("constructor", FreqVal.str), hd, ?_⟩
            by_cases hcw : ("constructor" : String) = w
            · show (if (("constructor", FreqVal.str) : String × FreqVal).1 = w
                then _ else _) = _
              rw [if_pos hcw]
              rfl
            · show (if (("constructor", FreqVal.str) : String × FreqVal).1 = w
                then _ else _) = _
              rw [if_neg hcw]
          · rw [if_neg (by simpa using hb)]
            exact List.mem_append.mpr (Or.inl hd)
  exact h ws [] (fun p hp _ => absurd hp (List.not_mem_nil p)) (Or.inl hc)

theorem rawEmbedding_length (t : String) : (rawEmbedding t).length = 384 := by
  unfold rawEmbedding
  split
  · exact List.length_replicate _ _
  · rw [foldl_contribJs_length]
    exact List.length_replicate _ _

/-- An input containing the token `"constructor"` leaves NaN in the
accumulator (at the third unigram dim of that token, in particular). -/
theorem rawEmbedding_ctor_none (t : String) (hc : "constructor" ∈ tokenizeJS t) :
    (rawEmbedding t).getD (uniIdx 2 (String.toList "constructor")) (some 0)
      = none := by
  have hne : ¬(tokenizeJS t).length = 0 := by
    intro h0
    rw [List.length_eq_zero] at h0
    rw [h0] at hc
    cases hc
  unfold rawEmbedding
  rw [if_neg hne]
  obtain ⟨pre, post, hsplit⟩ := List.append_of_mem (freqList_ctor_mem _ hc)
  rw [hsplit, List.foldl_append, List.foldl_cons]
  refine foldl_contribJs_sticky _ _ _ _ _ ?_
  refine bigramContribJs_none_sticky _ _ _ _ _ ?_
  show (uniContribJs "constructor" none _).getD
    (uniIdx 2 (String.toList "constructor")) (some 0) = none
  refine uniContribJs_ctor_none _ _ ?_
  rw [foldl_contribJs_length, List.length_replicate]
  exact uniIdx_lt 2 _

theorem sumSqJs_absorb (v : List (Option ℚ)) :
    v.foldl (fun acc x => jsAdd acc (jsMul x x)) none = none := by
  induction v with
  | nil => rfl
  | cons x xs ih =>
    simp only [List.foldl_cons]
    rw [jsAdd_none_left]
    exact ih

theorem sumSqJs_none_of_mem (v : List (Option ℚ)) (h : none ∈ v) :
    sumSqJs v = none := by
  unfold sumSqJs
  have haux : ∀ (l : List (Option ℚ)) (acc : Option ℚ), none ∈ l →
      l.foldl (fun acc x => jsAdd acc (jsMul x x)) acc = none := by
    intro l
    induction l with
    | nil =>
      intro acc hm
      cases hm
    | cons x xs ih =>
      intro acc hm
      simp only [List.foldl_cons]
      rcases List.mem_cons.mp hm with hx | hxs
      · rw [← hx, jsMul_none_left, jsAdd_none_right]
        exact sumSqJs_absorb xs
      · exact ih _ hxs
  exact haux v (some 0) h

theorem getD_none_mem (v : List (Option ℚ)) (j : ℕ) (hj : j < v.length)
    (h : v.getD j (some 0) = none) : none ∈ v := by
  rw [List.getD_eq_getElem v (some 0) hj] at h
  rw [← h]
  exact List.getElem_mem hj

theorem gen_of_none (t : String) (h : sumSqJs (rawEmbedding t) = none) :
    generateLocalEmbedding t =
      (rawEmbedding t).map (fun o => o.map (fun (q : ℚ) => (q : ℝ))) := by
  unfold generateLocalEmbedding
  rw [h]

theorem gen_of_zero (t : String) (h : sumSqJs (rawEmbedding t) = some 0) :
    generateLocalEmbedding t =
      (rawEmbedding t).map (fun o => o.map (fun (q : ℚ) => (q : ℝ))) := by
  unfold generateLocalEmbedding
  rw [h]
  dsimp only
  rw [if_pos rfl]

theorem gen_of_ne (t : String) (s : ℚ) (h : sumSqJs (rawEmbedding t) = some s)
    (hs : s ≠ 0) :
    generateLocalEmbedding t =
      (rawEmbedding t).map
        (fun o => o.map (fun (q : ℚ) => (q : ℝ) / Real.sqrt ((s : ℚ) : ℝ))) := by
  unfold generateLocalEmbedding
  rw [h]
  dsimp only
  rw [if_neg hs]

theorem exists_unwrap (v : List (Option ℚ)) (h : ∀ x ∈ v, x ≠ none) :
    ∃ u : List ℚ, v = u.map some := by
  induction v with
  | nil => exact ⟨[], rfl⟩
  | cons x xs ih =>
    obtain ⟨u, hu⟩ := ih (fun y hy => h y (List.mem_cons_of_mem x hy))
    rcases x with _ | a
    · exact absurd rfl (h none (List.mem_cons_self _ _))
    · exact ⟨a :: u, by rw [List.map_cons, hu]⟩

/-! ## Claim C2 -/

/-- **C2 counterexample.**  The claim states that every input with a non-empty
token stream embeds to a vector of L2 norm 1.  The input `"fxc gxb zkb"`
tokenizes to three distinct words whose eleven signed hash contributions cancel
exactly: the accumulated vector is zero, the magnitude check fails, and
`generateLocalEmbedding` returns the all-zero vector (norm 0, not 1). -/
theorem claim_c2_counterexample :
    tokenizeJS "fxc gxb zkb" ≠ [] ∧
    generateLocalEmbedding "fxc gxb zkb" = List.replicate 384 (some (0 : ℝ)) ∧
    sumSqJs (rawEmbedding "fxc gxb zkb") = some 0 := by
  have hnoc : "constructor" ∉ tokenizeJS "fxc gxb zkb" := by decide
  have hbr := rawEmbedding_no_ctor _ hnoc
  have hz : rawScaled "fxc gxb zkb" = List.replicate 384 (0 : ℤ) := by decide
  have hQ := rawEmbeddingQ_zero_of_scaled _ hz
  have hss : sumSqJs (rawEmbedding "fxc gxb zkb") = some 0 := by
    rw [hbr, sumSqJs_map_some, hQ, sumSq_replicate_zero]
  refine ⟨by decide, ?_, hss⟩
  rw [gen_of_zero _ hss, hbr, hQ, List.map_replicate, List.map_replicate]
  norm_num

/-- **C2 amended.**  Three regimes, matching the program exactly:
an empty token stream returns the all-zero 384-vector; when the squared
magnitude is a nonzero rational the result is normalised to squared L2 norm
exactly 1; and when the input contains the token `"constructor"` the
prototype-chain read makes the frequency a non-numeric string, `tf` is NaN,
the magnitude is NaN, the `magnitude > 0` check fails, and an unnormalised
NaN-contaminated vector is returned.  (The original claim's "token stream
non-empty implies norm 1" fails both for exact cancellation — the
counterexample — and on the NaN path.) -/
theorem claim_c2_amended (t : String) :
    (tokenizeJS t = [] →
      generateLocalEmbedding t = List.replicate 384 (some (0 : ℝ))) ∧
    (∀ s : ℚ, sumSqJs (rawEmbedding t) = some s → s ≠ 0 →
      ∃ u : List ℝ, generateLocalEmbedding t = u.map some ∧ sumSqR u = 1) ∧
    ("constructor" ∈ tokenizeJS t →
      sumSqJs (rawEmbedding t) = none ∧
      generateLocalEmbedding t =
        (rawEmbedding t).map (fun o => o.map (fun (q : ℚ) => (q : ℝ))) ∧
      ∃ i, i < 384 ∧ (rawEmbedding t).getD i (some 0) = none) := by
  refine ⟨?_, ?_, ?_⟩
  · intro h
    have hlen : (tokenizeJS t).length = 0 := by
      rw [h]
      rfl
    have hraw : rawEmbedding t = List.replicate 384 (some (0 : ℚ)) := by
      unfold rawEmbedding
      rw [if_pos hlen]
    have hss : sumSqJs (rawEmbedding t) = some 0 := by
      rw [hraw, show List.replicate 384 (some (0 : ℚ))
          = (List.replicate 384 (0 : ℚ)).map some by rw [List.map_replicate],
        sumSqJs_map_some, sumSq_replicate_zero]
    rw [gen_of_zero t hss, hraw, List.map_replicate]
    norm_num
  · intro s hss hs0
    have hnn : ∀ x ∈ rawEmbedding t, x ≠ none := by
      intro x hx hxn
      rw [hxn] at hx
      rw [sumSqJs_none_of_mem _ hx] at hss
      cases hss
    obtain ⟨u0, hu0⟩ := exists_unwrap _ hnn
    have hs' : sumSq u0 = s := by
      rw [hu0, sumSqJs_map_some] at hss
      exact Option.some.inj hss
    refine ⟨u0.map (fun q : ℚ => (q : ℝ) / Real.sqrt ((s : ℚ) : ℝ)), ?_, ?_⟩
    · rw [gen_of_ne t s hss hs0, hu0, List.map_map, List.map_map]
      rfl
    · rw [sumSqR_map_div, hs',
        Real.sq_sqrt (by exact_mod_cast hs' ▸ sumSq_nonneg u0)]
      exact div_self (by exact_mod_cast hs0)
  · intro hc
    have h1 := rawEmbedding_ctor_none t hc
    have hmem : none ∈ rawEmbedding t :=
      getD_none_mem _ _ (by rw [rawEmbedding_length]; exact uniIdx_lt 2 _) h1
    have hss := sumSqJs_none_of_mem _ hmem
    exact ⟨hss, gen_of_none t hss,
      uniIdx 2 (String.toList "constructor"), uniIdx_lt 2 _, h1⟩

/-- Witness for C2 amended: a concrete poisoned input (containing the token
"constructor") whose magnitude is NaN and that is returned unnormalised, and
a concrete clean input with nonzero accumulator and unit squared norm. -/
theorem claim_c2_amended_witness :
    ("constructor" ∈ tokenizeJS "the constructor pattern rocks" ∧
      sumSqJs (rawEmbedding "the constructor pattern rocks") = none ∧
      generateLocalEmbedding "the constructor pattern rocks" =
        (rawEmbedding "the constructor pattern rocks").map
          (fun o => o.map (fun (q : ℚ) => (q : ℝ)))) ∧
    ∃ u : List ℝ, generateLocalEmbedding "hi hello" = u.map some ∧ sumSqR u = 1 := by
  constructor
  · have h := (claim_c2_amended "the constructor pattern rocks").2.2 (by decide)
    exact ⟨by decide, h.1, h.2.1⟩
  · refine (claim_c2_amended "hi hello").2.1 (sumSq (rawEmbeddingQ "hi hello")) ?_ ?_
    · rw [rawEmbedding_no_ctor _ (by decide), sumSqJs_map_some]
    · exact sumSq_rawEmbeddingQ_ne_zero _ (by decide)

/-! ## Claim C7

The claim asserts that **every token position** with a successor contributes a
bigram feature.  The code computes `wordIdx = words.indexOf(word)` — the first
occurrence of each distinct word — so each distinct word contributes at most
one bigram feature, keyed to the successor of its first occurrence. -/

theorem rawEmbeddingClaimC7_eq_map (t : String) :
    rawEmbeddingClaimC7 t = (rawScaledClaimC7 t).map (descale (tokenizeJS t).length) := by
  unfold rawEmbeddingClaimC7 rawScaledClaimC7
  by_cases h : (tokenizeJS t).length = 0
  · rw [if_pos h, if_pos h, map_descale_replicate]
  · rw [if_neg h, if_neg h]
    have huni :
        (freqCounts (tokenizeJS t)).foldl (fun v p =>
          uniContrib p.1 ((p.2 : ℚ) / ((tokenizeJS t).length : ℚ)) v)
          (List.replicate 384 (0 : ℚ)) =
        ((freqCounts (tokenizeJS t)).foldl (fun v p => uniContribZ p.1 p.2 v)
          (List.replicate 384 (0 : ℤ))).map (descale (tokenizeJS t).length) := by
      rw [← map_descale_replicate (tokenizeJS t).length]
      generalize freqCounts (tokenizeJS t) = l
      generalize List.replicate 384 (0 : ℤ) = v
      induction l generalizing v with
      | nil => rfl
      | cons p rest ih =>
        simp only [List.foldl_cons]
        rw [uniContrib_eq_map, ih]
    rw [huni]
    generalize List.range ((tokenizeJS t).length - 1) = l
    generalize (freqCounts (tokenizeJS t)).foldl (fun v p => uniContribZ p.1 p.2 v)
      (List.replicate 384 (0 : ℤ)) = v
    induction l generalizing v with
    | nil => rfl
    | cons i rest ih =>
      simp only [List.foldl_cons]
      rcases h1 : (tokenizeJS t)[i]? with _ | w
      · rw [← ih]
      · rcases h2 : (tokenizeJS t)[i + 1]? with _ | nxt
        · rw [← ih]
        · rw [← ih, map_descale_addAtZ, descale_bigram]

/-- **C7 counterexample.**  On `"aa bb aa cc"` (no poisoned token, so the
faithful accumulator is the rational one) the token `aa` occurs twice; the
claim's per-position reading would add a bigram feature for `aa cc` (position
2), but the code keys bigrams on `words.indexOf(word)` and only adds the
first-occurrence bigram `aa bb` — the accumulators differ. -/
theorem claim_c7_counterexample :
    rawEmbedding "aa bb aa cc" = (rawEmbeddingQ "aa bb aa cc").map some ∧
    rawEmbedding "aa bb aa cc" ≠ (rawEmbeddingClaimC7 "aa bb aa cc").map some := by
  have hbr : rawEmbedding "aa bb aa cc" = (rawEmbeddingQ "aa bb aa cc").map some :=
    rawEmbedding_no_ctor _ (by decide)
  refine ⟨hbr, ?_⟩
  rw [hbr]
  intro hmap
  have h := (List.map_injective_iff.mpr (Option.some_injective ℚ)) hmap
  rw [rawEmbeddingQ_eq_map_rawScaled, rawEmbeddingClaimC7_eq_map] at h
  have hn : ((tokenizeJS "aa bb aa cc").length : ℕ) ≠ 0 := by decide
  have hinj : Function.Injective (descale (tokenizeJS "aa bb aa cc").length) := by
    intro a b hab
    unfold descale at hab
    have h2n : ((2 : ℚ) * ((tokenizeJS "aa bb aa cc").length : ℚ)) ≠ 0 :=
      mul_ne_zero two_ne_zero (Nat.cast_ne_zero.mpr hn)
    rw [div_eq_mul_inv, div_eq_mul_inv] at hab
    have := mul_right_cancel₀ (inv_ne_zero h2n) hab
    exact_mod_cast this
  have := List.map_injective_iff.mpr hinj h
  revert this
  decide

/-! ### Additive characterisation of the accumulator -/

theorem length_addAt (v : List ℚ) (i : ℕ) (x : ℚ) :
    (addAt v i x).length = v.length := by
  simp [addAt]

theorem getD_addAt (v : List ℚ) (i d : ℕ) (x : ℚ) :
    (addAt v i x).getD d 0 =
      v.getD d 0 + if i = d ∧ i < v.length then x else 0 := by
  induction v generalizing i d with
  | nil => simp [addAt]
  | cons y ys ih =>
    cases i with
    | zero =>
      cases d with
      | zero => simp [addAt]
      | succ e => simp [addAt]
    | succ j =>
      cases d with
      | zero => simp [addAt]
      | succ e =>
        have h := ih j e
        simp only [addAt, List.set_cons_succ, List.getD_cons_succ, List.length_cons] at h ⊢
        rw [h]
        by_cases hje : j = e
        · by_cases hjl : j < ys.length
          · rw [if_pos ⟨hje, hjl⟩, if_pos ⟨by omega, by omega⟩]
          · rw [if_neg (by tauto), if_neg (by omega)]
        · rw [if_neg (by tauto), if_neg (by omega)]

theorem length_applyAdds (ops : List (ℕ × ℚ)) (v : List ℚ) :
    (applyAdds v ops).length = v.length := by
  induction ops generalizing v with
  | nil => rfl
  | cons o rest ih =>
    simp only [applyAdds, List.foldl_cons]
    rw [show List.foldl (fun v o => addAt v o.1 o.2) (addAt v o.1 o.2) rest
        = applyAdds (addAt v o.1 o.2) rest from rfl, ih, length_addAt]

theorem getD_applyAdds (ops : List (ℕ × ℚ)) (v : List ℚ) (d : ℕ)
    (hb : ∀ o ∈ ops, o.1 < v.length) :
    (applyAdds v ops).getD d 0 =
      v.getD d 0 + ((ops.filter (fun o => o.1 = d)).map Prod.snd).sum := by
  induction ops generalizing v with
  | nil => simp [applyAdds]
  | cons o rest ih =>
    have hov : o.1 < v.length := hb o (List.mem_cons_self o rest)
    have hrest : ∀ o' ∈ rest, o'.1 < (addAt v o.1 o.2).length := by
      intro o' ho'
      rw [length_addAt]
      exact hb o' (List.mem_cons_of_mem o ho')
    simp only [applyAdds, List.foldl_cons]
    rw [show List.foldl (fun v o => addAt v o.1 o.2) (addAt v o.1 o.2) rest
        = applyAdds (addAt v o.1 o.2) rest from rfl, ih _ hrest, getD_addAt]
    by_cases he : o.1 = d
    · rw [if_pos ⟨he, hov⟩,
        show List.filter (fun o => decide (o.1 = d)) (o :: rest)
          = o :: List.filter (fun o => decide (o.1 = d)) rest by
            simp [List.filter_cons, he]]
      simp only [List.map_cons, List.sum_cons]
      ring
    · rw [if_neg (by tauto),
        show List.filter (fun o => decide (o.1 = d)) (o :: rest)
          = List.filter (fun o => decide (o.1 = d)) rest by
            simp [List.filter_cons, he]]
      ring

theorem applyAdds_append (v : List ℚ) (a b : List (ℕ × ℚ)) :
    applyAdds v (a ++ b) = applyAdds (applyAdds v a) b := by
  simp [applyAdds, List.foldl_append]

theorem uniContrib_eq_applyAdds (n : ℕ) (w : String) (c : ℕ) (v : List ℚ) :
    uniContrib w ((c : ℚ) / (n : ℚ)) v = applyAdds v (uniOps n w c) := rfl

theorem bigramContrib_eq_applyAdds (n : ℕ) (ws : List String) (w : String)
    (c : ℕ) (v : List ℚ) :
    bigramContrib ws w ((c : ℚ) / (n : ℚ)) v = applyAdds v (bigOps n ws w c) := by
  unfold bigramContrib bigOps
  split
  · rcases ws[ws.indexOf w + 1]? with _ | nxt <;> rfl
  · rfl

theorem rawEmbeddingQ_eq_applyAdds (t : String) (h : (tokenizeJS t).length ≠ 0) :
    rawEmbeddingQ t = applyAdds (List.replicate 384 (0 : ℚ)) (rawOps t) := by
  unfold rawEmbeddingQ rawOps
  rw [if_neg h]
  generalize freqCounts (tokenizeJS t) = l
  generalize List.replicate 384 (0 : ℚ) = v
  induction l generalizing v with
  | nil => rfl
  | cons p rest ih =>
    simp only [List.foldl_cons, List.flatMap_cons]
    rw [applyAdds_append, applyAdds_append, ← uniContrib_eq_applyAdds,
      ← bigramContrib_eq_applyAdds, ih]

theorem rawOps_bounded (t : String) : ∀ o ∈ rawOps t, o.1 < 384 := by
  intro o ho
  rcases List.mem_flatMap.mp ho with ⟨p, _, hmem⟩
  rcases List.mem_append.mp hmem with h1 | h2
  · unfold uniOps at h1
    simp only [List.mem_cons, List.not_mem_nil, or_false] at h1
    rcases h1 with h | h | h <;> subst h <;> exact uniIdx_lt _ _
  · unfold bigOps at h2
    split at h2
    · split at h2
      · simp only [List.mem_singleton] at h2
        subst h2
        exact fnvIdx_lt _
      · cases h2
    · cases h2

theorem getD_replicate_zero (k d : ℕ) :
    (List.replicate k (0 : ℚ)).getD d 0 = 0 := by
  induction k generalizing d with
  | zero => simp
  | succ m ih =>
    cases d with
    | zero => simp [List.replicate_succ]
    | succ e => simp [List.replicate_succ]

/-- Additive characterisation of the rational accumulator. -/
theorem rawEmbeddingQ_getD_ops (t : String) (d : ℕ)
    (h : (tokenizeJS t).length ≠ 0) :
    (rawEmbeddingQ t).getD d 0 =
      (((rawOps t).filter (fun o => o.1 = d)).map Prod.snd).sum := by
  rw [rawEmbeddingQ_eq_applyAdds t h, getD_applyAdds _ _ _
    (fun o ho => by rw [List.length_replicate]; exact rawOps_bounded t o ho),
    getD_replicate_zero, zero_add]

/-- **C7 amended.**  On inputs avoiding the poisoned token `"constructor"`,
the `d`-th accumulator entry is the sum, over the entries `(w, c)` of the
word-frequency table (one per **distinct** token), of the three signed
unigram weights hashed to `d` plus **at most one** bigram weight `tf * 0.5`,
present exactly when the **first occurrence** of `w` in the token stream has
a successor (and keyed to that successor) — not one bigram per occurrence as
the original claim stated.  On inputs containing `"constructor"` the
prototype-chain read makes the frequency a non-numeric string, its `tf` is
NaN, and the accumulator is NaN-contaminated, so no per-dimension rational
sum exists at all. -/
theorem claim_c7_amended (t : String) (d : ℕ) :
    ("constructor" ∉ tokenizeJS t → (tokenizeJS t).length ≠ 0 →
      (rawEmbedding t).getD d (some 0) =
        some ((((rawOps t).filter (fun o => o.1 = d)).map Prod.snd).sum)) ∧
    ("constructor" ∈ tokenizeJS t →
      ∃ i, i < 384 ∧ (rawEmbedding t).getD i (some 0) = none) := by
  constructor
  · intro hno hlen
    rw [rawEmbedding_no_ctor t hno, getD_map_some, rawEmbeddingQ_getD_ops t d hlen]
  · intro hc
    exact ⟨uniIdx 2 (String.toList "constructor"), uniIdx_lt 2 _,
      rawEmbedding_ctor_none t hc⟩

/-- Witness for C7 amended: a clean input at a concrete dimension, and a
poisoned input with a NaN entry. -/
theorem claim_c7_amended_witness :
    ("constructor" ∉ tokenizeJS "hi hello" ∧ (tokenizeJS "hi hello").length ≠ 0 ∧
      (rawEmbedding "hi hello").getD 7 (some 0) =
        some ((((rawOps "hi hello").filter (fun o => o.1 = 7)).map Prod.snd).sum)) ∧
    ("constructor" ∈ tokenizeJS "constructor go brr" ∧
      ∃ i, i < 384 ∧
        (rawEmbedding "constructor go brr").getD i (some 0) = none) := by
  constructor
  · exact ⟨by decide, by decide,
      (claim_c7_amended "hi hello" 7).1 (by decide) (by decide)⟩
  · exact ⟨by decide, (claim_c7_amended "constructor go brr" 0).2 (by decide)⟩

/-! ## The relational store

Row types for the drizzle tables in `src/lib/db/schema.ts` (timestamp columns
omitted; embedding blobs carried as the encoded vector).  Auto-increment ids
are modelled by explicit counters, as SQLite assigns them. -/

/-! ## `handleConfirm` (`src/app/api/meetings/process/route.ts`, lines 150–297)

The embedding provider is a parameter `embedder : String → Option (List ℚ)`;
`none` models a thrown/failed `embedder.embed` call (caught by the handler's
`try`/`catch`). -/

/-! ## `handlePreview` (route lines 61–141)

The LLM extraction step is an external provider call; the handler's own logic
starts from its result, so the extraction is a parameter.  The fuzzy score
`stringSimilarity` is a third-party library call and is likewise a parameter
`sim`; the handler applies it to the lower-cased extracted and roster names.
Thresholds `0.2` / `0.4` are written `mkRat 1 5` / `mkRat 2 5` (equal to the
source literals; `mkRat` keeps the definition kernel-evaluable). -/

/-! ## The route dispatcher (`POST`, route lines 38–59) -/

/-! ## WhatsApp-sync identity resolution (`src/lib/sync/whatsapp-sync.ts`) -/

/-! ## Claim C4 — the preview phase writes nothing -/

/-- **C4.**  For every input text and store, dispatching a preview request
leaves all four tables (and the id counters) exactly as they were: the
preview phase only reads the roster. -/
theorem claim_c4_preview_no_writes (sim : String → String → ℚ)
    (extract : String → Extraction) (embedder : String → Option (List ℚ))
    (text : String) (s : Store) :
    (processRoute sim extract embedder (ReqBody.preview text) s).1 = s := by
  unfold processRoute
  split <;> rfl

/-! ## Claim C9 — threshold monotonicity -/

theorem filter_length_mono {α : Type} (p q : α → Bool)
    (h : ∀ a, p a = true → q a = true) (l : List α) :
    (l.filter p).length ≤ (l.filter q).length := by
  induction l with
  | nil => simp
  | cons x xs ih =>
    simp only [List.filter_cons]
    by_cases hp : p x = true
    · rw [hp, h x hp]
      simpa using ih
    · rw [Bool.eq_false_iff.mpr hp]
      by_cases hq : q x = true
      · rw [hq]
        simp only [if_true, List.length_cons]
        exact le_trans ih (Nat.le_succ _)
      · rw [Bool.eq_false_iff.mpr hq]
        simpa using ih

/-- **C9.**  Raising the acceptance threshold never accepts a name the lower
threshold rejected, hence never increases the number of accepted best-matches;
the code's fixed `0.4` decision in `resolveName` agrees with `acceptedAt` at
threshold `2/5`. -/
theorem claim_c9_threshold_monotone (sim : String → String → ℚ)
    (people : List PersonRow) (names : List String) (t1 t2 : ℚ) (h : t1 ≤ t2) :
    (∀ name, acceptedAt sim people t2 name = true →
      acceptedAt sim people t1 name = true) ∧
    (names.filter (acceptedAt sim people t2)).length ≤
      (names.filter (acceptedAt sim people t1)).length ∧
    (∀ name, (resolveName sim people name).bestMatch.isSome =
      acceptedAt sim people (mkRat 2 5) name) := by
  have hpt : ∀ name, acceptedAt sim people t2 name = true →
      acceptedAt sim people t1 name = true := by
    intro name
    unfold acceptedAt
    rcases (scoredCandidates sim people name).head? with _ | c
    · exact fun hx => hx
    · intro hx
      have := of_decide_eq_true hx
      exact decide_eq_true (le_trans h this)
  refine ⟨hpt, filter_length_mono _ _ hpt names, ?_⟩
  intro name
  simp only [resolveName, acceptedAt]
  rcases hh : (scoredCandidates sim people name).head? with _ | c
  · simp [hh]
  · by_cases hc : mkRat 2 5 ≤ c.score <;> simp [hh, hc]

/-- Witness for C9 at thresholds `0 ≤ 1` on a concrete roster and name set. -/
theorem claim_c9_threshold_monotone_witness :
    ((0 : ℚ) ≤ 1) ∧
    ((["Sarah Chen"].filter (acceptedAt (fun a b => if a = b then 1 else 0) [] 1)).length ≤
      (["Sarah Chen"].filter (acceptedAt (fun a b => if a = b then 1 else 0) [] 0)).length) :=
  ⟨by norm_num,
   (claim_c9_threshold_monotone (fun a b => if a = b then 1 else 0) [] ["Sarah Chen"] 0 1
     (by norm_num)).2.1⟩

/-! ## Claim C3 — candidate list and thresholds of the resolver -/

theorem perm_insertDesc (c : Candidate) (l : List Candidate) :
    (insertDesc c l).Perm (c :: l) := by
  induction l with
  | nil => exact List.Perm.refl _
  | cons d rest ih =>
    unfold insertDesc
    split
    · exact List.Perm.refl _
    · exact (ih.cons d).trans (List.Perm.swap c d rest)

theorem perm_sortByScoreDesc (l : List Candidate) : (sortByScoreDesc l).Perm l := by
  induction l with
  | nil => exact List.Perm.refl _
  | cons x xs ih =>
    exact (perm_insertDesc x (sortByScoreDesc xs)).trans (ih.cons x)

theorem sorted_insertDesc (c : Candidate) (l : List Candidate)
    (h : l.Sorted (fun a b => b.score ≤ a.score)) :
    (insertDesc c l).Sorted (fun a b => b.score ≤ a.score) := by
  induction l with
  | nil => simp [insertDesc]
  | cons d rest ih =>
    rw [List.sorted_cons] at h
    unfold insertDesc
    split
    · rename_i hlt
      rw [List.sorted_cons]
      refine ⟨?_, by rw [List.sorted_cons]; exact h⟩
      intro b hb
      rcases List.mem_cons.mp hb with hb' | hb'
      · rw [hb']; exact le_of_lt hlt
      · exact le_trans (h.1 b hb') (le_of_lt hlt)
    · rename_i hnlt
      rw [List.sorted_cons]
      refine ⟨?_, ih h.2⟩
      intro b hb
      have hb' : b ∈ c :: rest := (perm_insertDesc c rest).subset hb
      rcases List.mem_cons.mp hb' with hb'' | hb''
      · rw [hb'']; exact le_of_not_lt hnlt
      · exact h.1 b hb''

theorem sorted_sortByScoreDesc (l : List Candidate) :
    (sortByScoreDesc l).Sorted (fun a b => b.score ≤ a.score) := by
  induction l with
  | nil => simp [sortByScoreDesc]
  | cons x xs ih => exact sorted_insertDesc x _ ih

/-- **C3 counterexample.**  The claim says the candidate list contains *all*
roster entries (sorted, top 5).  The code filters out scores `≤ 0.2` first
(route line 116): for a roster entry scoring 0 against the extracted name the
code's candidate list is empty while the claim's reading keeps the entry. -/
theorem claim_c3_counterexample :
    (resolveName (fun a b => if a = b then 1 else 0)
      [{ id := 1, name := "Bob" }] "Zed").candidates = [] ∧
    claimCandidatesC3 (fun a b => if a = b then 1 else 0)
      [{ id := 1, name := "Bob" }] "Zed" =
      [mkCandidate (fun a b => if a = b then 1 else 0) "Zed" { id := 1, name := "Bob" }] ∧
    (resolveName (fun a b => if a = b then 1 else 0)
      [{ id := 1, name := "Bob" }] "Zed").candidates ≠
      claimCandidatesC3 (fun a b => if a = b then 1 else 0)
        [{ id := 1, name := "Bob" }] "Zed" := by
  refine ⟨by decide, by decide, by decide⟩

/-- **C3 amended.**  The preview resolver returns as candidates the roster
entries **scoring above 0.2**, sorted by score descending, at most 5 kept
(complete up to the cap); `bestMatch` is the top candidate exactly when its
score is `≥ 0.4`, with `confidence` equal to that score and `isNew = false`,
and otherwise `bestMatch = null`, `confidence = 0`, `isNew = true`.  The
live-channel path accepts a fuzzy match only at score `≥ 0.7`. -/
theorem claim_c3_amended (sim : String → String → ℚ) (people : List PersonRow)
    (name : String) :
    ((resolveName sim people name).candidates.length ≤ 5) ∧
    ((resolveName sim people name).candidates.Sorted (fun a b => b.score ≤ a.score)) ∧
    (∀ c ∈ (resolveName sim people name).candidates,
      mkRat 1 5 < c.score ∧ ∃ p ∈ people, c = mkCandidate sim name p) ∧
    (∀ p ∈ people, mkRat 1 5 < (mkCandidate sim name p).score →
      mkCandidate sim name p ∈ (resolveName sim people name).candidates ∨
        (resolveName sim people name).candidates.length = 5) ∧
    (∀ c, (resolveName sim people name).bestMatch = some c →
      (resolveName sim people name).candidates.head? = some c ∧
      mkRat 2 5 ≤ c.score ∧
      (resolveName sim people name).confidence = c.score ∧
      (resolveName sim people name).isNew = false) ∧
    ((resolveName sim people name).bestMatch = none →
      ((resolveName sim people name).candidates = [] ∨
        ∀ c, (resolveName sim people name).candidates.head? = some c →
          ¬ mkRat 2 5 ≤ c.score) ∧
      (resolveName sim people name).confidence = 0 ∧
      (resolveName sim people name).isNew = true) ∧
    (∀ (nm : String) (st : Store),
      st.people.find? (fun p => jsLower p.name == jsLower nm) = none →
      (acceptsExisting (findOrCreateByName nm none st).2 = true ↔
        ((fuzzyBest nm st.people).1.isSome ∧
          mkRat 7 10 ≤ (fuzzyBest nm st.people).2))) := by
  have hcand : (resolveName sim people name).candidates
      = scoredCandidates sim people name := rfl
  constructor
  · -- length ≤ 5
    rw [hcand]
    unfold scoredCandidates
    exact le_trans (List.length_take_le _ _) (le_refl _)
  constructor
  · -- sorted descending
    rw [hcand]
    unfold scoredCandidates
    exact List.Pairwise.sublist (List.take_sublist _ _) (sorted_sortByScoreDesc _)
  constructor
  · -- soundness of membership
    rw [hcand]
    intro c hc
    unfold scoredCandidates at hc
    have hmem := (perm_sortByScoreDesc _).subset (List.mem_of_mem_take hc)
    rcases List.mem_filter.mp hmem with ⟨hmap, hsc⟩
    refine ⟨of_decide_eq_true hsc, ?_⟩
    rcases List.mem_map.mp hmap with ⟨p, hp, hpc⟩
    exact ⟨p, hp, hpc.symm⟩
  constructor
  · -- completeness up to the cap
    rw [hcand]
    intro p hp hsc
    unfold scoredCandidates
    have hmem : mkCandidate sim name p ∈
        (people.map (mkCandidate sim name)).filter (fun c => mkRat 1 5 < c.score) :=
      List.mem_filter.mpr ⟨List.mem_map_of_mem _ hp, decide_eq_true hsc⟩
    have hmem' := (perm_sortByScoreDesc _).mem_iff.mpr hmem
    by_cases hlen : (sortByScoreDesc ((people.map (mkCandidate sim name)).filter
        (fun c => mkRat 1 5 < c.score))).length ≤ 5
    · left
      rw [List.take_of_length_le hlen]
      exact hmem'
    · right
      rw [List.length_take]
      omega
  constructor
  · -- accepted best-match
    intro c hc
    simp only [resolveName] at hc ⊢
    rcases hh : (scoredCandidates sim people name).head? with _ | c0
    · simp [hh] at hc
    · simp only [hh] at hc ⊢
      by_cases h4 : mkRat 2 5 ≤ c0.score
      · rw [if_pos h4] at hc ⊢
        cases hc
        simp [h4]
      · rw [if_neg h4] at hc
        cases hc
  constructor
  · -- rejected best-match
    intro hnone
    simp only [resolveName] at hnone ⊢
    rcases hh : (scoredCandidates sim people name).head? with _ | c0
    · simp only [hh]
      exact ⟨Or.inl (List.head?_eq_none_iff.mp hh), by trivial, by trivial⟩
    · simp only [hh] at hnone ⊢
      by_cases h4 : mkRat 2 5 ≤ c0.score
      · rw [if_pos h4] at hnone
        cases hnone
      · rw [if_neg h4]
        refine ⟨Or.inr ?_, by trivial, by trivial⟩
        intro c hc
        cases hc
        exact h4
  · -- live-channel fuzzy threshold
    intro nm st hexact
    unfold findOrCreateByName
    rw [hexact]
    rcases hfb : fuzzyBest nm st.people with ⟨bm, bs⟩
    rcases bm with _ | p
    · simp [insertWhatsAppPerson, acceptsExisting]
    · by_cases h7 : mkRat 7 10 ≤ bs
      · simp [h7, acceptsExisting]
      · simp [h7, insertWhatsAppPerson, acceptsExisting]

/-- Witness for C3 amended: on a one-person roster with an exactly matching
name, the entry (scoring 1 > 0.2) appears among the candidates. -/
theorem claim_c3_amended_witness :
    (mkRat 1 5 <
      (mkCandidate (fun a b => if a = b then 1 else 0) "Bob" { id := 1, name := "Bob" }).score) ∧
    (mkCandidate (fun a b => if a = b then 1 else 0) "Bob" { id := 1, name := "Bob" } ∈
      (resolveName (fun a b => if a = b then 1 else 0) [{ id := 1, name := "Bob" }] "Bob").candidates ∨
      (resolveName (fun a b => if a = b then 1 else 0) [{ id := 1, name := "Bob" }] "Bob").candidates.length = 5) :=
  ⟨by decide,
   (claim_c3_amended (fun a b => if a = b then 1 else 0) [{ id := 1, name := "Bob" }]
     "Bob").2.2.2.1 { id := 1, name := "Bob" } (by decide) (by decide)⟩

/-! ## Helper lemmas about the assignment loop of `handleConfirm` -/

theorem getPerson_id (s : Store) (p : ℕ) (r : PersonRow)
    (h : getPerson s p = some r) : r.id = p := by
  have := List.find?_some h
  simpa using this

theorem getPerson_set_meetingPeople (s : Store) (m : List (ℕ × ℕ)) (q : ℕ) :
    getPerson { s with meetingPeople := m } q = getPerson s q := rfl

theorem getPerson_set_meetings (s : Store) (m : List MeetingRow) (q : ℕ) :
    getPerson { s with meetings := m, nextMeetingId := s.nextMeetingId + 1 } q
      = getPerson s q := rfl

theorem find?_updatePersonRows (people : List PersonRow) (pid q : ℕ)
    (f : PersonRow → PersonRow) (hf : ∀ x, (f x).id = x.id) :
    (updatePersonRows people pid f).find? (fun p => p.id == q) =
      (people.find? (fun p => p.id == q)).map
        (fun r => if r.id = pid then f r else r) := by
  induction people with
  | nil => rfl
  | cons x xs ih =>
    unfold updatePersonRows at ih ⊢
    simp only [List.map_cons]
    have hid : ((if x.id = pid then f x else x).id) = x.id := by
      by_cases hx : x.id = pid
      · rw [if_pos hx]; exact hf x
      · rw [if_neg hx]
    by_cases hq : x.id = q
    · rw [List.find?_cons_of_pos _ (by
        show ((if x.id = pid then f x else x).id == q) = true
        rw [hid]; simp [hq]),
        List.find?_cons_of_pos _ (by simp [hq])]
      rfl
    · rw [List.find?_cons_of_neg _ (by
        show ¬ ((if x.id = pid then f x else x).id == q) = true
        rw [hid]; simp [hq]),
        List.find?_cons_of_neg _ (by simp [hq])]
      exact ih

theorem getPerson_update (s : Store) (pid q : ℕ) (f : PersonRow → PersonRow)
    (hf : ∀ x, (f x).id = x.id) :
    getPerson { s with people := updatePersonRows s.people pid f } q =
      (getPerson s q).map (fun r => if r.id = pid then f r else r) :=
  find?_updatePersonRows s.people pid q f hf

theorem touchRow_id (embedder : String → Option (List ℚ)) (summary : String)
    (oldContext : Option String) (q : PersonRow) :
    (touchRow embedder summary oldContext q).id = q.id := by
  unfold touchRow
  rcases embedder (appendContext oldContext summary) with _ | e <;> rfl

/-- Explicit form of one loop iteration on an existing-person assignment. -/
theorem processAssignment_existing (embedder : String → Option (List ℚ))
    (summary : String) (topics : List String) (mid : ℕ) (s : Store)
    (acc : List (ℕ × String × Bool)) (a : Assignment) (p : ℕ) (r : PersonRow)
    (hc : a.createNew = false) (hp : truthyId a.personId = some p)
    (hr : getPerson s p = some r) :
    processAssignment embedder summary topics mid (s, acc) a =
      ({ s with
          meetingPeople := s.meetingPeople ++ [(mid, p)],
          people := updatePersonRows s.people p (touchRow embedder summary r.context) },
       acc ++ [(p, r.name, false)]) := by
  unfold processAssignment
  rw [hc, hp]
  simp only [Bool.false_or, Option.isNone_some, Bool.false_eq_true, if_false]
  have hid : r.id = p := getPerson_id s p r hr
  show (linkAndTouch embedder summary mid p s,
    (match getPerson s p with
     | some e => acc ++ [(e.id, e.name, false)]
     | none => acc)) = _
  rw [hr]
  unfold linkAndTouch
  rw [hr]
  dsimp only
  rw [hid]

/-- The assignment loop never touches the meetings or relationships tables,
nor the meeting/relationship id counters. -/
theorem processAssignment_frame (embedder : String → Option (List ℚ))
    (summary : String) (topics : List String) (mid : ℕ)
    (acc : Store × List (ℕ × String × Bool)) (a : Assignment) :
    (processAssignment embedder summary topics mid acc a).1.meetings = acc.1.meetings ∧
    (processAssignment embedder summary topics mid acc a).1.relationships =
      acc.1.relationships ∧
    (processAssignment embedder summary topics mid acc a).1.nextMeetingId =
      acc.1.nextMeetingId ∧
    (processAssignment embedder summary topics mid acc a).1.nextRelId =
      acc.1.nextRelId := by
  have hlt : ∀ (pid : ℕ) (s : Store),
      (linkAndTouch embedder summary mid pid s).meetings = s.meetings ∧
      (linkAndTouch embedder summary mid pid s).relationships = s.relationships ∧
      (linkAndTouch embedder summary mid pid s).nextMeetingId = s.nextMeetingId ∧
      (linkAndTouch embedder summary mid pid s).nextRelId = s.nextRelId := by
    intro pid s
    unfold linkAndTouch
    rcases getPerson s pid with _ | person
    · exact ⟨rfl, rfl, rfl, rfl⟩
    · exact ⟨rfl, rfl, rfl, rfl⟩
  unfold processAssignment
  split
  · split
    all_goals try dsimp only
    all_goals split
    all_goals first
      | (dsimp only; exact hlt _ _)
      | exact ⟨by trivial, by trivial, by trivial, by trivial⟩
  · rcases htp : truthyId a.personId with _ | p
    · simp only [htp]
      exact ⟨by trivial, by trivial, by trivial, by trivial⟩
    · simp only [htp]
      try dsimp only
      exact hlt _ _

theorem foldAssignments_frame (embedder : String → Option (List ℚ))
    (summary : String) (topics : List String) (mid : ℕ)
    (assignments : List Assignment) (acc : Store × List (ℕ × String × Bool)) :
    (assignments.foldl (processAssignment embedder summary topics mid) acc).1.meetings
      = acc.1.meetings ∧
    (assignments.foldl (processAssignment embedder summary topics mid) acc).1.relationships
      = acc.1.relationships ∧
    (assignments.foldl (processAssignment embedder summary topics mid) acc).1.nextMeetingId
      = acc.1.nextMeetingId ∧
    (assignments.foldl (processAssignment embedder summary topics mid) acc).1.nextRelId
      = acc.1.nextRelId := by
  induction assignments generalizing acc with
  | nil => exact ⟨rfl, rfl, rfl, rfl⟩
  | cons a rest ih =>
    simp only [List.foldl_cons]
    have h1 := processAssignment_frame embedder summary topics mid acc a
    have h2 := ih (processAssignment embedder summary topics mid acc a)
    exact ⟨h2.1.trans h1.1, h2.2.1.trans h1.2.1, h2.2.2.1.trans h1.2.2.1,
      h2.2.2.2.trans h1.2.2.2⟩

/-- The relationship phase touches only the relationships table and its
counter. -/
theorem relPhase_frame (summary : String) (linked : List ℕ) (s : Store) :
    (relPhase summary linked s).people = s.people ∧
    (relPhase summary linked s).meetings = s.meetings ∧
    (relPhase summary linked s).meetingPeople = s.meetingPeople ∧
    (relPhase summary linked s).nextPersonId = s.nextPersonId ∧
    (relPhase summary linked s).nextMeetingId = s.nextMeetingId := by
  have hup : ∀ (s : Store) (a b : ℕ),
      (relUpsert summary s a b).people = s.people ∧
      (relUpsert summary s a b).meetings = s.meetings ∧
      (relUpsert summary s a b).meetingPeople = s.meetingPeople ∧
      (relUpsert summary s a b).nextPersonId = s.nextPersonId ∧
      (relUpsert summary s a b).nextMeetingId = s.nextMeetingId := by
    intro s a b
    unfold relUpsert
    rcases findRel s.relationships a b with _ | r
    · exact ⟨rfl, rfl, rfl, rfl, rfl⟩
    · exact ⟨rfl, rfl, rfl, rfl, rfl⟩
  unfold relPhase
  split
  · generalize pairsOf linked = ps
    induction ps generalizing s with
    | nil => exact ⟨rfl, rfl, rfl, rfl, rfl⟩
    | cons q rest ih =>
      simp only [List.foldl_cons]
      have h1 := hup s q.1 q.2
      have h2 := ih (relUpsert summary s q.1 q.2)
      exact ⟨h2.1.trans h1.1, h2.2.1.trans h1.2.1, h2.2.2.1.trans h1.2.2.1,
        h2.2.2.2.1.trans h1.2.2.2.1, h2.2.2.2.2.trans h1.2.2.2.2⟩
  · exact ⟨rfl, rfl, rfl, rfl, rfl⟩

/-- A person lookup at an id an existing-person assignment does not resolve to
is untouched by one loop iteration. -/
theorem processAssignment_getPerson_frame (embedder : String → Option (List ℚ))
    (summary : String) (topics : List String) (mid : ℕ) (s : Store)
    (acc : List (ℕ × String × Bool)) (a : Assignment) (p q : ℕ)
    (hc : a.createNew = false) (hp : truthyId a.personId = some p) (hpq : p ≠ q) :
    getPerson (processAssignment embedder summary topics mid (s, acc) a).1 q =
      getPerson s q := by
  rcases hr : getPerson s p with _ | r
  · unfold processAssignment
    rw [hc, hp]
    simp only [Bool.false_or, Option.isNone_some, Bool.false_eq_true, if_false]
    show getPerson (linkAndTouch embedder summary mid p s) q = getPerson s q
    unfold linkAndTouch
    rw [hr]
    rfl
  · rw [processAssignment_existing embedder summary topics mid s acc a p r hc hp hr]
    have h := find?_updatePersonRows s.people p q
      (touchRow embedder summary r.context) (touchRow_id embedder summary r.context)
    show (updatePersonRows s.people p (touchRow embedder summary r.context)).find?
        (fun x => x.id == q) = getPerson s q
    rw [h]
    rcases hq : getPerson s q with _ | rq
    · rw [show s.people.find? (fun x => x.id == q) = none from hq]
      rfl
    · rw [show s.people.find? (fun x => x.id == q) = some rq from hq]
      have : rq.id = q := getPerson_id s q rq hq
      simp [this, Ne.symm hpq]

/-- Person lookups at an id no assignment resolves to are untouched by the
whole assignment loop. -/
theorem foldAssignments_getPerson_frame (embedder : String → Option (List ℚ))
    (summary : String) (topics : List String) (mid : ℕ)
    (assignments : List Assignment) (s : Store) (acc : List (ℕ × String × Bool))
    (q : ℕ)
    (hA : ∀ a ∈ assignments, a.createNew = false ∧
      ∃ p, truthyId a.personId = some p ∧ p ≠ q) :
    getPerson (assignments.foldl (processAssignment embedder summary topics mid)
      (s, acc)).1 q = getPerson s q := by
  induction assignments generalizing s acc with
  | nil => rfl
  | cons a rest ih =>
    obtain ⟨hc, p, hp, hpq⟩ := hA a (List.mem_cons_self a rest)
    simp only [List.foldl_cons]
    rcases hsplit : processAssignment embedder summary topics mid (s, acc) a
      with ⟨s', acc'⟩
    have hframe : getPerson s' q = getPerson s q := by
      have h := processAssignment_getPerson_frame embedder summary topics mid s acc a p q
        hc hp hpq
      rw [hsplit] at h
      exact h
    rw [ih s' acc' (fun a' ha' => hA a' (List.mem_cons_of_mem a ha')), hframe]

theorem getPerson_after_update (s : Store) (mp : List (ℕ × ℕ)) (pid q : ℕ)
    (f : PersonRow → PersonRow) (hf : ∀ x, (f x).id = x.id) :
    getPerson { s with meetingPeople := mp, people := updatePersonRows s.people pid f } q
      = (getPerson s q).map (fun r => if r.id = pid then f r else r) :=
  find?_updatePersonRows s.people pid q f hf

theorem touchRow_context (embedder : String → Option (List ℚ)) (summary : String)
    (oldContext : Option String) (q : PersonRow) :
    (touchRow embedder summary oldContext q).context =
      some (appendContext oldContext summary) := by
  unfold touchRow
  rcases embedder (appendContext oldContext summary) with _ | e <;> rfl

theorem touchRow_name (embedder : String → Option (List ℚ)) (summary : String)
    (oldContext : Option String) (q : PersonRow) :
    (touchRow embedder summary oldContext q).name = q.name := by
  unfold touchRow
  rcases embedder (appendContext oldContext summary) with _ | e <;> rfl

theorem touchRow_embedding_none (summary : String) (oldContext : Option String)
    (q : PersonRow) :
    touchRow (fun _ => none) summary oldContext q =
      { q with context := some (appendContext oldContext summary) } := rfl

/-- `handleConfirm` is the relationship phase run after the assignment loop
run after the meeting insert. -/
theorem handleConfirm_eq (embedder : String → Option (List ℚ)) (text summary : String)
    (topics : List String) (assignments : List Assignment) (s : Store) :
    handleConfirm embedder text summary topics assignments s =
      (relPhase summary
        ((assignments.foldl (processAssignment embedder summary topics s.nextMeetingId)
          (confirmMeetingStore embedder text summary topics assignments s, [])).2.map
          (fun l => l.1))
        (assignments.foldl (processAssignment embedder summary topics s.nextMeetingId)
          (confirmMeetingStore embedder text summary topics assignments s, [])).1,
       s.nextMeetingId,
       (assignments.foldl (processAssignment embedder summary topics s.nextMeetingId)
         (confirmMeetingStore embedder text summary topics assignments s, [])).2) := rfl

theorem getPerson_relPhase (summary : String) (linked : List ℕ) (s : Store) (q : ℕ) :
    getPerson (relPhase summary linked s) q = getPerson s q := by
  unfold getPerson
  rw [(relPhase_frame summary linked s).1]

theorem getPerson_confirmMeetingStore (embedder : String → Option (List ℚ))
    (text summary : String) (topics : List String) (assignments : List Assignment)
    (s : Store) (q : ℕ) :
    getPerson (confirmMeetingStore embedder text summary topics assignments s) q
      = getPerson s q := rfl

/-- The combined effect of the assignment loop on every assigned person when
all embed calls fail: context appended, all other columns (in particular the
embedding) untouched. -/
theorem foldAssignments_touch (summary : String) (topics : List String) (mid : ℕ) :
    ∀ (assignments : List Assignment) (s : Store) (acc : List (ℕ × String × Bool)),
    (∀ a ∈ assignments, a.createNew = false) →
    (∀ a ∈ assignments, ∃ p r, truthyId a.personId = some p ∧ getPerson s p = some r) →
    (assignments.map (fun a => truthyId a.personId)).Nodup →
    ∀ a ∈ assignments, ∀ p r, truthyId a.personId = some p → getPerson s p = some r →
      getPerson (assignments.foldl
        (processAssignment (fun _ => none) summary topics mid) (s, acc)).1 p =
        some { r with context := some (appendContext r.context summary) } := by
  intro assignments
  induction assignments with
  | nil => intro s acc _ _ _ a ha; cases ha
  | cons a1 rest ih =>
    intro s acc hA hP hN a ha p r hp hr
    obtain ⟨p1, r1, hp1, hr1⟩ := hP a1 (List.mem_cons_self a1 rest)
    have hc1 : a1.createNew = false := hA a1 (List.mem_cons_self a1 rest)
    have hnotin : some p1 ∉ rest.map (fun a => truthyId a.personId) := by
      have := hN
      rw [List.map_cons, List.nodup_cons] at this
      rw [← hp1]
      exact this.1
    have hrest_ne : ∀ a' ∈ rest, ∀ p', truthyId a'.personId = some p' → p' ≠ p1 := by
      intro a' ha' p' hp' hpp
      apply hnotin
      have heq : truthyId a'.personId = some p1 := by rw [hp', hpp]
      rw [← heq]
      exact List.mem_map_of_mem _ ha'
    simp only [List.foldl_cons]
    rw [processAssignment_existing (fun _ => none) summary topics mid s acc a1 p1 r1
      hc1 hp1 hr1]
    have hS1 : ∀ q, q ≠ p1 →
        getPerson { s with
          meetingPeople := s.meetingPeople ++ [(mid, p1)],
          people := updatePersonRows s.people p1
            (touchRow (fun _ => none) summary r1.context) } q = getPerson s q := by
      intro q hq
      rw [getPerson_after_update _ _ _ _ _ (touchRow_id _ _ _)]
      rcases hgq : getPerson s q with _ | rq
      · rfl
      · have : rq.id = q := getPerson_id s q rq hgq
        simp [this, hq]
    rcases List.mem_cons.mp ha with ha1 | harest
    · -- the head assignment: its person was updated by the first iteration and
      -- no later iteration touches it
      subst ha1
      have hpp1 : p = p1 := by
        rw [hp] at hp1
        exact Option.some_injective _ hp1
      subst hpp1
      have hrr1 : r = r1 := by
        rw [hr] at hr1
        exact Option.some_injective _ hr1
      subst hrr1
      rw [foldAssignments_getPerson_frame _ _ _ _ rest _ _ p
        (fun a' ha' => ⟨hA a' (List.mem_cons_of_mem _ ha'), by
          obtain ⟨p', r', hp', _⟩ := hP a' (List.mem_cons_of_mem _ ha')
          exact ⟨p', hp', hrest_ne a' ha' p' hp'⟩⟩)]
      have hid : r.id = p := getPerson_id s p r hr
      rw [getPerson_after_update _ _ _ _ _ (touchRow_id _ _ _), hr]
      dsimp only [Option.map]
      rw [if_pos hid, touchRow_embedding_none]
    · -- a later assignment: the first iteration did not touch its person
      have hpne : p ≠ p1 := hrest_ne a harest p hp
      exact ih _ _
        (fun a' ha' => hA a' (List.mem_cons_of_mem _ ha'))
        (fun a' ha' => by
          obtain ⟨p', r', hp', hr'⟩ := hP a' (List.mem_cons_of_mem _ ha')
          exact ⟨p', r', hp', by rw [hS1 p' (hrest_ne a' ha' p' hp')]; exact hr'⟩)
        (by
          have := hN
          rw [List.map_cons, List.nodup_cons] at this
          exact this.2)
        a harest p r hp (by rw [hS1 p hpne]; exact hr)

/-! ## Claim C5 — embedding failure does not abort ingestion -/

/-- **C5.**  When every `embedder.embed` call fails, `handleConfirm` still
inserts the meeting row — with a null embedding — and still writes every
assigned person's appended context; the record equality keeps every other
column, so in particular the person's embedding is unchanged.  The handler is
a total function: an embedding failure never produces an error return. -/
theorem claim_c5_embedding_failure (text summary : String) (topics : List String)
    (assignments : List Assignment) (s : Store)
    (hA : ∀ a ∈ assignments, a.createNew = false)
    (hP : ∀ a ∈ assignments, ∃ p r, truthyId a.personId = some p ∧
      getPerson s p = some r)
    (hN : (assignments.map (fun a => truthyId a.personId)).Nodup) :
    ((handleConfirm (fun _ => none) text summary topics assignments s).1.meetings =
      s.meetings ++
        [{ id := s.nextMeetingId,
           personId := match assignments.head? with
             | some a => truthyId a.personId
             | none => none,
           rawInput := text, summary := summary, topics := topics,
           embedding := none }]) ∧
    (∀ a ∈ assignments, ∀ p r, truthyId a.personId = some p → getPerson s p = some r →
      getPerson (handleConfirm (fun _ => none) text summary topics assignments s).1 p =
        some { r with context := some (appendContext r.context summary) }) := by
  rw [handleConfirm_eq]
  constructor
  · have h1 := (relPhase_frame summary
      ((assignments.foldl (processAssignment (fun _ => none) summary topics s.nextMeetingId)
        (confirmMeetingStore (fun _ => none) text summary topics assignments s, [])).2.map
        (fun l => l.1))
      (assignments.foldl (processAssignment (fun _ => none) summary topics s.nextMeetingId)
        (confirmMeetingStore (fun _ => none) text summary topics assignments s, [])).1).2.1
    have h2 := (foldAssignments_frame (fun _ => none) summary topics s.nextMeetingId
      assignments
      (confirmMeetingStore (fun _ => none) text summary topics assignments s, [])).1
    dsimp only at h1 h2 ⊢
    rw [h1, h2]
    rfl
  · intro a ha p r hp hr
    dsimp only
    rw [getPerson_relPhase]
    exact foldAssignments_touch summary topics s.nextMeetingId assignments _ [] hA
      (fun a' ha' => by
        obtain ⟨p', r', hp', hr'⟩ := hP a' ha'
        exact ⟨p', r', hp', by rw [getPerson_confirmMeetingStore]; exact hr'⟩)
      hN a ha p r hp
      (by rw [getPerson_confirmMeetingStore]; exact hr)

/-- Witness for C5 on a one-person store and a single existing assignment. -/
theorem claim_c5_embedding_failure_witness :
    getPerson (handleConfirm (fun _ => none) "met Ann" "Sum" []
      [{ extractedName := "Ann", personId := some 1 }]
      { people := [{ id := 1, name := "Ann" }], nextPersonId := 2 }).1 1 =
      some { id := 1, name := "Ann", context := some "Sum" } :=
  (claim_c5_embedding_failure "met Ann" "Sum" []
    [{ extractedName := "Ann", personId := some 1 }]
    { people := [{ id := 1, name := "Ann" }], nextPersonId := 2 }
    (by decide) (fun a ha => ⟨1, { id := 1, name := "Ann" }, by
      rcases List.mem_singleton.mp ha with rfl
      exact ⟨rfl, rfl⟩⟩) (by decide)).2
    { extractedName := "Ann", personId := some 1 }
    (List.mem_singleton.mpr rfl) 1 { id := 1, name := "Ann" } rfl rfl

/-! ## Claim C10 — duplicate assignments are not deduplicated -/

theorem relPhase_pair (summary : String) (x y : ℕ) (s : Store) :
    relPhase summary [x, y] s = relUpsert summary s x y := by
  unfold relPhase
  rw [if_pos (by norm_num)]
  rfl

theorem relUpsert_insert (summary : String) (s : Store) (a b : ℕ)
    (h : findRel s.relationships a b = none) :
    relUpsert summary s a b =
      { s with
        relationships := s.relationships ++
          [{ id := s.nextRelId, personAId := a, personBId := b,
             context := some ("Co-mentioned in meeting: " ++ summary.take 100),
             strength := 1 }],
        nextRelId := s.nextRelId + 1 } := by
  unfold relUpsert
  rw [h]

/-- Two consecutive existing-person assignments resolving to the same person:
the loop runs its body twice against the same row. -/
theorem fold_two_existing (embedder : String → Option (List ℚ)) (summary : String)
    (topics : List String) (mid : ℕ) (s : Store) (a1 a2 : Assignment) (p : ℕ)
    (r : PersonRow)
    (h1c : a1.createNew = false) (h2c : a2.createNew = false)
    (h1p : truthyId a1.personId = some p) (h2p : truthyId a2.personId = some p)
    (hr : getPerson s p = some r) :
    [a1, a2].foldl (processAssignment embedder summary topics mid) (s, []) =
      ({ s with
          meetingPeople := (s.meetingPeople ++ [(mid, p)]) ++ [(mid, p)],
          people := updatePersonRows
            (updatePersonRows s.people p (touchRow embedder summary r.context)) p
            (touchRow embedder summary
              (touchRow embedder summary r.context r).context) },
       [(p, r.name, false), (p, (touchRow embedder summary r.context r).name, false)]) := by
  simp only [List.foldl_cons, List.foldl_nil]
  rw [processAssignment_existing embedder summary topics mid s [] a1 p r h1c h1p hr]
  have hr2 : getPerson { s with
      meetingPeople := s.meetingPeople ++ [(mid, p)],
      people := updatePersonRows s.people p (touchRow embedder summary r.context) } p =
      some (touchRow embedder summary r.context r) := by
    rw [getPerson_after_update _ _ _ _ _ (touchRow_id _ _ _), hr]
    dsimp only [Option.map]
    rw [if_pos (getPerson_id s p r hr)]
  rw [processAssignment_existing embedder summary topics mid _ _ a2 p _ h2c h2p hr2]
  rfl

/-- **C10.**  When one confirm call carries two assignments resolving to the
same person id, the linked list is not deduplicated: the person receives two
`meeting_people` junction rows for the meeting, their context gets the summary
appended twice, and the pair loop upserts a relationship row whose
`personAId` equals `personBId` — here inserted fresh with strength 1 since no
self-row existed. -/
theorem claim_c10_duplicate_assignments (embedder : String → Option (List ℚ))
    (text summary : String) (topics : List String) (s : Store) (p : ℕ)
    (r : PersonRow) (a1 a2 : Assignment)
    (h1c : a1.createNew = false) (h2c : a2.createNew = false)
    (h1p : truthyId a1.personId = some p) (h2p : truthyId a2.personId = some p)
    (hr : getPerson s p = some r)
    (hnorel : findRel s.relationships p p = none) :
    ((handleConfirm embedder text summary topics [a1, a2] s).1.meetingPeople =
      s.meetingPeople ++ [(s.nextMeetingId, p), (s.nextMeetingId, p)]) ∧
    (∃ r', getPerson (handleConfirm embedder text summary topics [a1, a2] s).1 p =
      some r' ∧
      r'.context =
        some (appendContext (some (appendContext r.context summary)) summary)) ∧
    ((handleConfirm embedder text summary topics [a1, a2] s).1.relationships =
      s.relationships ++
        [{ id := s.nextRelId, personAId := p, personBId := p,
           context := some ("Co-mentioned in meeting: " ++ summary.take 100),
           strength := 1 }]) := by
  have hrS1 : getPerson (confirmMeetingStore embedder text summary topics [a1, a2] s) p
      = some r := hr
  have hid : r.id = p := getPerson_id s p r hr
  rw [handleConfirm_eq,
    fold_two_existing embedder summary topics s.nextMeetingId _ a1 a2 p r h1c h2c
      h1p h2p hrS1]
  dsimp only [List.map_cons, List.map_nil]
  rw [relPhase_pair, relUpsert_insert _ _ _ _ (by exact hnorel)]
  refine ⟨?_, ?_, ?_⟩
  · show (s.meetingPeople ++ [(s.nextMeetingId, p)]) ++ [(s.nextMeetingId, p)] =
      s.meetingPeople ++ [(s.nextMeetingId, p), (s.nextMeetingId, p)]
    rw [List.append_assoc]
    rfl
  · refine ⟨touchRow embedder summary
      (touchRow embedder summary r.context r).context
      (touchRow embedder summary r.context r), ?_, ?_⟩
    · show (updatePersonRows
        (updatePersonRows (confirmMeetingStore embedder text summary topics [a1, a2]
          s).people p (touchRow embedder summary r.context)) p
        (touchRow embedder summary
          (touchRow embedder summary r.context r).context)).find?
        (fun x => x.id == p) = _
      rw [find?_updatePersonRows _ _ _ _ (touchRow_id _ _ _),
        find?_updatePersonRows _ _ _ _ (touchRow_id _ _ _)]
      rw [show (confirmMeetingStore embedder text summary topics [a1, a2]
          s).people.find? (fun x => x.id == p) = some r from hr]
      dsimp only [Option.map]
      rw [if_pos hid, if_pos (by rw [touchRow_id]; exact hid)]
    · rw [touchRow_context, touchRow_context]
  · rfl

/-- Witness for C10 on a one-person store with two identical assignments. -/
theorem claim_c10_duplicate_assignments_witness :
    (handleConfirm (fun _ => none) "met Ann twice" "S" []
      [{ extractedName := "Ann", personId := some 1 },
       { extractedName := "Ann", personId := some 1 }]
      { people := [{ id := 1, name := "Ann" }], nextPersonId := 2 }).1.relationships =
      [{ id := 1, personAId := 1, personBId := 1,
         context := some ("Co-mentioned in meeting: " ++ "S".take 100),
         strength := 1 }] :=
  (claim_c10_duplicate_assignments (fun _ => none) "met Ann twice" "S" []
    { people := [{ id := 1, name := "Ann" }], nextPersonId := 2 } 1
    { id := 1, name := "Ann" }
    { extractedName := "Ann", personId := some 1 }
    { extractedName := "Ann", personId := some 1 }
    rfl rfl rfl rfl rfl rfl).2.2

/-! ## Claim C1 — the relationship upsert of the pair loop -/

theorem relFindPred_symm (a b : ℕ) (r : RelRow) :
    relFindPred b a r = relFindPred a b r := by
  unfold relFindPred
  rw [Bool.or_comm]

theorem rowsFor_symm (rels : List RelRow) (a b : ℕ) :
    rowsFor rels b a = rowsFor rels a b := by
  unfold rowsFor
  exact List.filter_congr (fun r _ => relFindPred_symm a b r)

theorem findRel_eq_head_rowsFor (rels : List RelRow) (a b : ℕ) :
    findRel rels a b = (rowsFor rels a b).head? := by
  induction rels with
  | nil => rfl
  | cons r rest ih =>
    unfold findRel rowsFor at ih ⊢
    rw [List.find?_cons, List.filter_cons]
    rcases h : relFindPred a b r with _ | _
    · exact ih
    · rfl

theorem rowsFor_eq_nil_of_findRel_none (rels : List RelRow) (a b : ℕ)
    (h : findRel rels a b = none) : rowsFor rels a b = [] := by
  rw [findRel_eq_head_rowsFor] at h
  exact List.head?_eq_none_iff.mp h

theorem findRel_mem (rels : List RelRow) (a b : ℕ) (r : RelRow)
    (h : findRel rels a b = some r) : r ∈ rels :=
  List.mem_of_find?_eq_some h

theorem findRel_pred (rels : List RelRow) (a b : ℕ) (r : RelRow)
    (h : findRel rels a b = some r) : relFindPred a b r = true :=
  List.find?_some h

/-- Only the strength differs between a row and its bumped version, so every
pair predicate is unchanged. -/
theorem relFindPred_strength (a b : ℕ) (r : RelRow) (x : ℚ) :
    relFindPred a b { r with strength := x } = relFindPred a b r := rfl

theorem samePair_of_preds (a b c d : ℕ) (r : RelRow)
    (h1 : relFindPred a b r = true) (h2 : relFindPred c d r = true) :
    samePair a b c d := by
  unfold relFindPred at h1 h2
  simp only [Bool.or_eq_true, Bool.and_eq_true, beq_iff_eq] at h1 h2
  unfold samePair
  rcases h1 with ⟨hA, hB⟩ | ⟨hA, hB⟩ <;> rcases h2 with ⟨hC, hD⟩ | ⟨hC, hD⟩ <;>
    [left; right; right; left] <;> omega

theorem relFindPred_true_of_samePair (a b c d : ℕ) (hsp : samePair a b c d)
    (r : RelRow) (h : relFindPred c d r = true) : relFindPred a b r = true := by
  unfold relFindPred at h ⊢
  simp only [Bool.or_eq_true, Bool.and_eq_true, beq_iff_eq] at h ⊢
  rcases hsp with ⟨hc, hd⟩ | ⟨hc, hd⟩ <;> rcases h with ⟨h1, h2⟩ | ⟨h1, h2⟩ <;> omega

theorem rowsFor_samePair (rels : List RelRow) (a b c d : ℕ)
    (hsp : samePair a b c d) : rowsFor rels c d = rowsFor rels a b := by
  unfold rowsFor
  refine List.filter_congr (fun r _ => ?_)
  have hsp' : samePair c d a b := by
    unfold samePair at hsp ⊢
    rcases hsp with ⟨h1, h2⟩ | ⟨h1, h2⟩
    · exact Or.inl ⟨h1.symm, h2.symm⟩
    · exact Or.inr ⟨h2.symm, h1.symm⟩
  rcases h1 : relFindPred c d r with _ | _
  · rcases h2 : relFindPred a b r with _ | _
    · rfl
    · exact absurd (relFindPred_true_of_samePair c d a b hsp' r h2) (by simp [h1])
  · exact (relFindPred_true_of_samePair a b c d hsp r h1).symm

theorem relUpsert_rels_some (summary : String) (s : Store) (a b : ℕ) (r : RelRow)
    (h : findRel s.relationships a b = some r) :
    (relUpsert summary s a b).relationships = s.relationships.map (fun x =>
      if x.id = r.id then { x with strength := bumpStrength r.strength } else x) ∧
    (relUpsert summary s a b).nextRelId = s.nextRelId := by
  unfold relUpsert
  rw [h]
  exact ⟨rfl, rfl⟩

theorem relUpsert_rels_none (summary : String) (s : Store) (a b : ℕ)
    (h : findRel s.relationships a b = none) :
    (relUpsert summary s a b).relationships =
      s.relationships ++ [freshRelRow summary s a b] ∧
    (relUpsert summary s a b).nextRelId = s.nextRelId + 1 := by
  unfold relUpsert
  rw [h]
  exact ⟨rfl, rfl⟩

theorem rowsFor_map_pred_preserved (l : List RelRow) (a b : ℕ) (g : RelRow → RelRow)
    (hg : ∀ x, relFindPred a b (g x) = relFindPred a b x) :
    rowsFor (l.map g) a b = (rowsFor l a b).map g := by
  unfold rowsFor
  induction l with
  | nil => rfl
  | cons x rest ih =>
    rw [List.map_cons, List.filter_cons, List.filter_cons, hg x]
    rcases relFindPred a b x with _ | _
    · exact ih
    · show g x :: List.filter (relFindPred a b) (List.map g rest) =
        List.map g (x :: List.filter (relFindPred a b) rest)
      rw [List.map_cons, ih]

theorem freshRelRow_pred (summary : String) (s : Store) (a b : ℕ) :
    relFindPred a b (freshRelRow summary s a b) = true := by
  unfold relFindPred freshRelRow
  simp

theorem bumpRow_pred (a b : ℕ) (r x : RelRow) :
    relFindPred a b (bumpRow r x) = relFindPred a b x := by
  unfold bumpRow
  rcases Decidable.em (x.id = r.id) with h | h
  · rw [if_pos h]
    exact relFindPred_strength a b x (bumpStrength r.strength)
  · rw [if_neg h]

theorem bumpRow_id (r x : RelRow) : (bumpRow r x).id = x.id := by
  unfold bumpRow
  rcases Decidable.em (x.id = r.id) with h | h
  · rw [if_pos h]
  · rw [if_neg h]

theorem relUpsert_rowsFor_self (summary : String) (s : Store) (a b c d : ℕ)
    (hsp : samePair a b c d) :
    (rowsFor s.relationships a b = [] →
      rowsFor (relUpsert summary s c d).relationships a b =
        [freshRelRow summary s c d]) ∧
    (∀ r0, rowsFor s.relationships a b = [r0] →
      rowsFor (relUpsert summary s c d).relationships a b =
        [{ r0 with strength := bumpStrength r0.strength }]) := by
  have hrcd : rowsFor s.relationships c d = rowsFor s.relationships a b :=
    rowsFor_samePair s.relationships a b c d hsp
  constructor
  · intro hnil
    have hfind : findRel s.relationships c d = none := by
      rw [findRel_eq_head_rowsFor, hrcd, hnil]
      rfl
    rw [(relUpsert_rels_none summary s c d hfind).1]
    unfold rowsFor at hnil ⊢
    rw [List.filter_append, hnil, List.nil_append, List.filter_cons,
      relFindPred_true_of_samePair a b c d hsp _ (freshRelRow_pred summary s c d)]
    rfl
  · intro r0 hone
    have hfind : findRel s.relationships c d = some r0 := by
      rw [findRel_eq_head_rowsFor, hrcd, hone]
      rfl
    rw [(relUpsert_rels_some summary s c d r0 hfind).1]
    have hmap : rowsFor (s.relationships.map (bumpRow r0)) a b =
        (rowsFor s.relationships a b).map (bumpRow r0) :=
      rowsFor_map_pred_preserved s.relationships a b (bumpRow r0)
        (fun x => bumpRow_pred a b r0 x)
    unfold bumpRow at hmap
    rw [hmap, hone, List.map_cons, if_pos rfl]
    rfl

theorem relUpsert_rowsFor_other (summary : String) (s : Store) (a b c d : ℕ)
    (hsp : ¬ samePair a b c d) (hWF : WFRel s) :
    rowsFor (relUpsert summary s c d).relationships a b =
      rowsFor s.relationships a b := by
  rcases hfind : findRel s.relationships c d with _ | r
  · rw [(relUpsert_rels_none summary s c d hfind).1]
    unfold rowsFor
    rw [List.filter_append]
    have hnew : relFindPred a b (freshRelRow summary s c d) = false := by
      rcases hp : relFindPred a b (freshRelRow summary s c d) with _ | _
      · rfl
      · exact absurd
          (samePair_of_preds a b c d (freshRelRow summary s c d) hp
            (freshRelRow_pred summary s c d)) hsp
    rw [List.filter_cons, hnew]
    simp
  · rw [(relUpsert_rels_some summary s c d r hfind).1]
    have hmap : rowsFor (s.relationships.map (bumpRow r)) a b =
        (rowsFor s.relationships a b).map (bumpRow r) :=
      rowsFor_map_pred_preserved s.relationships a b (bumpRow r)
        (fun x => bumpRow_pred a b r x)
    unfold bumpRow at hmap
    rw [hmap]
    have hid : ∀ x ∈ rowsFor s.relationships a b, bumpRow r x = x := by
      intro x hx
      unfold rowsFor at hx
      have hxl : x ∈ s.relationships := List.mem_of_mem_filter hx
      have hpx : relFindPred a b x = true := List.of_mem_filter hx
      unfold bumpRow
      rcases Decidable.em (x.id = r.id) with h | h
      · exfalso
        have hrl : r ∈ s.relationships := findRel_mem s.relationships c d r hfind
        have hxr : x = r :=
          List.inj_on_of_nodup_map hWF.1 hxl hrl h
        exact hsp (samePair_of_preds a b c d r (hxr ▸ hpx)
          (findRel_pred s.relationships c d r hfind))
      · rw [if_neg h]
    calc (rowsFor s.relationships a b).map (fun x =>
          if x.id = r.id then { x with strength := bumpStrength r.strength } else x)
        = (rowsFor s.relationships a b).map id := List.map_congr_left (fun x hx => hid x hx)
      _ = rowsFor s.relationships a b := List.map_id _

theorem relUpsert_WF (summary : String) (s : Store) (c d : ℕ) (hWF : WFRel s) :
    WFRel (relUpsert summary s c d) := by
  obtain ⟨hnd, hlt, hone, hstr⟩ := hWF
  rcases hfind : findRel s.relationships c d with _ | r
  · obtain ⟨hrels, hnext⟩ := relUpsert_rels_none summary s c d hfind
    refine ⟨?_, ?_, ?_, ?_⟩
    · rw [hrels, List.map_append]
      refine List.Nodup.append hnd (by simp) ?_
      intro x hx hx1
      simp only [List.map_cons, List.map_nil, List.mem_singleton] at hx1
      obtain ⟨rr, hrr, hrrid⟩ := List.mem_map.mp hx
      have h1 : x < s.nextRelId := hrrid ▸ hlt rr hrr
      have h2 : x = s.nextRelId := hx1
      omega
    · intro rr hrr
      rw [hrels] at hrr
      rw [hnext]
      rcases List.mem_append.mp hrr with h | h
      · exact Nat.lt_succ_of_lt (hlt rr h)
      · simp only [List.mem_singleton] at h
        rw [h]
        exact Nat.lt_succ_self _
    · intro a b
      rw [hrels]
      unfold rowsFor
      rw [List.filter_append, List.filter_cons]
      rcases hp : relFindPred a b (freshRelRow summary s c d) with _ | _
      · simpa using hone a b
      · have hsp : samePair a b c d :=
          samePair_of_preds a b c d _ hp (freshRelRow_pred summary s c d)
        have : rowsFor s.relationships a b = [] := by
          rw [← rowsFor_samePair s.relationships a b c d hsp]
          exact rowsFor_eq_nil_of_findRel_none s.relationships c d hfind
        unfold rowsFor at this
        rw [this]
        simp
    · intro rr hrr
      rw [hrels] at hrr
      rcases List.mem_append.mp hrr with h | h
      · exact hstr rr h
      · simp only [List.mem_singleton] at h
        rw [h]
        exact le_refl 1
  · obtain ⟨hrels, hnext⟩ := relUpsert_rels_some summary s c d r hfind
    have hb : s.relationships.map (fun x =>
        if x.id = r.id then { x with strength := bumpStrength r.strength } else x)
        = s.relationships.map (bumpRow r) := rfl
    refine ⟨?_, ?_, ?_, ?_⟩
    · rw [hrels, hb, List.map_map]
      have : ((fun rr : RelRow => rr.id) ∘ bumpRow r) = fun rr : RelRow => rr.id :=
        funext (fun x => bumpRow_id r x)
      rw [this]
      exact hnd
    · intro rr hrr
      rw [hrels, hb] at hrr
      rw [hnext]
      obtain ⟨x, hx, hxe⟩ := List.mem_map.mp hrr
      have : rr.id = x.id := by rw [← hxe]; exact bumpRow_id r x
      rw [this]
      exact hlt x hx
    · intro a b
      rw [hrels, hb, rowsFor_map_pred_preserved s.relationships a b (bumpRow r)
        (fun x => bumpRow_pred a b r x), List.length_map]
      exact hone a b
    · intro rr hrr
      rw [hrels, hb] at hrr
      obtain ⟨x, hx, hxe⟩ := List.mem_map.mp hrr
      rw [← hxe]
      unfold bumpRow
      rcases Decidable.em (x.id = r.id) with h | h
      · rw [if_pos h]
        show (1 : ℚ) ≤ bumpStrength r.strength
        unfold bumpStrength
        have hr1 : (1 : ℚ) ≤ r.strength := hstr r (findRel_mem s.relationships c d r hfind)
        rw [if_neg (by linarith)]
        linarith
      · rw [if_neg h]
        exact hstr x hx

theorem relFold_cons (summary : String) (q : ℕ × ℕ) (ps : List (ℕ × ℕ)) (s : Store) :
    relFold summary (q :: ps) s = relFold summary ps (relUpsert summary s q.1 q.2) := rfl

theorem relFold_append (summary : String) (ps qs : List (ℕ × ℕ)) (s : Store) :
    relFold summary (ps ++ qs) s = relFold summary qs (relFold summary ps s) := by
  unfold relFold
  exact List.foldl_append _ _ ps qs

theorem relFold_WF (summary : String) (ps : List (ℕ × ℕ)) :
    ∀ s : Store, WFRel s → WFRel (relFold summary ps s) := by
  induction ps with
  | nil => exact fun s h => h
  | cons q rest ih =>
    intro s h
    rw [relFold_cons]
    exact ih _ (relUpsert_WF summary s q.1 q.2 h)

theorem relFold_rowsFor_other (summary : String) (a b : ℕ) (ps : List (ℕ × ℕ))
    (hps : ∀ q ∈ ps, ¬ samePair a b q.1 q.2) :
    ∀ s : Store, WFRel s →
      rowsFor (relFold summary ps s).relationships a b = rowsFor s.relationships a b := by
  induction ps with
  | nil => exact fun s _ => rfl
  | cons q rest ih =>
    intro s h
    rw [relFold_cons,
      ih (fun q' hq' => hps q' (List.mem_cons_of_mem q hq'))
        _ (relUpsert_WF summary s q.1 q.2 h),
      relUpsert_rowsFor_other summary s a b q.1 q.2
        (hps q (List.mem_cons_self q rest)) h]

theorem mem_pairsOf (L : List ℕ) : ∀ q ∈ pairsOf L, q.1 ∈ L ∧ q.2 ∈ L := by
  induction L with
  | nil => intro q hq; cases hq
  | cons x xs ih =>
    intro q hq
    unfold pairsOf at hq
    rcases List.mem_append.mp hq with h | h
    · obtain ⟨y, hy, hye⟩ := List.mem_map.mp h
      rw [← hye]
      exact ⟨List.mem_cons_self x xs, List.mem_cons_of_mem x hy⟩
    · obtain ⟨h1, h2⟩ := ih q h
      exact ⟨List.mem_cons_of_mem x h1, List.mem_cons_of_mem x h2⟩

theorem pairsOf_split (L : List ℕ) (hN : L.Nodup) (a b : ℕ)
    (ha : a ∈ L) (hb : b ∈ L) (hab : a ≠ b) :
    ∃ pre q post, pairsOf L = pre ++ q :: post ∧ samePair a b q.1 q.2 ∧
      (∀ q' ∈ pre, ¬ samePair a b q'.1 q'.2) ∧
      (∀ q' ∈ post, ¬ samePair a b q'.1 q'.2) := by
  induction L with
  | nil => cases ha
  | cons x xs ih =>
    have hxnot : x ∉ xs := (List.nodup_cons.mp hN).1
    have hNxs : xs.Nodup := (List.nodup_cons.mp hN).2
    by_cases hax : a = x
    · have hbxs : b ∈ xs := by
        rcases List.mem_cons.mp hb with h | h
        · exact absurd (hax.trans h.symm) hab
        · exact h
      obtain ⟨u, v, huv⟩ := List.append_of_mem hbxs
      have hbu : b ∉ u := by
        intro hc
        rw [huv] at hNxs
        exact (List.disjoint_of_nodup_append hNxs) hc (List.mem_cons_self b v)
      have hbv : b ∉ v := by
        intro hc
        rw [huv] at hNxs
        exact (List.nodup_cons.mp (List.Nodup.of_append_right hNxs)).1 hc
      refine ⟨u.map (fun y => (x, y)), (x, b),
        v.map (fun y => (x, y)) ++ pairsOf xs, ?_, ?_, ?_, ?_⟩
      · have hmap : List.map (fun y => (x, y)) xs =
            List.map (fun y => (x, y)) u ++
              ((x, b) :: List.map (fun y => (x, y)) v) := by
          rw [huv, List.map_append, List.map_cons]
        show List.map (fun y => (x, y)) xs ++ pairsOf xs = _
        rw [hmap, List.append_assoc, List.cons_append]
      · exact Or.inl ⟨hax.symm, rfl⟩
      · intro q' hq'
        obtain ⟨y, hy, hye⟩ := List.mem_map.mp hq'
        rw [← hye]
        rintro (⟨h1, h2⟩ | ⟨h1, h2⟩)
        · exact hbu (h2 ▸ hy)
        · exact hab (hax.trans h1)
      · intro q' hq'
        rcases List.mem_append.mp hq' with h | h
        · obtain ⟨y, hy, hye⟩ := List.mem_map.mp h
          rw [← hye]
          rintro (⟨h1, h2⟩ | ⟨h1, h2⟩)
          · exact hbv (h2 ▸ hy)
          · exact hab (hax.trans h1)
        · obtain ⟨h1, h2⟩ := mem_pairsOf xs q' h
          rintro (⟨hc1, hc2⟩ | ⟨hc1, hc2⟩)
          · refine hxnot ?_
            rw [← hax, ← hc1]
            exact h1
          · refine hxnot ?_
            rw [← hax, ← hc2]
            exact h2
    · by_cases hbx : b = x
      · have haxs : a ∈ xs := by
          rcases List.mem_cons.mp ha with h | h
          · exact absurd h hax
          · exact h
        obtain ⟨u, v, huv⟩ := List.append_of_mem haxs
        have hau : a ∉ u := by
          intro hc
          rw [huv] at hNxs
          exact (List.disjoint_of_nodup_append hNxs) hc (List.mem_cons_self a v)
        have hav : a ∉ v := by
          intro hc
          rw [huv] at hNxs
          exact (List.nodup_cons.mp (List.Nodup.of_append_right hNxs)).1 hc
        refine ⟨u.map (fun y => (x, y)), (x, a),
          v.map (fun y => (x, y)) ++ pairsOf xs, ?_, ?_, ?_, ?_⟩
        · have hmap : List.map (fun y => (x, y)) xs =
              List.map (fun y => (x, y)) u ++
                ((x, a) :: List.map (fun y => (x, y)) v) := by
            rw [huv, List.map_append, List.map_cons]
          show List.map (fun y => (x, y)) xs ++ pairsOf xs = _
          rw [hmap, List.append_assoc, List.cons_append]
        · exact Or.inr ⟨hbx.symm, rfl⟩
        · intro q' hq'
          obtain ⟨y, hy, hye⟩ := List.mem_map.mp hq'
          rw [← hye]
          rintro (⟨h1, h2⟩ | ⟨h1, h2⟩)
          · exact hax h1.symm
          · exact hau (h2 ▸ hy)
        · intro q' hq'
          rcases List.mem_append.mp hq' with h | h
          · obtain ⟨y, hy, hye⟩ := List.mem_map.mp h
            rw [← hye]
            rintro (⟨h1, h2⟩ | ⟨h1, h2⟩)
            · exact hax h1.symm
            · exact hav (h2 ▸ hy)
          · obtain ⟨h1, h2⟩ := mem_pairsOf xs q' h
            rintro (⟨hc1, hc2⟩ | ⟨hc1, hc2⟩)
            · refine hxnot ?_
              rw [← hbx, ← hc2]
              exact h2
            · refine hxnot ?_
              rw [← hbx, ← hc1]
              exact h1
      · have haxs : a ∈ xs := by
          rcases List.mem_cons.mp ha with h | h
          · exact absurd h hax
          · exact h
        have hbxs : b ∈ xs := by
          rcases List.mem_cons.mp hb with h | h
          · exact absurd h hbx
          · exact h
        obtain ⟨pre, q, post, heq, hsp, hpre, hpost⟩ := ih hNxs haxs hbxs
        refine ⟨xs.map (fun y => (x, y)) ++ pre, q, post, ?_, hsp, ?_, hpost⟩
        · show List.map (fun y => (x, y)) xs ++ pairsOf xs = _
          rw [heq, List.append_assoc]
        · intro q' hq'
          rcases List.mem_append.mp hq' with h | h
          · obtain ⟨y, hy, hye⟩ := List.mem_map.mp h
            rw [← hye]
            rintro (⟨h1, h2⟩ | ⟨h1, h2⟩)
            · exact hax h1.symm
            · exact hbx h1.symm
          · exact hpre q' h

theorem one_lt_length_of_mem_ne (L : List ℕ) (a b : ℕ)
    (ha : a ∈ L) (hb : b ∈ L) (hab : a ≠ b) : 1 < L.length := by
  cases L with
  | nil => cases ha
  | cons x xs =>
    cases xs with
    | nil =>
      simp only [List.mem_singleton] at ha hb
      exact absurd (ha.trans hb.symm) hab
    | cons y ys => simp [List.length_cons]

theorem rowsFor_mem_rels (rels : List RelRow) (a b : ℕ) (r : RelRow)
    (h : r ∈ rowsFor rels a b) : r ∈ rels :=
  List.mem_of_mem_filter h

/-- The net effect of one run of the pair loop on any pair of distinct linked
people: a fresh strength-1 row when none existed, a strength bump of the
unique existing row otherwise. -/
theorem relPhase_rowsFor (summary : String) (L : List ℕ) (s : Store) (hWF : WFRel s)
    (hN : L.Nodup) (a b : ℕ) (ha : a ∈ L) (hb : b ∈ L) (hab : a ≠ b) :
    (rowsFor s.relationships a b = [] →
      ∃ rr, rowsFor (relPhase summary L s).relationships a b = [rr] ∧
        rr.strength = 1 ∧ samePair a b rr.personAId rr.personBId ∧
        rr.context = some ("Co-mentioned in meeting: " ++ summary.take 100)) ∧
    (∀ r0, rowsFor s.relationships a b = [r0] →
      rowsFor (relPhase summary L s).relationships a b =
        [{ r0 with strength := r0.strength + 1 }]) := by
  have hlen : 1 < L.length := one_lt_length_of_mem_ne L a b ha hb hab
  have hphase : relPhase summary L s = relFold summary (pairsOf L) s := by
    unfold relPhase relFold
    rw [if_pos hlen]
  obtain ⟨pre, q, post, heq, hsp, hpre, hpost⟩ := pairsOf_split L hN a b ha hb hab
  have hfold : relFold summary (pairsOf L) s =
      relFold summary post (relUpsert summary (relFold summary pre s) q.1 q.2) := by
    rw [heq, relFold_append, relFold_cons]
  have hWF1 : WFRel (relFold summary pre s) := relFold_WF summary pre s hWF
  have hrows1 : rowsFor (relFold summary pre s).relationships a b =
      rowsFor s.relationships a b :=
    relFold_rowsFor_other summary a b pre hpre s hWF
  have hWF2 : WFRel (relUpsert summary (relFold summary pre s) q.1 q.2) :=
    relUpsert_WF summary _ q.1 q.2 hWF1
  constructor
  · intro hnil
    refine ⟨freshRelRow summary (relFold summary pre s) q.1 q.2, ?_, rfl, ?_, rfl⟩
    · rw [hphase, hfold, relFold_rowsFor_other summary a b post hpost _ hWF2,
        (relUpsert_rowsFor_self summary (relFold summary pre s) a b q.1 q.2 hsp).1
          (hrows1.trans hnil)]
    · exact hsp
  · intro r0 hone
    have hbump : bumpStrength r0.strength = r0.strength + 1 := by
      unfold bumpStrength
      have hr0 : r0 ∈ s.relationships :=
        rowsFor_mem_rels s.relationships a b r0 (hone ▸ List.mem_singleton_self r0)
      have h1 : (1 : ℚ) ≤ r0.strength := hWF.2.2.2 r0 hr0
      rw [if_neg (by linarith)]
    rw [hphase, hfold, relFold_rowsFor_other summary a b post hpost _ hWF2,
      (relUpsert_rowsFor_self summary (relFold summary pre s) a b q.1 q.2 hsp).2
        r0 (hrows1.trans hone), hbump]

theorem relPhase_WF (summary : String) (L : List ℕ) (s : Store) (hWF : WFRel s) :
    WFRel (relPhase summary L s) := by
  unfold relPhase
  rcases Decidable.em (1 < L.length) with h | h
  · rw [if_pos h]
    exact relFold_WF summary (pairsOf L) s hWF
  · rw [if_neg h]
    exact hWF

theorem WFRel_congr (s1 s2 : Store) (hrel : s1.relationships = s2.relationships)
    (hnext : s1.nextRelId = s2.nextRelId) : WFRel s1 ↔ WFRel s2 := by
  unfold WFRel
  rw [hrel, hnext]

/-- `getPerson` after one existing-person loop iteration: same table with the
assigned person's row touched. -/
theorem getPerson_existing_step (embedder : String → Option (List ℚ))
    (summary : String) (topics : List String) (mid : ℕ) (s : Store)
    (acc : List (ℕ × String × Bool)) (a : Assignment) (p : ℕ) (r : PersonRow)
    (hc : a.createNew = false) (hp : truthyId a.personId = some p)
    (hr : getPerson s p = some r) (q : ℕ) :
    getPerson (processAssignment embedder summary topics mid (s, acc) a).1 q =
      (getPerson s q).map
        (fun rr => if rr.id = p then touchRow embedder summary r.context rr else rr) := by
  rw [processAssignment_existing embedder summary topics mid s acc a p r hc hp hr]
  exact getPerson_after_update s (s.meetingPeople ++ [(mid, p)]) p q
    (touchRow embedder summary r.context)
    (fun x => touchRow_id embedder summary r.context x)

/-- Resolvability of the remaining assignments survives one loop iteration. -/
theorem presence_transport (embedder : String → Option (List ℚ))
    (summary : String) (topics : List String) (mid : ℕ) (s : Store)
    (acc : List (ℕ × String × Bool)) (a : Assignment) (p : ℕ) (r : PersonRow)
    (hc : a.createNew = false) (hp : truthyId a.personId = some p)
    (hr : getPerson s p = some r) (rest : List Assignment)
    (hP : ∀ a' ∈ rest, ∃ p' r', truthyId a'.personId = some p' ∧
      getPerson s p' = some r') :
    ∀ a' ∈ rest, ∃ p' r', truthyId a'.personId = some p' ∧
      getPerson (processAssignment embedder summary topics mid (s, acc) a).1 p'
        = some r' := by
  intro a' ha'
  obtain ⟨p', r', hp', hr'⟩ := hP a' ha'
  refine ⟨p', if r'.id = p then touchRow embedder summary r.context r' else r', hp', ?_⟩
  rw [getPerson_existing_step embedder summary topics mid s acc a p r hc hp hr p', hr']
  rfl

/-- The people linked by the assignment loop are exactly the resolved person
ids, in order, when every assignment targets an existing person. -/
theorem fold_linked_ids (embedder : String → Option (List ℚ)) (summary : String)
    (topics : List String) (mid : ℕ) :
    ∀ (assignments : List Assignment) (s : Store) (acc : List (ℕ × String × Bool)),
    (∀ a ∈ assignments, a.createNew = false) →
    (∀ a ∈ assignments, ∃ p r, truthyId a.personId = some p ∧ getPerson s p = some r) →
    (assignments.foldl (processAssignment embedder summary topics mid) (s, acc)).2.map
        (fun l => l.1)
      = acc.map (fun l => l.1) ++
        assignments.filterMap (fun a => truthyId a.personId) := by
  intro assignments
  induction assignments with
  | nil =>
    intro s acc _ _
    simp
  | cons a rest ih =>
    intro s acc hA hP
    obtain ⟨p, r, hp, hr⟩ := hP a (List.mem_cons_self a rest)
    have hc : a.createNew = false := hA a (List.mem_cons_self a rest)
    rw [List.foldl_cons]
    rcases hsplit : processAssignment embedder summary topics mid (s, acc) a
      with ⟨s', acc'⟩
    have hexist := processAssignment_existing embedder summary topics mid s acc a p r
      hc hp hr
    rw [hsplit] at hexist
    have hacc : acc' = acc ++ [(p, r.name, false)] := congrArg Prod.snd hexist
    have hPnext := presence_transport embedder summary topics mid s acc a p r hc hp hr
      rest (fun a' ha' => hP a' (List.mem_cons_of_mem a ha'))
    rw [hsplit] at hPnext
    rw [ih s' acc' (fun a' ha' => hA a' (List.mem_cons_of_mem a ha')) hPnext, hacc,
      List.map_append, List.filterMap_cons, hp, List.append_assoc]
    rfl

/-- Person rows are never deleted by the assignment loop. -/
theorem fold_getPerson_isSome (embedder : String → Option (List ℚ))
    (summary : String) (topics : List String) (mid : ℕ) :
    ∀ (assignments : List Assignment) (s : Store) (acc : List (ℕ × String × Bool))
      (q : ℕ),
    (∀ a ∈ assignments, a.createNew = false) →
    (∀ a ∈ assignments, ∃ p r, truthyId a.personId = some p ∧ getPerson s p = some r) →
    (getPerson s q).isSome = true →
    (getPerson (assignments.foldl (processAssignment embedder summary topics mid)
      (s, acc)).1 q).isSome = true := by
  intro assignments
  induction assignments with
  | nil =>
    intro s acc q _ _ hq
    exact hq
  | cons a rest ih =>
    intro s acc q hA hP hq
    obtain ⟨p, r, hp, hr⟩ := hP a (List.mem_cons_self a rest)
    have hc : a.createNew = false := hA a (List.mem_cons_self a rest)
    rw [List.foldl_cons]
    rcases hsplit : processAssignment embedder summary topics mid (s, acc) a
      with ⟨s', acc'⟩
    refine ih s' acc' q (fun a' ha' => hA a' (List.mem_cons_of_mem a ha')) ?_ ?_
    · have := presence_transport embedder summary topics mid s acc a p r hc hp hr rest
        (fun a' ha' => hP a' (List.mem_cons_of_mem a ha'))
      rw [hsplit] at this
      exact this
    · have hstep := getPerson_existing_step embedder summary topics mid s acc a p r
        hc hp hr q
      rw [hsplit] at hstep
      obtain ⟨rq, hrq⟩ := Option.isSome_iff_exists.mp hq
      rw [hstep, hrq]
      rfl

/-- The full confirm handler acting on the relationship rows of a pair of
distinct linked existing people: the same upsert as `relPhase`, plus
preservation of well-formedness and of person-row presence. -/
theorem confirm_pair_effect (embedder : String → Option (List ℚ))
    (text summary : String) (topics : List String)
    (assignments : List Assignment) (s : Store) (hWF : WFRel s)
    (hA : ∀ a ∈ assignments, a.createNew = false)
    (hP : ∀ a ∈ assignments, ∃ p r, truthyId a.personId = some p ∧
      getPerson s p = some r)
    (L : List ℕ) (hL : L = assignments.filterMap (fun a => truthyId a.personId))
    (hN : L.Nodup) :
    WFRel (handleConfirm embedder text summary topics assignments s).1 ∧
    (∀ q rq, getPerson s q = some rq →
      (getPerson (handleConfirm embedder text summary topics assignments s).1 q).isSome
        = true) ∧
    (∀ a b, a ∈ L → b ∈ L → a ≠ b →
      (rowsFor s.relationships a b = [] →
        ∃ rr, rowsFor
            (handleConfirm embedder text summary topics assignments s).1.relationships
            a b = [rr] ∧ rr.strength = 1 ∧ samePair a b rr.personAId rr.personBId) ∧
      (∀ r0, rowsFor s.relationships a b = [r0] →
        rowsFor
            (handleConfirm embedder text summary topics assignments s).1.relationships
            a b = [{ r0 with strength := r0.strength + 1 }])) := by
  have hPC : ∀ a ∈ assignments, ∃ p r, truthyId a.personId = some p ∧
      getPerson (confirmMeetingStore embedder text summary topics assignments s) p
        = some r := hP
  have hlinked : ((assignments.foldl
      (processAssignment embedder summary topics s.nextMeetingId)
      (confirmMeetingStore embedder text summary topics assignments s, [])).2.map
        (fun l => l.1)) = L := by
    rw [fold_linked_ids embedder summary topics s.nextMeetingId assignments _ [] hA hPC,
      hL]
    rfl
  have hstore : (handleConfirm embedder text summary topics assignments s).1 =
      relPhase summary L
        (assignments.foldl (processAssignment embedder summary topics s.nextMeetingId)
          (confirmMeetingStore embedder text summary topics assignments s, [])).1 := by
    have h1 : (handleConfirm embedder text summary topics assignments s).1 =
        relPhase summary
          ((assignments.foldl
            (processAssignment embedder summary topics s.nextMeetingId)
            (confirmMeetingStore embedder text summary topics assignments s, [])).2.map
              (fun l => l.1))
          (assignments.foldl (processAssignment embedder summary topics s.nextMeetingId)
            (confirmMeetingStore embedder text summary topics assignments s, [])).1 := rfl
    rw [h1, hlinked]
  have hrels : (assignments.foldl
      (processAssignment embedder summary topics s.nextMeetingId)
      (confirmMeetingStore embedder text summary topics assignments s, [])).1.relationships
      = s.relationships :=
    (foldAssignments_frame embedder summary topics s.nextMeetingId assignments _).2.1
  have hnext : (assignments.foldl
      (processAssignment embedder summary topics s.nextMeetingId)
      (confirmMeetingStore embedder text summary topics assignments s, [])).1.nextRelId
      = s.nextRelId :=
    (foldAssignments_frame embedder summary topics s.nextMeetingId assignments _).2.2.2
  have hWFF : WFRel (assignments.foldl
      (processAssignment embedder summary topics s.nextMeetingId)
      (confirmMeetingStore embedder text summary topics assignments s, [])).1 :=
    (WFRel_congr _ s hrels hnext).mpr hWF
  refine ⟨?_, ?_, ?_⟩
  · rw [hstore]
    exact relPhase_WF summary L _ hWFF
  · intro q rq hq
    rw [hstore, getPerson_relPhase]
    refine fold_getPerson_isSome embedder summary topics s.nextMeetingId assignments
      _ [] q hA hPC ?_
    show (getPerson s q).isSome = true
    rw [hq]
    rfl
  · intro a b ha hb hab
    have heff := relPhase_rowsFor summary L _ hWFF hN a b ha hb hab
    constructor
    · intro hnil
      obtain ⟨rr, hrr, h1, h2, _⟩ := heff.1 (by rw [hrels]; exact hnil)
      refine ⟨rr, ?_, h1, h2⟩
      rw [hstore]
      exact hrr
    · intro r0 hone
      rw [hstore]
      exact heff.2 r0 (by rw [hrels]; exact hone)

theorem WFRel_emptyStore : WFRel emptyStore := by
  refine ⟨?_, ?_, ?_, ?_⟩
  · exact List.nodup_nil
  · intro r hr
    cases hr
  · intro a b
    exact Nat.zero_le 1
  · intro r hr
    cases hr

/-- **C1.** For every confirm call whose assignments resolve to
pairwise-distinct existing persons, and every unordered pair of linked
persons: if a relationship row for the pair exists in either orientation its
strength is incremented by exactly 1 and no row is inserted; otherwise exactly
one new row with strength 1 is inserted; well-formedness (in particular at
most one row per unordered pair, so (A,B) and (B,A) never yield two rows) is
preserved, and a second identical confirm raises the same row to strength 2.
Stated for the pair loop `relPhase` over any duplicate-free linked list, and
for the full `handleConfirm` whose assignments resolve to those ids. -/
theorem claim_c1_relationship_upsert (summary : String) (s : Store)
    (hWF : WFRel s) (L : List ℕ) (hN : L.Nodup) :
    (∀ a b, a ∈ L → b ∈ L → a ≠ b →
      (rowsFor s.relationships a b = [] →
        ∃ rr, rowsFor (relPhase summary L s).relationships a b = [rr] ∧
          rr.strength = 1 ∧ samePair a b rr.personAId rr.personBId ∧
          rr.context = some ("Co-mentioned in meeting: " ++ summary.take 100)) ∧
      (∀ r0, rowsFor s.relationships a b = [r0] →
        rowsFor (relPhase summary L s).relationships a b =
          [{ r0 with strength := r0.strength + 1 }])) ∧
    WFRel (relPhase summary L s) ∧
    (∀ a b, a ∈ L → b ∈ L → a ≠ b → rowsFor s.relationships a b = [] →
      ∃ rr, rowsFor (relPhase summary L (relPhase summary L s)).relationships a b
          = [rr] ∧ rr.strength = 2) ∧
    (∀ (embedder : String → Option (List ℚ)) (text : String) (topics : List String)
        (assignments : List Assignment),
      (∀ a ∈ assignments, a.createNew = false) →
      (∀ a ∈ assignments, ∃ p r, truthyId a.personId = some p ∧
        getPerson s p = some r) →
      L = assignments.filterMap (fun a => truthyId a.personId) →
      ∀ a b, a ∈ L → b ∈ L → a ≠ b →
        WFRel (handleConfirm embedder text summary topics assignments s).1 ∧
        (rowsFor s.relationships a b = [] →
          ∃ rr, rowsFor
              (handleConfirm embedder text summary topics assignments s).1.relationships
              a b = [rr] ∧ rr.strength = 1 ∧ samePair a b rr.personAId rr.personBId) ∧
        (∀ r0, rowsFor s.relationships a b = [r0] →
          rowsFor
              (handleConfirm embedder text summary topics assignments s).1.relationships
              a b = [{ r0 with strength := r0.strength + 1 }]) ∧
        (rowsFor s.relationships a b = [] →
          ∃ rr, rowsFor ((handleConfirm embedder text summary topics assignments
              (handleConfirm embedder text summary topics assignments s).1).1).relationships
              a b = [rr] ∧ rr.strength = 2)) := by
  refine ⟨?_, relPhase_WF summary L s hWF, ?_, ?_⟩
  · intro a b ha hb hab
    exact relPhase_rowsFor summary L s hWF hN a b ha hb hab
  · intro a b ha hb hab hnil
    obtain ⟨rr, hrr, hs1, _, _⟩ :=
      (relPhase_rowsFor summary L s hWF hN a b ha hb hab).1 hnil
    have h2 := (relPhase_rowsFor summary L (relPhase summary L s)
      (relPhase_WF summary L s hWF) hN a b ha hb hab).2 rr hrr
    refine ⟨_, h2, ?_⟩
    show rr.strength + 1 = 2
    rw [hs1]
    norm_num
  · intro embedder text topics assignments hA hP hL a b ha hb hab
    have h1 := confirm_pair_effect embedder text summary topics assignments s hWF
      hA hP L hL hN
    refine ⟨h1.1, (h1.2.2 a b ha hb hab).1, (h1.2.2 a b ha hb hab).2, ?_⟩
    intro hnil
    obtain ⟨rr, hrr, hs1, _⟩ := (h1.2.2 a b ha hb hab).1 hnil
    have hP1 : ∀ a' ∈ assignments, ∃ p r', truthyId a'.personId = some p ∧
        getPerson (handleConfirm embedder text summary topics assignments s).1 p
          = some r' := by
      intro a' ha'
      obtain ⟨p, r, hp, hr⟩ := hP a' ha'
      obtain ⟨r', hr'⟩ := Option.isSome_iff_exists.mp (h1.2.1 p r hr)
      exact ⟨p, r', hp, hr'⟩
    have h2 := confirm_pair_effect embedder text summary topics assignments
      (handleConfirm embedder text summary topics assignments s).1 h1.1 hA hP1 L hL hN
    have h2b := (h2.2.2 a b ha hb hab).2 rr hrr
    refine ⟨_, h2b, ?_⟩
    show rr.strength + 1 = 2
    rw [hs1]
    norm_num

/-- Concrete instance of C1: two distinct persons, one pass of the pair loop
over the empty store. -/
theorem claim_c1_relationship_upsert_witness :
    WFRel emptyStore ∧ ([1, 2] : List ℕ).Nodup ∧
    (∃ rr, rowsFor (relPhase "met at expo" [1, 2] emptyStore).relationships 1 2
        = [rr] ∧ rr.strength = 1 ∧ samePair 1 2 rr.personAId rr.personBId ∧
        rr.context = some ("Co-mentioned in meeting: " ++ "met at expo".take 100)) :=
  ⟨WFRel_emptyStore, by decide,
    ((claim_c1_relationship_upsert "met at expo" emptyStore WFRel_emptyStore [1, 2]
      (by decide)).1 1 2 (by decide) (by decide) (by decide)).1 rfl⟩

/-! ## Claim C8 — `FallbackProvider.getMeetingText` (part_004 lines 228–264) -/

theorem foldl_markerStep_fst (lower : List Char) :
    ∀ (ms : List String) (st : ℤ × ℕ), -1 ≤ st.1 →
      (ms.foldl (markerStep lower) st).1 =
          (ms.map (fun m => firstOccZ m lower)).foldl max st.1 ∧
        -1 ≤ (ms.foldl (markerStep lower) st).1 := by
  intro ms
  induction ms with
  | nil => exact fun st h => ⟨rfl, h⟩
  | cons m rest ih =>
    intro st hst
    rw [List.foldl_cons, List.map_cons, List.foldl_cons]
    have hstep : (markerStep lower st m).1 = max st.1 (firstOccZ m lower) ∧
        -1 ≤ (markerStep lower st m).1 := by
      unfold markerStep firstOccZ
      rcases strFindAux m.toList lower 0 with _ | idx
      all_goals dsimp only
      · exact ⟨(max_eq_left (by linarith)).symm, hst⟩
      · rcases Decidable.em ((idx : ℤ) > st.1) with h | h
        · rw [if_pos h]
          refine ⟨(max_eq_right (le_of_lt h)).symm, ?_⟩
          have : (0 : ℤ) ≤ (idx : ℤ) := Int.natCast_nonneg idx
          linarith
        · rw [if_neg h]
          exact ⟨(max_eq_left (le_of_not_lt h)).symm, hst⟩
    obtain ⟨ha, hb⟩ := ih (markerStep lower st m) hstep.2
    refine ⟨?_, hb⟩
    rw [ha, hstep.1]

theorem foldl_max_mem (ms : List ℤ) : ∀ b : ℤ,
    ms.foldl max b = b ∨ ms.foldl max b ∈ ms := by
  induction ms with
  | nil => exact fun b => Or.inl rfl
  | cons x rest ih =>
    intro b
    rw [List.foldl_cons]
    rcases ih (max b x) with h | h
    · rcases max_choice b x with hm | hm
      · exact Or.inl (h.trans hm)
      · refine Or.inr ?_
        rw [h, hm]
        exact List.mem_cons_self x rest
    · exact Or.inr (List.mem_cons_of_mem x h)

/-- **C8 counterexample.** The marker scan uses `indexOf`, the FIRST
occurrence of each marker, so on a prompt whose only marker "note:" occurs
twice the content starts after the first occurrence, not the last one as the
claim states: the claim-modelled `lastIndexOf` reading extracts a different
string. -/
theorem claim_c8_counterexample :
    getMeetingText promptC8 ≠ getMeetingTextClaimC8 promptC8 ∧
    getMeetingText promptC8 = "aaaa bbbb cccc note: zzzz yyyy xxxx wwww vvvv" ∧
    getMeetingTextClaimC8 promptC8 = "zzzz yyyy xxxx wwww vvvv" := by
  refine ⟨?_, ?_, ?_⟩ <;> decide

/-- **C8 amended.** The extraction anchor is the LATEST FIRST occurrence over
the marker set: `bestIdx` equals the maximum over all markers of each
marker's first-occurrence index (−1 when absent), it is attained by some
marker when not −1, and whenever it is not −1 and the remainder after the
marker (stripped of leading whitespace, backticks, dashes and colons, then
trimmed) exceeds 20 characters, `getMeetingText` returns exactly that
remainder. -/
theorem claim_c8_amended :
    (∀ lower : List Char,
      (bestMarker lower).1 =
          (markers.map (fun m => firstOccZ m lower)).foldl max (-1) ∧
        ((bestMarker lower).1 = -1 ∨
          ∃ m ∈ markers, firstOccZ m lower = (bestMarker lower).1)) ∧
    (∀ prompt : String,
      (bestMarker (prompt.toList.map jsToLower)).1 ≠ -1 →
      20 < (extractedC8 prompt).length →
      getMeetingText prompt = String.mk (extractedC8 prompt)) := by
  constructor
  · intro lower
    have h1 := foldl_markerStep_fst lower markers (-1, 0) (le_refl (-1))
    refine ⟨h1.1, ?_⟩
    rcases foldl_max_mem (markers.map (fun m => firstOccZ m lower)) (-1) with h | h
    · refine Or.inl ?_
      unfold bestMarker
      rw [h1.1]
      exact h
    · refine Or.inr ?_
      obtain ⟨m, hm, hme⟩ := List.mem_map.mp h
      refine ⟨m, hm, ?_⟩
      unfold bestMarker
      rw [h1.1]
      exact hme
  · intro prompt h1 h2
    unfold getMeetingText
    rw [if_pos ⟨h1, h2⟩]

/-- Concrete instance of the amended C8 on a prompt containing two markers. -/
theorem claim_c8_amended_witness :
    (bestMarker (String.toList "meeting note: quarterly roadmap review" |>.map
      jsToLower)).1 ≠ -1 ∧
    20 < (extractedC8 "meeting note: quarterly roadmap review").length ∧
    getMeetingText "meeting note: quarterly roadmap review" =
      String.mk (extractedC8 "meeting note: quarterly roadmap review") :=
  ⟨by decide, by decide,
    claim_c8_amended.2 "meeting note: quarterly roadmap review" (by decide) (by decide)⟩

/-! ## Claim C6 — `embeddingToBuffer` / `bufferToEmbedding` (part_002 lines 139–156)

`Buffer.writeFloatLE` converts the JS number to IEEE-754 binary32 by
round-to-nearest, ties-to-even, and stores the 4 bytes little-endian;
`readFloatLE` decodes them exactly.  The definitions below give those
primitives their IEEE-754 semantics over ℚ.  A byte pattern with exponent
field 255 (NaN, ±∞) denotes no rational value, so decoding returns an
`Option` and finiteness appears as a hypothesis. -/

theorem rneInt_intCast (n : ℤ) : rneInt ((n : ℚ)) = n := by
  unfold rneInt
  rw [Int.floor_intCast, sub_self, if_pos (by norm_num : (0 : ℚ) < 1 / 2)]

theorem expSearch_lb (a : ℚ) : ∀ fuel : ℕ, -126 ≤ expSearch a fuel := by
  intro fuel
  induction fuel with
  | zero => exact le_refl _
  | succ k ih =>
    unfold expSearch
    rcases Decidable.em ((2 : ℚ) ^ ((k : ℤ) - 126) ≤ a) with h | h
    · rw [if_pos h]
      omega
    · rw [if_neg h]
      exact ih

theorem expSearch_ub (a : ℚ) :
    ∀ fuel : ℕ, expSearch a fuel ≤ max (-126) ((fuel : ℤ) - 127) := by
  intro fuel
  induction fuel with
  | zero => simp [expSearch]
  | succ k ih =>
    unfold expSearch
    rcases Decidable.em ((2 : ℚ) ^ ((k : ℤ) - 126) ≤ a) with h | h
    · rw [if_pos h]
      have he : ((k + 1 : ℕ) : ℤ) - 127 = (k : ℤ) - 126 := by push_cast; ring
      rw [he]
      exact le_max_right _ _
    · rw [if_neg h]
      refine le_trans ih (max_le_max (le_refl _) ?_)
      push_cast
      omega

theorem expFor_bounds (a : ℚ) : -126 ≤ expFor a ∧ expFor a ≤ 127 := by
  refine ⟨expSearch_lb a 254, le_trans (expSearch_ub a 254) ?_⟩
  norm_num

theorem expSearch_spec (a : ℚ) (e : ℤ) :
    ∀ fuel : ℕ, -126 ≤ e → e ≤ (fuel : ℤ) - 127 →
    (2 : ℚ) ^ e ≤ a →
    (∀ j : ℤ, e < j → j ≤ (fuel : ℤ) - 127 → ¬((2 : ℚ) ^ j ≤ a)) →
    expSearch a fuel = e := by
  intro fuel
  induction fuel with
  | zero =>
    intro h1 h2 _ _
    exfalso
    omega
  | succ k ih =>
    intro h1 h2 h3 h4
    unfold expSearch
    rcases Decidable.em (e = (k : ℤ) - 126) with he | he
    · rw [if_pos (by rw [← he]; exact h3)]
      exact he.symm
    · have hlt : e < (k : ℤ) - 126 := by push_cast at h2; omega
      rw [if_neg (h4 ((k : ℤ) - 126) hlt (by push_cast; omega))]
      exact ih h1 (by omega) h3 (fun j hj1 hj2 => h4 j hj1 (by push_cast; omega))

theorem expSearch_none (a : ℚ) :
    ∀ fuel : ℕ,
    (∀ j : ℤ, -126 ≤ j → j ≤ (fuel : ℤ) - 127 → ¬((2 : ℚ) ^ j ≤ a)) →
    expSearch a fuel = -126 := by
  intro fuel
  induction fuel with
  | zero =>
    intro _
    rfl
  | succ k ih =>
    intro h
    unfold expSearch
    rw [if_neg (h ((k : ℤ) - 126) (by omega) (by push_cast; omega))]
    exact ih (fun j hj1 hj2 => h j hj1 (by push_cast; omega))

theorem two_zpow_pos (e : ℤ) : (0 : ℚ) < 2 ^ e :=
  zpow_pos (by norm_num) e

theorem two_zpow_mono {e f : ℤ} (h : e ≤ f) : (2 : ℚ) ^ e ≤ 2 ^ f :=
  zpow_le_zpow_right₀ (by norm_num) h

/-- `expFor` on the subnormal range. -/
theorem expFor_subnormal (a : ℚ) (h : a < (2 : ℚ) ^ (-126 : ℤ)) :
    expFor a = -126 := by
  refine expSearch_none a 254 (fun j hj1 _ hle => ?_)
  exact absurd (lt_of_lt_of_le h (two_zpow_mono hj1)) (not_lt.mpr hle)

/-- `expFor` on a binade of the normal range. -/
theorem expFor_normal (a : ℚ) (e : ℤ) (he1 : -126 ≤ e) (he2 : e ≤ 127)
    (h1 : (2 : ℚ) ^ e ≤ a) (h2 : a < 2 ^ (e + 1)) : expFor a = e := by
  refine expSearch_spec a e 254 he1 (by push_cast; omega) h1 ?_
  intro j hj1 _ hle
  exact absurd (lt_of_lt_of_le h2 (two_zpow_mono (by omega))) (not_lt.mpr hle)

theorem roundF32_lt (x : ℚ) : roundF32 x < 2 ^ 32 := by
  unfold roundF32
  obtain ⟨hb1, hb2⟩ := expFor_bounds |x|
  split_ifs <;> omega

theorem decodeWordLE_encodeWordLE (w : ℕ) (h : w < 2 ^ 32) :
    decodeWordLE (w % 256) (w / 256 % 256) (w / 2 ^ 16 % 256) (w / 2 ^ 24 % 256)
      = w := by
  unfold decodeWordLE
  omega

/-- One buffer round-trip step. -/
theorem bufferToEmbedding_encode_cons (w : ℕ) (h : w < 2 ^ 32) (rest : List ℕ) :
    bufferToEmbedding (encodeWordLE w ++ rest) =
      decodeF32 w :: bufferToEmbedding rest := by
  show decodeF32 (decodeWordLE (w % 256) (w / 256 % 256) (w / 2 ^ 16 % 256)
      (w / 2 ^ 24 % 256)) :: bufferToEmbedding rest = _
  rw [decodeWordLE_encodeWordLE w h]

theorem decodeF32_zero : decodeF32 0 = some 0 := by
  unfold decodeF32
  norm_num

theorem natCast_pow2 (n : ℕ) : ((2 ^ n : ℕ) : ℚ) = (2 : ℚ) ^ ((n : ℕ) : ℤ) := by
  push_cast
  rw [zpow_natCast]

/-- The main rounding lemma: rounding is the identity on every value that a
finite binary32 pattern denotes. -/
theorem decode_round_exact (w : ℕ) (x : ℚ) (h : decodeF32 w = some x) :
    decodeF32 (roundF32 x) = some x := by
  unfold decodeF32 at h
  rcases Decidable.em (w / 2 ^ 23 % 256 = 255) with heb | heb
  · rw [if_pos heb] at h
    cases h
  rw [if_neg heb] at h
  have hx := Option.some.inj h
  have hs01 : w / 2 ^ 31 % 2 = 0 ∨ w / 2 ^ 31 % 2 = 1 := by omega
  have hmlt : w % 2 ^ 23 < 2 ^ 23 := by omega
  rcases Decidable.em (w / 2 ^ 23 % 256 = 0) with heb0 | heb0
  · -- subnormal pattern
    rw [if_pos heb0] at hx
    rcases Decidable.em (w % 2 ^ 23 = 0) with hm0 | hm0
    · -- a zero of either sign
      have hx0 : x = 0 := by
        rw [← hx, hm0]
        rcases hs01 with hs | hs <;> rw [hs] <;> norm_num
      rw [hx0]
      show decodeF32 (roundF32 0) = some 0
      rw [show roundF32 0 = 0 from rfl]
      exact decodeF32_zero
    · have hApos : (0 : ℚ) < ((w % 2 ^ 23 : ℕ) : ℚ) * (2 : ℚ) ^ (-149 : ℤ) := by
        refine mul_pos ?_ (two_zpow_pos _)
        exact_mod_cast Nat.pos_of_ne_zero hm0
      have hAlt : ((w % 2 ^ 23 : ℕ) : ℚ) * (2 : ℚ) ^ (-149 : ℤ)
          < (2 : ℚ) ^ (-126 : ℤ) := by
        have hc : ((w % 2 ^ 23 : ℕ) : ℚ) < (2 : ℚ) ^ ((23 : ℕ) : ℤ) := by
          rw [← natCast_pow2]
          exact_mod_cast hmlt
        calc ((w % 2 ^ 23 : ℕ) : ℚ) * (2 : ℚ) ^ (-149 : ℤ)
            < (2 : ℚ) ^ ((23 : ℕ) : ℤ) * (2 : ℚ) ^ (-149 : ℤ) :=
              mul_lt_mul_of_pos_right hc (two_zpow_pos _)
          _ = (2 : ℚ) ^ (-126 : ℤ) := by
              rw [← zpow_add₀ (by norm_num : (2 : ℚ) ≠ 0)]
              norm_num
      have hdiv : ((w % 2 ^ 23 : ℕ) : ℚ) * (2 : ℚ) ^ (-149 : ℤ)
          / (2 : ℚ) ^ ((-126 : ℤ) - 23) = ((w % 2 ^ 23 : ℕ) : ℚ) := by
        rw [show ((-126 : ℤ) - 23) = -149 by norm_num]
        exact mul_div_cancel_right₀ _ (ne_of_gt (two_zpow_pos _))
      have hsig : roundSig (((w % 2 ^ 23 : ℕ) : ℚ) * (2 : ℚ) ^ (-149 : ℤ))
          = ((w % 2 ^ 23 : ℕ) : ℤ) := by
        unfold roundSig
        rw [expFor_subnormal _ hAlt, hdiv]
        exact_mod_cast rneInt_intCast ((w % 2 ^ 23 : ℕ) : ℤ)
      rcases hs01 with hs | hs
      · -- positive subnormal
        rw [hs] at hx
        rw [if_neg (show ¬(0 : ℕ) = 1 by norm_num), one_mul] at hx
        have hxv : x = ((w % 2 ^ 23 : ℕ) : ℚ) * (2 : ℚ) ^ (-149 : ℤ) := hx.symm
        have hxpos : 0 < x := hxv ▸ hApos
        have habs : |x| = ((w % 2 ^ 23 : ℕ) : ℚ) * (2 : ℚ) ^ (-149 : ℤ) := by
          rw [abs_of_pos hxpos]
          exact hxv
        have hword : roundF32 x = w % 2 ^ 23 := by
          unfold roundF32
          rw [if_neg (ne_of_gt hxpos), if_neg (not_lt.mpr (le_of_lt hxpos)), habs,
            hsig, if_pos (by exact_mod_cast hmlt)]
          omega
        rw [hword]
        unfold decodeF32
        rw [show w % 2 ^ 23 / 2 ^ 23 % 256 = 0 by omega,
          show w % 2 ^ 23 / 2 ^ 31 % 2 = 0 by omega,
          show w % 2 ^ 23 % 2 ^ 23 = w % 2 ^ 23 by omega]
        rw [if_neg (show ¬(0 : ℕ) = 255 by norm_num),
          if_neg (show ¬(0 : ℕ) = 1 by norm_num),
          if_pos (show (0 : ℕ) = 0 from rfl), hxv, one_mul]
      · -- negative subnormal
        rw [hs] at hx
        rw [if_pos rfl, neg_one_mul] at hx
        have hxv : x = -(((w % 2 ^ 23 : ℕ) : ℚ) * (2 : ℚ) ^ (-149 : ℤ)) := hx.symm
        have hxneg : x < 0 := by
          rw [hxv]
          exact neg_lt_zero.mpr hApos
        have habs : |x| = ((w % 2 ^ 23 : ℕ) : ℚ) * (2 : ℚ) ^ (-149 : ℤ) := by
          rw [abs_of_neg hxneg, hxv, neg_neg]
        have hword : roundF32 x = 2 ^ 31 + w % 2 ^ 23 := by
          unfold roundF32
          rw [if_neg (ne_of_lt hxneg), if_pos hxneg, habs, hsig,
            if_pos (by exact_mod_cast hmlt)]
          omega
        rw [hword]
        unfold decodeF32
        rw [show (2 ^ 31 + w % 2 ^ 23) / 2 ^ 23 % 256 = 0 by omega,
          show (2 ^ 31 + w % 2 ^ 23) / 2 ^ 31 % 2 = 1 by omega,
          show (2 ^ 31 + w % 2 ^ 23) % 2 ^ 23 = w % 2 ^ 23 by omega]
        rw [if_neg (show ¬(0 : ℕ) = 255 by norm_num), if_pos rfl,
          if_pos (show (0 : ℕ) = 0 from rfl), hxv, neg_one_mul]
  · -- normal pattern
    rw [if_neg heb0] at hx
    have hebb : 1 ≤ w / 2 ^ 23 % 256 ∧ w / 2 ^ 23 % 256 ≤ 254 := by omega
    have hcpos : (0 : ℚ) < ((2 ^ 23 + w % 2 ^ 23 : ℕ) : ℚ) := by
      have hc : 0 < 2 ^ 23 + w % 2 ^ 23 := by omega
      exact_mod_cast hc
    have hApos : (0 : ℚ) < ((2 ^ 23 + w % 2 ^ 23 : ℕ) : ℚ) *
        (2 : ℚ) ^ (((w / 2 ^ 23 % 256 : ℕ) : ℤ) - 150) :=
      mul_pos hcpos (two_zpow_pos _)
    have hee : (((w / 2 ^ 23 % 256 : ℕ) : ℤ) - 150) =
        (((w / 2 ^ 23 % 256 : ℕ) : ℤ) - 127) - 23 := by ring
    have helow : -126 ≤ ((w / 2 ^ 23 % 256 : ℕ) : ℤ) - 127 := by
      have := hebb.1
      omega
    have hehigh : ((w / 2 ^ 23 % 256 : ℕ) : ℤ) - 127 ≤ 127 := by
      have := hebb.2
      omega
    have hAlow : (2 : ℚ) ^ (((w / 2 ^ 23 % 256 : ℕ) : ℤ) - 127) ≤
        ((2 ^ 23 + w % 2 ^ 23 : ℕ) : ℚ) *
          (2 : ℚ) ^ (((w / 2 ^ 23 % 256 : ℕ) : ℤ) - 150) := by
      have hclow : (2 : ℚ) ^ ((23 : ℕ) : ℤ) ≤ ((2 ^ 23 + w % 2 ^ 23 : ℕ) : ℚ) := by
        rw [← natCast_pow2]
        exact_mod_cast Nat.le_add_right (2 ^ 23) (w % 2 ^ 23)
      calc (2 : ℚ) ^ (((w / 2 ^ 23 % 256 : ℕ) : ℤ) - 127)
          = (2 : ℚ) ^ ((23 : ℕ) : ℤ) *
            (2 : ℚ) ^ (((w / 2 ^ 23 % 256 : ℕ) : ℤ) - 150) := by
            rw [← zpow_add₀ (by norm_num : (2 : ℚ) ≠ 0)]
            congr 1
            push_cast
            ring
        _ ≤ _ := mul_le_mul_of_nonneg_right hclow (le_of_lt (two_zpow_pos _))
    have hAhigh : ((2 ^ 23 + w % 2 ^ 23 : ℕ) : ℚ) *
        (2 : ℚ) ^ (((w / 2 ^ 23 % 256 : ℕ) : ℤ) - 150) <
        (2 : ℚ) ^ ((((w / 2 ^ 23 % 256 : ℕ) : ℤ) - 127) + 1) := by
      have hchigh : ((2 ^ 23 + w % 2 ^ 23 : ℕ) : ℚ) < (2 : ℚ) ^ ((24 : ℕ) : ℤ) := by
        rw [← natCast_pow2]
        have hc : 2 ^ 23 + w % 2 ^ 23 < 2 ^ 24 := by omega
        exact_mod_cast hc
      calc ((2 ^ 23 + w % 2 ^ 23 : ℕ) : ℚ) *
            (2 : ℚ) ^ (((w / 2 ^ 23 % 256 : ℕ) : ℤ) - 150)
          < (2 : ℚ) ^ ((24 : ℕ) : ℤ) *
            (2 : ℚ) ^ (((w / 2 ^ 23 % 256 : ℕ) : ℤ) - 150) :=
            mul_lt_mul_of_pos_right hchigh (two_zpow_pos _)
        _ = (2 : ℚ) ^ ((((w / 2 ^ 23 % 256 : ℕ) : ℤ) - 127) + 1) := by
            rw [← zpow_add₀ (by norm_num : (2 : ℚ) ≠ 0)]
            congr 1
            push_cast
            ring
    have hexp : expFor (((2 ^ 23 + w % 2 ^ 23 : ℕ) : ℚ) *
        (2 : ℚ) ^ (((w / 2 ^ 23 % 256 : ℕ) : ℤ) - 150)) =
        ((w / 2 ^ 23 % 256 : ℕ) : ℤ) - 127 :=
      expFor_normal _ _ helow hehigh hAlow hAhigh
    have hdiv : ((2 ^ 23 + w % 2 ^ 23 : ℕ) : ℚ) *
        (2 : ℚ) ^ (((w / 2 ^ 23 % 256 : ℕ) : ℤ) - 150) /
        (2 : ℚ) ^ ((((w / 2 ^ 23 % 256 : ℕ) : ℤ) - 127) - 23) =
        ((2 ^ 23 + w % 2 ^ 23 : ℕ) : ℚ) := by
      rw [← hee]
      exact mul_div_cancel_right₀ _ (ne_of_gt (two_zpow_pos _))
    have hsig : roundSig (((2 ^ 23 + w % 2 ^ 23 : ℕ) : ℚ) *
        (2 : ℚ) ^ (((w / 2 ^ 23 % 256 : ℕ) : ℤ) - 150)) =
        ((2 ^ 23 + w % 2 ^ 23 : ℕ) : ℤ) := by
      unfold roundSig
      rw [hexp, hdiv]
      exact_mod_cast rneInt_intCast ((2 ^ 23 + w % 2 ^ 23 : ℕ) : ℤ)
    have hsiglow : ¬(((2 ^ 23 + w % 2 ^ 23 : ℕ) : ℤ) < 2 ^ 23) := by
      push_cast
      omega
    have hsighigh : ((2 ^ 23 + w % 2 ^ 23 : ℕ) : ℤ) < 2 ^ 24 := by
      have hc : 2 ^ 23 + w % 2 ^ 23 < 2 ^ 24 := by omega
      exact_mod_cast hc
    rcases hs01 with hs | hs
    · -- positive normal
      rw [hs] at hx
      rw [if_neg (show ¬(0 : ℕ) = 1 by norm_num), one_mul] at hx
      have hxv : x = ((2 ^ 23 + w % 2 ^ 23 : ℕ) : ℚ) *
          (2 : ℚ) ^ (((w / 2 ^ 23 % 256 : ℕ) : ℤ) - 150) := hx.symm
      have hxpos : 0 < x := hxv ▸ hApos
      have habs : |x| = ((2 ^ 23 + w % 2 ^ 23 : ℕ) : ℚ) *
          (2 : ℚ) ^ (((w / 2 ^ 23 % 256 : ℕ) : ℤ) - 150) := by
        rw [abs_of_pos hxpos]
        exact hxv
      have hword : roundF32 x = (w / 2 ^ 23 % 256) * 2 ^ 23 + w % 2 ^ 23 := by
        unfold roundF32
        rw [if_neg (ne_of_gt hxpos), if_neg (not_lt.mpr (le_of_lt hxpos)), habs,
          hsig, hexp, if_neg hsiglow, if_pos hsighigh]
        have ht : ((((w / 2 ^ 23 % 256 : ℕ) : ℤ) - 127) + 127).toNat =
            w / 2 ^ 23 % 256 := by omega
        rw [ht]
        omega
      rw [hword]
      unfold decodeF32
      rw [show ((w / 2 ^ 23 % 256) * 2 ^ 23 + w % 2 ^ 23) / 2 ^ 23 % 256 =
          w / 2 ^ 23 % 256 by omega,
        show ((w / 2 ^ 23 % 256) * 2 ^ 23 + w % 2 ^ 23) / 2 ^ 31 % 2 = 0 by omega,
        show ((w / 2 ^ 23 % 256) * 2 ^ 23 + w % 2 ^ 23) % 2 ^ 23 = w % 2 ^ 23
          by omega]
      rw [if_neg heb, if_neg (show ¬(0 : ℕ) = 1 by norm_num), if_neg heb0, hxv,
        one_mul]
    · -- negative normal
      rw [hs] at hx
      rw [if_pos rfl, neg_one_mul] at hx
      have hxv : x = -(((2 ^ 23 + w % 2 ^ 23 : ℕ) : ℚ) *
          (2 : ℚ) ^ (((w / 2 ^ 23 % 256 : ℕ) : ℤ) - 150)) := hx.symm
      have hxneg : x < 0 := by
        rw [hxv]
        exact neg_lt_zero.mpr hApos
      have habs : |x| = ((2 ^ 23 + w % 2 ^ 23 : ℕ) : ℚ) *
          (2 : ℚ) ^ (((w / 2 ^ 23 % 256 : ℕ) : ℤ) - 150) := by
        rw [abs_of_neg hxneg, hxv, neg_neg]
      have hword : roundF32 x =
          2 ^ 31 + ((w / 2 ^ 23 % 256) * 2 ^ 23 + w % 2 ^ 23) := by
        unfold roundF32
        rw [if_neg (ne_of_lt hxneg), if_pos hxneg, habs,
          hsig, hexp, if_neg hsiglow, if_pos hsighigh]
        have ht : ((((w / 2 ^ 23 % 256 : ℕ) : ℤ) - 127) + 127).toNat =
            w / 2 ^ 23 % 256 := by omega
        rw [ht]
        omega
      rw [hword]
      unfold decodeF32
      rw [show (2 ^ 31 + ((w / 2 ^ 23 % 256) * 2 ^ 23 + w % 2 ^ 23)) / 2 ^ 23 % 256 =
          w / 2 ^ 23 % 256 by omega,
        show (2 ^ 31 + ((w / 2 ^ 23 % 256) * 2 ^ 23 + w % 2 ^ 23)) / 2 ^ 31 % 2 = 1
          by omega,
        show (2 ^ 31 + ((w / 2 ^ 23 % 256) * 2 ^ 23 + w % 2 ^ 23)) % 2 ^ 23 =
          w % 2 ^ 23 by omega]
      rw [if_neg heb, if_pos rfl, if_neg heb0, hxv, neg_one_mul]

theorem embeddingToBuffer_length (v : List ℚ) :
    (embeddingToBuffer v).length = 4 * v.length := by
  induction v with
  | nil => rfl
  | cons x rest ih =>
    show (encodeWordLE (roundF32 x) ++ embeddingToBuffer rest).length = _
    rw [List.length_append, ih]
    rw [show (encodeWordLE (roundF32 x)).length = 4 from rfl, List.length_cons]
    ring

theorem bufferToEmbedding_embeddingToBuffer (v : List ℚ) :
    bufferToEmbedding (embeddingToBuffer v) =
      v.map (fun x => decodeF32 (roundF32 x)) := by
  induction v with
  | nil => rfl
  | cons x rest ih =>
    show bufferToEmbedding (encodeWordLE (roundF32 x) ++ embeddingToBuffer rest) = _
    rw [bufferToEmbedding_encode_cons _ (roundF32_lt x), ih, List.map_cons]

theorem decodeF32_one : decodeF32 (127 * 2 ^ 23) = some 1 := by
  unfold decodeF32
  rw [show 127 * 2 ^ 23 / 2 ^ 23 % 256 = 127 by norm_num,
    show 127 * 2 ^ 23 / 2 ^ 31 % 2 = 0 by norm_num,
    show 127 * 2 ^ 23 % 2 ^ 23 = 0 by norm_num]
  rw [if_neg (show ¬(127 : ℕ) = 255 by norm_num),
    if_neg (show ¬(0 : ℕ) = 1 by norm_num),
    if_neg (show ¬(127 : ℕ) = 0 by norm_num), one_mul]
  congr 1
  rw [show (((127 : ℕ) : ℤ) - 150) = -((23 : ℕ) : ℤ) by norm_num, zpow_neg,
    ← natCast_pow2]
  rw [show ((2 ^ 23 + 0 : ℕ) : ℚ) = ((2 ^ 23 : ℕ) : ℚ) by norm_num]
  exact mul_inv_cancel₀ (by norm_num)

/-- **C6.** `embeddingToBuffer` stores one 4-byte little-endian float32 per
component (buffer length `4 · n`); `bufferToEmbedding` reads them back, so
the round-trip equals the vector with every component rounded to binary32
precision (round-to-nearest, ties-to-even), and it reproduces the vector
exactly whenever every component is representable as a finite binary32
value. -/
theorem claim_c6_float32_roundtrip (v : List ℚ) :
    (embeddingToBuffer v).length = 4 * v.length ∧
    bufferToEmbedding (embeddingToBuffer v) =
      v.map (fun x => decodeF32 (roundF32 x)) ∧
    ((∀ x ∈ v, ∃ w, decodeF32 w = some x) →
      bufferToEmbedding (embeddingToBuffer v) = v.map some) := by
  refine ⟨embeddingToBuffer_length v, bufferToEmbedding_embeddingToBuffer v, ?_⟩
  intro hrep
  rw [bufferToEmbedding_embeddingToBuffer v]
  refine List.map_congr_left (fun x hx => ?_)
  obtain ⟨w, hw⟩ := hrep x hx
  exact decode_round_exact w x hw

/-- Concrete instance of C6: the two representable components 0 and 1
round-trip exactly. -/
theorem claim_c6_float32_roundtrip_witness :
    (∀ x ∈ [(0 : ℚ), 1], ∃ w, decodeF32 w = some x) ∧
    bufferToEmbedding (embeddingToBuffer [(0 : ℚ), 1]) = [some 0, some 1] := by
  have hyp : ∀ x ∈ [(0 : ℚ), 1], ∃ w, decodeF32 w = some x := by
    intro x hx
    rcases List.mem_cons.mp hx with h | h
    · exact ⟨0, by rw [h]; exact decodeF32_zero⟩
    · simp only [List.mem_singleton] at h
      exact ⟨127 * 2 ^ 23, by rw [h]; exact decodeF32_one⟩
  exact ⟨hyp, (claim_c6_float32_roundtrip [0, 1]).2.2 hyp⟩

end ClawCRM
